import Mathlib

/-! Explicit free-list heap allocator (`explicit.c`).

A shallow embedding of the explicit allocator.  The segment and everything around it
is one byte-addressed memory; headers and free-list nodes are read and written through
little-endian multi-byte accesses, so that every aliasing between headers, nodes and
payload bytes that the C code can produce is present in the model.

* addresses are natural numbers, `NULL` is `0`; pointers stored in memory occupy 8 bytes,
* `header` is `{unsigned int size; int status}` (4 + 4 bytes),
* `prev_next` is `{void *next; void *prev}` (8 + 8 bytes),
* `size_t` arithmetic is taken modulo `2 ^ 64`, stores into `size` modulo `2 ^ 32`.
-/

namespace Explicit

/-! ## Byte-addressed memory -/

/-- Memory: a byte (taken modulo 256 when read) at every address. -/
abbrev Mem := Nat → Nat

/-- Little-endian read of `n` bytes starting at `a`. -/
def rd (m : Mem) (a : Nat) : Nat → Nat
  | 0 => 0
  | n + 1 => m a % 256 + 256 * rd m (a + 1) n

/-- Little-endian write of the low `n` bytes of `v` starting at `a`. -/
def wr (m : Mem) (a n v : Nat) : Mem :=
  fun x => if a ≤ x ∧ x < a + n then v / 256 ^ (x - a) % 256 else m x

/-- The C function `memcpy(dst, src, n)` for non-overlapping ranges. -/
def memcpy (m : Mem) (dst src n : Nat) : Mem :=
  fun x => if dst ≤ x ∧ x < dst + n then m (src + (x - dst)) else m x

/-! ## Sizes of the C types and the macros of `explicit.c` -/

/-- The constant `sizeof(header)`. -/
@[simp] def sizeof_header : Nat := 8
/-- The constant `sizeof(prev_next)`. -/
@[simp] def sizeof_prev_next : Nat := 16
/-- The constant `sizeof(size_t)`. -/
@[simp] def sizeof_size_t : Nat := 8
/-- The macro `ALIGNMENT`. -/
@[simp] def ALIGNMENT : Nat := 8
/-- The macro `BUF_DATA_SIZE`, textually `sizeof(header) + sizeof(prev_next)`. -/
@[simp] def BUF_DATA_SIZE : Nat := sizeof_header + sizeof_prev_next
/-- The macro `MAX_HEAP_SIZE`, textually `1<<30`. -/
@[simp] def MAX_HEAP_SIZE : Nat := 1 <<< 30
/-- The null pointer. -/
@[simp] def NULL : Nat := 0

/-- Subtraction of two `size_t` values (wraps modulo `2 ^ 64`). -/
def sub64 (a b : Nat) : Nat := (a + 18446744073709551616 - b % 18446744073709551616) % 18446744073709551616

/-! ## Field accessors: `((header*)p)->size` and friends -/

/-- Reads `((header*)h)->size`. -/
def hsize (m : Mem) (h : Nat) : Nat := rd m h 4
/-- Reads `((header*)h)->status`. -/
def hstatus (m : Mem) (h : Nat) : Nat := rd m (h + 4) 4
/-- Reads `((prev_next*)n)->next`. -/
def nnext (m : Mem) (n : Nat) : Nat := rd m n 8
/-- Reads `((prev_next*)n)->prev`. -/
def nprev (m : Mem) (n : Nat) : Nat := rd m (n + 8) 8
/-- Writes `((header*)h)->size = v`. -/
def set_size (m : Mem) (h v : Nat) : Mem := wr m h 4 v
/-- Writes `((header*)h)->status = v`. -/
def set_status (m : Mem) (h v : Nat) : Mem := wr m (h + 4) 4 v
/-- Writes `((prev_next*)n)->next = v`. -/
def set_next (m : Mem) (n v : Nat) : Mem := wr m n 8 v
/-- Writes `((prev_next*)n)->prev = v`. -/
def set_prev (m : Mem) (n v : Nat) : Mem := wr m (n + 8) 8 v

/-- The globals of `explicit.c` together with the memory they point into. -/
structure State where
  mem : Mem
  segment_begin : Nat
  segment_end : Nat
  f_start : Nat

/-! ## The functions of `explicit.c` -/

/-- The C function `roundup`: `(size + mult - 1) & ~(mult - 1)` on 64-bit `size_t`. -/
def roundup (size mult : Nat) : Nat :=
  ((size + mult - 1) % 18446744073709551616) &&& (18446744073709551615 - (mult - 1))

/-- The C function `get_next_hdr`. -/
def get_next_hdr (m : Mem) (pntr : Nat) : Nat := pntr + hsize m pntr + sizeof_header + sizeof_prev_next
/-- The C function `hdr_to_prev_next`. -/
def hdr_to_prev_next (pntr : Nat) : Nat := pntr + sizeof_header
/-- The C function `hdr_to_payload`. -/
def hdr_to_payload (pntr : Nat) : Nat := pntr + sizeof_header + sizeof_prev_next
/-- The C function `payload_to_hdr`. -/
def payload_to_hdr (pntr : Nat) : Nat := pntr - sizeof_header - sizeof_prev_next
/-- The C function `prev_next_to_payload`. -/
def prev_next_to_payload (pntr : Nat) : Nat := pntr + sizeof_prev_next
/-- The C function `prev_next_to_hdr`. -/
def prev_next_to_hdr (pntr : Nat) : Nat := pntr - sizeof_header
/-- The C function `payload_to_prev_next`. -/
def payload_to_prev_next (pntr : Nat) : Nat := pntr - sizeof_prev_next

/-- The C function `remove_node`. -/
def remove_node (st : State) (pntr : Nat) : State :=
  if st.f_start = NULL then st
  else
    let prev_pntr := nprev st.mem pntr
    let next_pntr := nnext st.mem pntr
    if next_pntr ≠ NULL ∧ prev_pntr = NULL then
      { st with f_start := next_pntr, mem := set_prev st.mem next_pntr NULL }
    else if next_pntr = NULL ∧ prev_pntr ≠ NULL then
      { st with mem := set_next st.mem prev_pntr NULL }
    else if next_pntr = NULL ∧ prev_pntr = NULL then
      { st with f_start := NULL }
    else
      { st with mem := set_prev (set_next st.mem prev_pntr next_pntr) next_pntr prev_pntr }

/-- The C function `add_node`. -/
def add_node (st : State) (pntr : Nat) : State :=
  let new_node := pntr
  if new_node = NULL then st
  else
    let hdr := prev_next_to_hdr pntr
    let m1 := set_status st.mem hdr 0
    if st.f_start = NULL then
      { st with mem := set_prev (set_next m1 new_node NULL) new_node NULL, f_start := new_node }
    else
      { st with
        mem := set_prev (set_prev (set_next m1 new_node st.f_start) st.f_start new_node) new_node NULL,
        f_start := new_node }

/-- The C function `merge_free`. -/
def merge_free (st : State) (pntr : Nat) : State :=
  let free_hdr := get_next_hdr st.mem pntr
  if get_next_hdr st.mem free_hdr > st.segment_end then st
  else if free_hdr ≥ st.segment_end ∨ hstatus st.mem free_hdr ≠ 0 then st
  else
    let m1 := set_size st.mem pntr (hsize st.mem pntr + hsize st.mem free_hdr + sizeof_header + sizeof_prev_next)
    remove_node { st with mem := m1 } (hdr_to_prev_next free_hdr)

/-- The C function `create_chunk_hdr`. -/
def create_chunk_hdr (st : State) (pntr width : Nat) ( _is_realloc : Bool) : State :=
  let width := if width < sizeof_prev_next + sizeof_header then sizeof_prev_next + sizeof_size_t else width
  let new_chunk_hdr := pntr + width + sizeof_header + sizeof_prev_next
  let m1 := set_status st.mem new_chunk_hdr 0
  let m2 := set_size m1 new_chunk_hdr (sub64 (sub64 (sub64 (hsize m1 pntr) width) sizeof_header) sizeof_prev_next)
  let m3 := set_size m2 pntr width
  let m4 := set_status m3 pntr 1
  let st1 := remove_node { st with mem := m4 } (hdr_to_prev_next pntr)
  add_node st1 (hdr_to_prev_next new_chunk_hdr)

/-- The C function `shrink_chunk`. -/
def shrink_chunk (st : State) (pntr width : Nat) : Bool × State :=
  let width := roundup width ALIGNMENT
  let width := if width < sizeof_prev_next then sizeof_prev_next else width
  let remainder := sub64 (hsize st.mem pntr) width
  if hsize st.mem pntr = width then
    (true, { st with mem := set_status st.mem pntr 1 })
  else if remainder < sizeof_prev_next + sizeof_header + BUF_DATA_SIZE then
    (false, st)
  else if hsize st.mem pntr > width then
    let st1 := merge_free st pntr
    let m2 := set_status st1.mem pntr 1
    let new_hdr := pntr + width + sizeof_header + sizeof_prev_next
    let m3 := set_size m2 new_hdr (sub64 (sub64 (sub64 (hsize m2 pntr) width) sizeof_header) sizeof_prev_next)
    let m4 := set_status m3 new_hdr 0
    let m5 := set_size m4 pntr width
    (true, add_node { st1 with mem := m5 } (hdr_to_prev_next new_hdr))
  else
    (false, st)

/-- The C function `in_place_realloc`.  The sum of the two `unsigned int` sizes is an
`unsigned int`: it wraps modulo `2 ^ 32` before the comparison with the `size_t`. -/
def in_place_realloc (st : State) (pntr formatted_sz : Nat) : Bool × State :=
  let next_hdr := get_next_hdr st.mem pntr
  if hstatus st.mem next_hdr = 0 then
    if (hsize st.mem next_hdr + hsize st.mem pntr) % 4294967296 < formatted_sz then
      (false, st)
    else
      let st1 := merge_free st pntr
      let st2 := remove_node { st1 with mem := set_status st1.mem next_hdr 1 } (hdr_to_prev_next next_hdr)
      let new_hdr := pntr + formatted_sz + sizeof_header + sizeof_prev_next
      let m3 := set_size st2.mem new_hdr
        (sub64 (sub64 (sub64 (hsize st2.mem pntr) formatted_sz) sizeof_header) sizeof_prev_next)
      let m4 := set_status m3 new_hdr 0
      let m5 := set_size m4 pntr formatted_sz
      (true, add_node { st2 with mem := m5 } (hdr_to_prev_next new_hdr))
  else
    (false, st)

/-- The C function `myinit`.  The pointer addition `(char*)segment_start + segment_size` is
taken modulo `2 ^ 64`, so that `segment_end == NULL` holds when the sum wraps around to 0. -/
def myinit (st : State) (segment_start segment_size : Nat) : Bool × State :=
  if segment_size ≤ 0 then (false, st)
  else
    let segment_begin := segment_start
    let segment_end := (segment_start + segment_size) % 18446744073709551616
    if segment_begin = NULL ∨ segment_end = NULL then
      (false, { st with segment_begin := segment_begin, segment_end := segment_end })
    else
      let m1 := set_size st.mem segment_begin (sub64 (sub64 segment_size sizeof_header) sizeof_prev_next)
      let f_start := hdr_to_prev_next segment_begin
      let m2 := set_next m1 f_start NULL
      let m3 := set_prev m2 f_start NULL
      (true, { mem := m3, segment_begin := segment_begin, segment_end := segment_end, f_start := f_start })

/-- The `while` loop of `mymalloc`: walks the free list from `curr_node`; the result is the
first node whose block is large enough, `NULL` at the end of the list, and `none` when the
loop has not finished within `fuel` iterations. -/
def malloc_scan (m : Mem) (formatted_sz : Nat) : Nat → Nat → Option Nat
  | 0, _ => none
  | fuel + 1, curr_node =>
    if curr_node = NULL then some NULL
    else if hsize m (prev_next_to_hdr curr_node) > formatted_sz + BUF_DATA_SIZE then some curr_node
    else malloc_scan m formatted_sz fuel (nnext m curr_node)

/-- The C function `mymalloc`; `none` when the loop needs more than `fuel` iterations. -/
def mymalloc (fuel : Nat) (st : State) (requestedsz : Nat) : Option (Nat × State) :=
  if requestedsz > 1 <<< 30 ∨ requestedsz ≤ 0 then some (NULL, st)
  else if st.f_start = NULL then some (NULL, st)
  else
    let formatted_sz := roundup requestedsz ALIGNMENT
    let formatted_sz :=
      if formatted_sz < sizeof_header + sizeof_prev_next then sizeof_header + sizeof_prev_next
      else formatted_sz
    match malloc_scan st.mem formatted_sz fuel st.f_start with
    | none => none
    | some curr_node =>
      if curr_node = NULL then some (NULL, st)
      else
        some (prev_next_to_payload curr_node,
          create_chunk_hdr st (prev_next_to_hdr curr_node) formatted_sz false)

/-- The C function `myfree`. -/
def myfree (st : State) (ptr : Nat) : State :=
  if ptr = NULL then st
  else
    let hdr := payload_to_hdr ptr
    let node := payload_to_prev_next ptr
    let st1 := add_node { st with mem := set_status st.mem hdr 0 } node
    merge_free st1 hdr

/-- The tail of `myrealloc` shared by both fallbacks: `mymalloc`, `memcpy` of `ncopy` bytes,
`myfree` of the old block. -/
def realloc_fallback (fuel : Nat) (st : State) (oldptr formatted_sz ncopy : Nat) : Option (Nat × State) :=
  match mymalloc fuel st formatted_sz with
  | none => none
  | some (ret_pntr, st1) =>
    if ret_pntr = NULL then some (NULL, st1)
    else some (ret_pntr, myfree { st1 with mem := memcpy st1.mem ret_pntr oldptr ncopy } oldptr)

/-- The C function `myrealloc`; `none` when a loop of `mymalloc` needs more than `fuel`
iterations. -/
def myrealloc (fuel : Nat) (st : State) (oldptr newsz : Nat) : Option (Nat × State) :=
  if oldptr < st.segment_begin ∨ oldptr > st.segment_end ∨ oldptr = NULL then mymalloc fuel st newsz
  else
    let hdr_pntr := payload_to_hdr oldptr
    let orig_size := hsize st.mem hdr_pntr
    if newsz > MAX_HEAP_SIZE then some (NULL, st)
    else if newsz = 0 then some (NULL, st)
    else
      let formatted_sz := roundup newsz ALIGNMENT
      if orig_size = formatted_sz then some (oldptr, st)
      else if orig_size > formatted_sz then
        if (shrink_chunk st hdr_pntr formatted_sz).1 then
          some (oldptr, (shrink_chunk st hdr_pntr formatted_sz).2)
        else
          realloc_fallback fuel (shrink_chunk st hdr_pntr formatted_sz).2 oldptr formatted_sz formatted_sz
      else if (in_place_realloc st hdr_pntr formatted_sz).1 then
        some (oldptr, (in_place_realloc st hdr_pntr formatted_sz).2)
      else
        realloc_fallback fuel (in_place_realloc st hdr_pntr formatted_sz).2 oldptr formatted_sz orig_size



/-! ## Abstract view of a state: the block tiling and the free list -/

/-- A block of the tiling: the address of its header, the value of its `size` field and
whether its node is a member of the free list. -/
structure Blk where
  hdr : Nat
  size : Nat
  free : Bool
deriving DecidableEq

/-- End of a block: 8-byte header, 16-byte node, `size` payload bytes. -/
def Blk.fin (b : Blk) : Nat := b.hdr + 24 + b.size

/-- The blocks `bs` lie one after the other from `a` and end exactly at `e`. -/
def Contig : Nat → Nat → List Blk → Prop
  | a, e, [] => a = e
  | a, e, b :: t => b.hdr = a ∧ Contig (a + 24 + b.size) e t

/-- What memory holds for one block: the header stores the size, a block outside the free
list has a non-zero status and, when `S` (strict duality) is asked for, a block of the free
list has status `0`. -/
def BlkOK (S : Prop) (m : Mem) (b : Blk) : Prop :=
  hsize m b.hdr = b.size ∧
  (b.free = false → hstatus m b.hdr ≠ 0) ∧
  (b.free = true → S → hstatus m b.hdr = 0)

/-- Every used block has a size that is a multiple of 8 and at least 16. -/
def UsedAligned (bs : List Blk) : Prop :=
  ∀ b ∈ bs, b.free = false → 16 ≤ b.size ∧ b.size % 8 = 0

/-- Every used block ends strictly before `E`: the last block of the tiling is not used. -/
def UsedNotLast (E : Nat) (bs : List Blk) : Prop :=
  ∀ b ∈ bs, b.free = false → b.hdr + 24 + b.size < E

/-- Doubly linked list segment: the nodes `l` in order, starting at `c`, the first one with
`prev = p`, the last one with `next = nx`. -/
def dll (m : Mem) : Nat → Nat → List Nat → Nat → Prop
  | _, c, [], nx => c = nx
  | p, c, n :: t, nx => c = n ∧ n ≠ 0 ∧ nprev m n = p ∧ dll m n (nnext m n) t nx

/-- Whether a list of nodes is a doubly linked list segment can be computed. -/
def dll.dec (m : Mem) : (p c : Nat) → (l : List Nat) → (nx : Nat) → Decidable (dll m p c l nx)
  | _, c, [], nx => (inferInstance : Decidable (c = nx))
  | p, c, n :: t, nx =>
    have : Decidable (dll m n (nnext m n) t nx) := dll.dec m n (nnext m n) t nx
    (inferInstance : Decidable (c = n ∧ n ≠ 0 ∧ nprev m n = p ∧ dll m n (nnext m n) t nx))

instance (m : Mem) (p c : Nat) (l : List Nat) (nx : Nat) : Decidable (dll m p c l nx) :=
  dll.dec m p c l nx

/-- Last element of a list of nodes, `p` when the list is empty. -/
def lastOr : List Nat → Nat → Nat
  | [], p => p
  | n :: t, _ => lastOr t n

/-- First element of a list of nodes, `NULL` when the list is empty. -/
def headOr : List Nat → Nat
  | [] => 0
  | n :: _ => n

/-- The state `st` is represented by the tiling `bs` and the free list `fl` (in list order
from `f_start`): the segment fits 64-bit pointers and 32-bit sizes, the blocks tile it, the
headers agree with the blocks, the free list is a doubly linked list without repetition whose
members are exactly the nodes of the free blocks. -/
structure Rep (S : Prop) (st : State) (bs : List Blk) (fl : List Nat) : Prop where
  lt64 : st.segment_end < 18446744073709551616
  lt32 : st.segment_end < st.segment_begin + 24 + 4294967296
  contig : Contig st.segment_begin st.segment_end bs
  ok : ∀ b ∈ bs, BlkOK S st.mem b
  list : dll st.mem 0 st.f_start fl 0
  nodup : fl.Nodup
  mem : ∀ x, x ∈ fl ↔ ∃ b ∈ bs, b.free = true ∧ x = b.hdr + 8

/-- Nodes of a list are distinct, fit a 64-bit pointer and their 16-byte bodies do not overlap. -/
def Nodes (l : List Nat) : Prop :=
  l.Nodup ∧ (∀ a ∈ l, a < 18446744073709551616) ∧
  (∀ a ∈ l, ∀ b ∈ l, a = b ∨ a + 16 ≤ b ∨ b + 16 ≤ a)

/-- The value of `formatted_sz` in `mymalloc`: the request rounded up to a multiple of 8 and
promoted to `sizeof(header) + sizeof(prev_next)` when smaller. -/
def fmt (requestedsz : Nat) : Nat :=
  if roundup requestedsz ALIGNMENT < sizeof_header + sizeof_prev_next then
    sizeof_header + sizeof_prev_next
  else roundup requestedsz ALIGNMENT

/-- The tiling and the free list of `Rep` together with the two facts about used blocks that
hold in every state the allocator reaches. -/
def Good (S : Prop) (st : State) (bs : List Blk) (fl : List Nat) : Prop :=
  Rep S st bs fl ∧ UsedNotLast st.segment_end bs ∧ UsedAligned bs

/-- Only bytes of headers and nodes of the old tiling `bs` or the new tiling `bs2` differ
between the memories `m` and `m2`. -/
def OnlyMeta (m m2 : Mem) (bs bs2 : List Blk) : Prop :=
  ∀ x, (∀ b ∈ bs, x < b.hdr ∨ b.hdr + 24 ≤ x) → (∀ b ∈ bs2, x < b.hdr ∨ b.hdr + 24 ≤ x) →
    m2 x = m x

/-- The request `n` rounded up to a multiple of 8 and promoted to the minimum of 24 bytes,
as plain arithmetic. -/
def roundedRequest (n : Nat) : Nat :=
  if (n + 7) / 8 * 8 < 24 then 24 else (n + 7) / 8 * 8

/-- A memory that holds zero everywhere. -/
def zeroMem : Mem := fun _ => 0

/-- A state before any call, over a zeroed memory. -/
def blank : State := { mem := zeroMem, segment_begin := 0, segment_end := 0, f_start := 0 }

/-- A state before any call, over a memory whose byte at address 1004 is 1 and which is zero
elsewhere. -/
def dirty : State :=
  { mem := fun x => if x = 1004 then 1 else 0, segment_begin := 0, segment_end := 0, f_start := 0 }

/-- Summary of one operation on the block with header `h`: the new state is represented by
`bs2` and `fl2`, the segment bounds are unchanged, only header and node bytes differ, and
the used blocks other than the one at `h` are the same before and after. -/
structure Moved (S : Prop) (st st2 : State) (bs : List Blk) (h : Nat) (bs2 : List Blk)
    (fl2 : List Nat) : Prop where
  rep : Rep S st2 bs2 fl2
  segb : st2.segment_begin = st.segment_begin
  sege : st2.segment_end = st.segment_end
  meta : OnlyMeta st.mem st2.mem bs bs2
  keep : ∀ b ∈ bs, b.free = false → b.hdr ≠ h → b ∈ bs2
  fresh : ∀ b ∈ bs2, b.free = false → b.hdr ≠ h → b ∈ bs

/-- The value of `width` in `shrink_chunk` after rounding and promotion to `sizeof(prev_next)`. -/
def shrinkWidth (width : Nat) : Nat :=
  if roundup width ALIGNMENT < sizeof_prev_next then sizeof_prev_next else roundup width ALIGNMENT

/-- The states reachable from `myinit st0 start length` by `mymalloc`, `myfree` and `myrealloc`
calls, together with the list of currently allocated payload addresses: the addresses that
`mymalloc` or `myrealloc` returned and that have not been released since.  `myfree` and
`myrealloc` are only applied to currently allocated addresses. -/
inductive Reach (st0 : State) (start length : Nat) : State → List Nat → Prop
  | init : Reach st0 start length (myinit st0 start length).2 []
  | alloc {st : State} {A : List Nat} (n fuel p : Nat) (st2 : State) :
      Reach st0 start length st A → mymalloc fuel st n = some (p, st2) →
      Reach st0 start length st2 (if p = NULL then A else p :: A)
  | release {st : State} {A : List Nat} (p : Nat) :
      Reach st0 start length st A → p ∈ A →
      Reach st0 start length (myfree st p) (A.filter (fun x => decide (x ≠ p)))
  | resize {st : State} {A : List Nat} (p n fuel q : Nat) (st2 : State) :
      Reach st0 start length st A → p ∈ A → myrealloc fuel st p n = some (q, st2) →
      Reach st0 start length st2
        (if q = NULL then A else q :: A.filter (fun x => decide (x ≠ p)))

/-- The invariant of the reachable states: a representation in which no used block is last,
used blocks have aligned sizes, and every currently allocated address is the payload of a
used block. -/
def Inv (S : Prop) (st : State) (A : List Nat) : Prop :=
  ∃ bs fl, Rep S st bs fl ∧ UsedNotLast st.segment_end bs ∧ UsedAligned bs ∧
    ∀ p ∈ A, ∃ b ∈ bs, b.free = false ∧ p = b.hdr + 24

/-- Walking `get_next_hdr` from `a` visits exactly the headers `hs` and stops exactly at `e`. -/
def Walk (m : Mem) : Nat → Nat → List Nat → Prop
  | a, e, [] => a = e
  | a, e, h :: t => h = a ∧ a < e ∧ Walk m (get_next_hdr m a) e t

/-! ## The size subtractions of the code

For each function that subtracts sizes, the proposition that on the path it takes from the
given state every subtraction has a minuend at least as large as its subtrahend. -/

/-- No underflow in `create_chunk_hdr`: `size - width - sizeof(header) - sizeof(prev_next)`. -/
def create_chunk_hdr_exact (st : State) (pntr width : Nat) : Prop :=
  let width := if width < sizeof_prev_next + sizeof_header then sizeof_prev_next + sizeof_size_t else width
  let new_chunk_hdr := pntr + width + sizeof_header + sizeof_prev_next
  let m1 := set_status st.mem new_chunk_hdr 0
  width + sizeof_header + sizeof_prev_next ≤ hsize m1 pntr

/-- No underflow in `shrink_chunk`: `remainder = size - width`, and on the splitting path
`size - width - sizeof(header) - sizeof(prev_next)`. -/
def shrink_chunk_exact (st : State) (pntr width : Nat) : Prop :=
  let width := roundup width ALIGNMENT
  let width := if width < sizeof_prev_next then sizeof_prev_next else width
  width ≤ hsize st.mem pntr ∧
  (if hsize st.mem pntr = width then True
   else if sub64 (hsize st.mem pntr) width < sizeof_prev_next + sizeof_header + BUF_DATA_SIZE then True
   else if hsize st.mem pntr > width then
     width + sizeof_header + sizeof_prev_next ≤
       hsize (set_status (merge_free st pntr).mem pntr 1) pntr
   else True)

/-- No underflow in `in_place_realloc`: on the growing path
`size - formatted_sz - sizeof(header) - sizeof(prev_next)`. -/
def in_place_realloc_exact (st : State) (pntr formatted_sz : Nat) : Prop :=
  let next_hdr := get_next_hdr st.mem pntr
  if hstatus st.mem next_hdr = 0 then
    if (hsize st.mem next_hdr + hsize st.mem pntr) % 4294967296 < formatted_sz then True
    else
      let st1 := merge_free st pntr
      let st2 := remove_node { st1 with mem := set_status st1.mem next_hdr 1 } (hdr_to_prev_next next_hdr)
      formatted_sz + sizeof_header + sizeof_prev_next ≤ hsize st2.mem pntr
  else True

/-- No underflow in `mymalloc`: the call of `create_chunk_hdr` it makes, if any. -/
def mymalloc_exact (fuel : Nat) (st : State) (requestedsz : Nat) : Prop :=
  if requestedsz > 1 <<< 30 ∨ requestedsz ≤ 0 then True
  else if st.f_start = NULL then True
  else
    match malloc_scan st.mem (fmt requestedsz) fuel st.f_start with
    | none => True
    | some curr_node =>
      if curr_node = NULL then True
      else create_chunk_hdr_exact st (prev_next_to_hdr curr_node) (fmt requestedsz)

/-- No underflow in `myrealloc`: the calls of `shrink_chunk`, `in_place_realloc` and
`mymalloc` it makes. -/
def myrealloc_exact (fuel : Nat) (st : State) (oldptr newsz : Nat) : Prop :=
  if oldptr < st.segment_begin ∨ oldptr > st.segment_end ∨ oldptr = NULL then
    mymalloc_exact fuel st newsz
  else
    let hdr_pntr := payload_to_hdr oldptr
    let orig_size := hsize st.mem hdr_pntr
    if newsz > MAX_HEAP_SIZE then True
    else if newsz = 0 then True
    else
      let formatted_sz := roundup newsz ALIGNMENT
      if orig_size = formatted_sz then True
      else if orig_size > formatted_sz then
        shrink_chunk_exact st hdr_pntr formatted_sz ∧
          ((shrink_chunk st hdr_pntr formatted_sz).1 = false → mymalloc_exact fuel st formatted_sz)
      else
        in_place_realloc_exact st hdr_pntr formatted_sz ∧
          ((in_place_realloc st hdr_pntr formatted_sz).1 = false →
            mymalloc_exact fuel st formatted_sz)

/-- The state after `myinit` of the 200 bytes at address 1000 of a zeroed memory. -/
def heap200 : State := (myinit blank 1000 200).2

/-- The state after `mymalloc(8)` on `heap200`; the call returns 1024. -/
def heap200a : State := create_chunk_hdr heap200 1000 24 false

/-- The state after `myrealloc(1024, 100)` on `heap200a`: the block grows in place. -/
def heap200b : State := (in_place_realloc heap200a 1000 104).2

/-- The C function `validate_heap`: its first statement is `return true;`, the walk over the
blocks and the free list that follows in the source is never reached.  The function writes
nothing, so the state is only an argument. -/
def validate_heap (_st : State) : Bool := true

/-- No two consecutive blocks of the tiling are both free. -/
def NoAdjFree : List Blk → Prop
  | [] => True
  | [_] => True
  | a :: b :: t => ¬ (a.free = true ∧ b.free = true) ∧ NoAdjFree (b :: t)

/-- Whether a tiling has two consecutive free blocks can be computed. -/
def NoAdjFree.dec : (bs : List Blk) → Decidable (NoAdjFree bs)
  | [] => isTrue trivial
  | [_] => isTrue trivial
  | a :: b :: t =>
    have : Decidable (NoAdjFree (b :: t)) := NoAdjFree.dec (b :: t)
    (inferInstance : Decidable (¬ (a.free = true ∧ b.free = true) ∧ NoAdjFree (b :: t)))

instance (bs : List Blk) : Decidable (NoAdjFree bs) := NoAdjFree.dec bs

/-- Every block of the tiling has a size that is a multiple of 8. -/
def AllAligned (bs : List Blk) : Prop := ∀ b ∈ bs, b.size % 8 = 0

/-- The state after `myinit` of the 64 bytes at address 1000 of a zeroed memory. -/
def heap64 : State := (myinit blank 1000 64).2

/-- The state after `myinit` of the 80 bytes at address 1000 of a zeroed memory. -/
def heap80 : State := (myinit blank 1000 80).2

/-- The state after `mymalloc(8)` on `heap80`; the call returns 1024. -/
def heap80a : State := create_chunk_hdr heap80 1000 24 false

/-- The state after a second `mymalloc(8)`, on `heap200a`; the call returns 1072. -/
def heap200ab : State := create_chunk_hdr heap200a 1048 24 false

/-- The state after `mymalloc(40)` on `heap200`; the call returns 1024. -/
def heap200c : State := create_chunk_hdr heap200 1000 40 false

/-- The state after `myinit` of the `2 ^ 31` bytes at address 1000 of a zeroed memory. -/
def heapBig : State := (myinit blank 1000 2147483648).2

/-- The state after `mymalloc(8)` on `heapBig`; the call returns 1024. -/
def heapBiga : State := create_chunk_hdr heapBig 1000 24 false

/-- The state after `myfree(1024)` on `heap200a`: the whole heap is one free block again. -/
def heap200f : State := myfree heap200a 1024

/-! ## Reading and writing memory -/

theorem rd_lt (m : Mem) (a n : Nat) : rd m a n < 256 ^ n := by
  induction n generalizing a with
  | zero => simp [rd]
  | succ k ih =>
    have h1 := ih (a + 1)
    have h2 : m a % 256 < 256 := Nat.mod_lt _ (by decide)
    simp only [rd, pow_succ]
    omega

theorem rd_congr {m m2 : Mem} {a n : Nat} (h : ∀ x, a ≤ x → x < a + n → m2 x = m x) :
    rd m2 a n = rd m a n := by
  induction n generalizing a with
  | zero => simp [rd]
  | succ k ih =>
    simp only [rd]
    rw [h a (le_refl _) (by omega), ih (fun x h1 h2 => h x (by omega) (by omega))]

theorem wr_out {m : Mem} {a n v x : Nat} (h : x < a ∨ a + n ≤ x) : wr m a n v x = m x := by
  unfold wr
  rw [if_neg]
  omega

theorem rd_wr_disj {m : Mem} {a n v b k : Nat} (h : b + k ≤ a ∨ a + n ≤ b) :
    rd (wr m a n v) b k = rd m b k :=
  rd_congr (fun x h1 h2 => wr_out (by omega))

theorem rd_wr_aux (m : Mem) (a n v : Nat) :
    ∀ k i, i + k = n → rd (wr m a n v) (a + i) k = v / 256 ^ i % 256 ^ k := by
  intro k
  induction k with
  | zero => intro i _; simp [rd, Nat.mod_one]
  | succ k ih =>
    intro i hi
    have h1 := ih (i + 1) (by omega)
    simp only [rd]
    rw [show a + i + 1 = a + (i + 1) by omega, h1]
    have h2 : wr m a n v (a + i) = v / 256 ^ i % 256 := by
      unfold wr
      rw [if_pos (by omega)]
      simp
    rw [h2, Nat.mod_mod, pow_succ 256 i, ← Nat.div_div_eq_div_mul, pow_succ 256 k,
      Nat.mul_comm (256 ^ k) 256, Nat.mod_mul]

theorem rd_wr_same (m : Mem) (a n v : Nat) : rd (wr m a n v) a n = v % 256 ^ n := by
  have h := rd_wr_aux m a n v n 0 (by omega)
  simpa using h

theorem rd_wr_same4 {m : Mem} {a v : Nat} (h : v < 4294967296) : rd (wr m a 4 v) a 4 = v := by
  rw [rd_wr_same]
  exact Nat.mod_eq_of_lt (by norm_num; exact h)

theorem rd_wr_same8 {m : Mem} {a v : Nat} (h : v < 18446744073709551616) : rd (wr m a 8 v) a 8 = v := by
  rw [rd_wr_same]
  exact Nat.mod_eq_of_lt (by norm_num; exact h)

theorem rd4_lt (m : Mem) (a : Nat) : rd m a 4 < 4294967296 := by
  have h := rd_lt m a 4
  norm_num at h
  exact h

theorem rd8_lt (m : Mem) (a : Nat) : rd m a 8 < 18446744073709551616 := by
  have h := rd_lt m a 8
  norm_num at h
  exact h

theorem memcpy_out {m : Mem} {d s n x : Nat} (h : x < d ∨ d + n ≤ x) : memcpy m d s n x = m x := by
  unfold memcpy
  rw [if_neg]
  omega

theorem memcpy_in {m : Mem} {d s n i : Nat} (h : i < n) : memcpy m d s n (d + i) = m (s + i) := by
  unfold memcpy
  rw [if_pos (by omega)]
  congr 1
  omega

/-! ## `roundup` is rounding up to a multiple of 8 -/

theorem land_mask_eq (x : Nat) (h : x < 18446744073709551616) :
    x &&& 18446744073709551608 = x / 8 * 8 := by
  apply Nat.eq_of_testBit_eq
  intro i
  rw [Nat.testBit_land]
  have h8 : x / 8 * 8 = (x >>> 3) <<< 3 := by
    rw [Nat.shiftRight_eq_div_pow, Nat.shiftLeft_eq]
  rw [h8, Nat.testBit_shiftLeft, Nat.testBit_shiftRight]
  by_cases h3 : 3 ≤ i
  · have e : 3 + (i - 3) = i := by omega
    rw [e]
    by_cases h64 : i < 64
    · have : Nat.testBit 18446744073709551608 i = true := by
        interval_cases i <;> decide
      simp [this, h3]
    · have hx : Nat.testBit x i = false := by
        apply Nat.testBit_lt_two_pow
        calc x < 2 ^ 64 := by norm_num; exact h
          _ ≤ 2 ^ i := Nat.pow_le_pow_right (by decide) (by omega)
      simp [hx]
  · have : Nat.testBit 18446744073709551608 i = false := by
      interval_cases i <;> decide
    simp [this, h3]

theorem roundup_eq (n : Nat) (h : n + 7 < 18446744073709551616) :
    roundup n ALIGNMENT = (n + 7) / 8 * 8 := by
  unfold roundup ALIGNMENT
  rw [show n + 8 - 1 = n + 7 by omega, Nat.mod_eq_of_lt h]
  exact land_mask_eq _ h

/-! ## Geometry of a tiling -/

theorem Contig.le {a e : Nat} {bs : List Blk} (h : Contig a e bs) : a ≤ e := by
  induction bs generalizing a with
  | nil => exact Nat.le_of_eq h
  | cons b t ih =>
    have := ih h.2
    omega

theorem contig_append {a e : Nat} {l1 l2 : List Blk} :
    Contig a e (l1 ++ l2) ↔ ∃ x, Contig a x l1 ∧ Contig x e l2 := by
  induction l1 generalizing a with
  | nil =>
    constructor
    · intro h; exact ⟨a, rfl, h⟩
    · rintro ⟨x, h1, h2⟩
      have h1 : a = x := h1
      subst h1; exact h2
  | cons b t ih =>
    constructor
    · intro h
      obtain ⟨x, h1, h2⟩ := ih.mp h.2
      exact ⟨x, ⟨h.1, h1⟩, h2⟩
    · rintro ⟨x, h1, h2⟩
      exact ⟨h1.1, ih.mpr ⟨x, h1.2, h2⟩⟩

theorem Contig.mem_bounds {a e : Nat} {bs : List Blk} (h : Contig a e bs) {b : Blk} (hb : b ∈ bs) :
    a ≤ b.hdr ∧ b.hdr + 24 + b.size ≤ e := by
  induction bs generalizing a with
  | nil => cases hb
  | cons c t ih =>
    rcases List.mem_cons.mp hb with rfl | hb
    · have h1 := h.1
      have h2 := Contig.le h.2
      omega
    · have := ih h.2 hb
      omega

theorem contig_split {a e : Nat} {l1 l2 : List Blk} {b : Blk} (h : Contig a e (l1 ++ b :: l2)) :
    Contig a b.hdr l1 ∧ Contig (b.hdr + 24 + b.size) e l2 := by
  obtain ⟨x, h1, h2⟩ := contig_append.mp h
  have hx : b.hdr = x := h2.1
  subst hx
  exact ⟨h1, h2.2⟩

theorem contig_join {a e : Nat} {l1 l2 : List Blk} {b : Blk} (h1 : Contig a b.hdr l1)
    (h2 : Contig (b.hdr + 24 + b.size) e l2) : Contig a e (l1 ++ b :: l2) :=
  contig_append.mpr ⟨b.hdr, h1, rfl, h2⟩

theorem contig_sep {a e : Nat} {l1 l2 : List Blk} {b : Blk} (h : Contig a e (l1 ++ b :: l2)) :
    (∀ c ∈ l1, c.hdr + 24 + c.size ≤ b.hdr) ∧ (∀ c ∈ l2, b.hdr + 24 + b.size ≤ c.hdr) := by
  obtain ⟨h1, h2⟩ := contig_split h
  exact ⟨fun c hc => (h1.mem_bounds hc).2, fun c hc => (h2.mem_bounds hc).1⟩

/-- Two members of a tiling with the same header address are the same block. -/
theorem contig_inj {a e : Nat} {bs : List Blk} (h : Contig a e bs) {b c : Blk} (hb : b ∈ bs)
    (hc : c ∈ bs) (hh : b.hdr = c.hdr) : b = c := by
  induction bs generalizing a with
  | nil => cases hb
  | cons d t ih =>
    rcases List.mem_cons.mp hb with hb1 | hb1 <;> rcases List.mem_cons.mp hc with hc1 | hc1
    · rw [hb1, hc1]
    · have := (h.2.mem_bounds hc1).1
      have := h.1
      rw [hb1] at hh
      omega
    · have := (h.2.mem_bounds hb1).1
      have := h.1
      rw [hc1] at hh
      omega
    · exact ih h.2 hb1 hc1

/-- Distinct members of a tiling do not overlap. -/
theorem contig_disj {a e : Nat} {bs : List Blk} (h : Contig a e bs) {b c : Blk} (hb : b ∈ bs)
    (hc : c ∈ bs) : b = c ∨ b.hdr + 24 + b.size ≤ c.hdr ∨ c.hdr + 24 + c.size ≤ b.hdr := by
  induction bs generalizing a with
  | nil => cases hb
  | cons d t ih =>
    rcases List.mem_cons.mp hb with hb1 | hb1 <;> rcases List.mem_cons.mp hc with hc1 | hc1
    · left; rw [hb1, hc1]
    · have := (h.2.mem_bounds hc1).1
      have := h.1
      right; left; rw [hb1]; omega
    · have := (h.2.mem_bounds hb1).1
      have := h.1
      right; right; rw [hc1]; omega
    · exact ih h.2 hb1 hc1

/-! ## The doubly linked list -/

theorem dll_frame {m m2 : Mem} {p c nx : Nat} {l : List Nat} (h : dll m p c l nx)
    (hf : ∀ n ∈ l, ∀ x, n ≤ x → x < n + 16 → m2 x = m x) : dll m2 p c l nx := by
  induction l generalizing p c with
  | nil => exact h
  | cons n t ih =>
    obtain ⟨h1, h2, h3, h4⟩ := h
    have e1 : nprev m2 n = nprev m n :=
      rd_congr (fun x hx1 hx2 => hf n (List.mem_cons_self _ _) x (by omega) (by omega))
    have e2 : nnext m2 n = nnext m n :=
      rd_congr (fun x hx1 hx2 => hf n (List.mem_cons_self _ _) x (by omega) (by omega))
    refine ⟨h1, h2, by rw [e1, h3], ?_⟩
    rw [e2]
    exact ih h4 (fun k hk => hf k (List.mem_cons_of_mem _ hk))

theorem dll_append {m : Mem} {p c nx : Nat} {l1 l2 : List Nat} :
    dll m p c (l1 ++ l2) nx ↔ ∃ mid, dll m p c l1 mid ∧ dll m (lastOr l1 p) mid l2 nx := by
  induction l1 generalizing p c with
  | nil =>
    constructor
    · intro h; exact ⟨c, rfl, h⟩
    · rintro ⟨mid, h1, h2⟩
      have h1 : c = mid := h1
      subst h1; exact h2
  | cons n t ih =>
    constructor
    · rintro ⟨h1, h2, h3, h4⟩
      obtain ⟨mid, h5, h6⟩ := ih.mp h4
      exact ⟨mid, ⟨h1, h2, h3, h5⟩, h6⟩
    · rintro ⟨mid, ⟨h1, h2, h3, h5⟩, h6⟩
      exact ⟨h1, h2, h3, ih.mpr ⟨mid, h5, h6⟩⟩

theorem dll_ne_zero {m : Mem} {p c nx : Nat} {l : List Nat} (h : dll m p c l nx) :
    ∀ n ∈ l, n ≠ 0 := by
  induction l generalizing p c with
  | nil => intro n hn; cases hn
  | cons k t ih =>
    intro n hn
    rcases List.mem_cons.mp hn with rfl | hn
    · exact h.2.1
    · exact ih h.2.2.2 n hn

theorem dll_head {m : Mem} {p c nx : Nat} {l : List Nat} (h : dll m p c l nx) (hl : l ≠ []) :
    c = headOr l := by
  cases l with
  | nil => exact absurd rfl hl
  | cons n t => exact h.1

theorem lastOr_mem {l : List Nat} {p : Nat} (hl : l ≠ []) : lastOr l p ∈ l := by
  induction l generalizing p with
  | nil => exact absurd rfl hl
  | cons n t ih =>
    cases t with
    | nil => simp [lastOr]
    | cons k u =>
      have := ih (p := n) (by simp)
      simp only [lastOr] at this ⊢
      exact List.mem_cons_of_mem _ this

theorem lastOr_cons_ne {l : List Nat} {p q : Nat} (hl : l ≠ []) : lastOr l p = lastOr l q := by
  cases l with
  | nil => exact absurd rfl hl
  | cons n t => rfl

theorem Nodes.tail {n : Nat} {t : List Nat} (h : Nodes (n :: t)) : Nodes t :=
  ⟨(List.nodup_cons.mp h.1).2, fun a ha => h.2.1 a (List.mem_cons_of_mem _ ha),
    fun a ha b hb => h.2.2 a (List.mem_cons_of_mem _ ha) b (List.mem_cons_of_mem _ hb)⟩

theorem Nodes.sub {l k : List Nat} (h : Nodes l) (hk : k.Nodup) (hs : ∀ a ∈ k, a ∈ l) : Nodes k :=
  ⟨hk, fun a ha => h.2.1 a (hs a ha), fun a ha b hb => h.2.2 a (hs a ha) b (hs b hb)⟩

theorem Nodes.left {l1 l2 : List Nat} (h : Nodes (l1 ++ l2)) : Nodes l1 :=
  h.sub (List.Nodup.of_append_left h.1) (fun _ ha => List.mem_append_left _ ha)

theorem Nodes.right {l1 l2 : List Nat} (h : Nodes (l1 ++ l2)) : Nodes l2 :=
  h.sub (List.Nodup.of_append_right h.1) (fun _ ha => List.mem_append_right _ ha)

theorem Nodes.ne_sep {l : List Nat} (h : Nodes l) {a b : Nat} (ha : a ∈ l) (hb : b ∈ l)
    (hne : a ≠ b) : a + 16 ≤ b ∨ b + 16 ≤ a := by
  rcases h.2.2 a ha b hb with h1 | h1
  · exact absurd h1 hne
  · exact h1

/-- Overwriting the `next` field of the last node of a list segment. -/
theorem dll_set_last_next {m : Mem} {p c nx v : Nat} {l : List Nat} (h : dll m p c l nx)
    (hl : l ≠ []) (hN : Nodes l) (hv : v < 18446744073709551616) :
    dll (set_next m (lastOr l p) v) p c l v := by
  induction l generalizing p c with
  | nil => exact absurd rfl hl
  | cons n t ih =>
    obtain ⟨h1, h2, h3, h4⟩ := h
    cases t with
    | nil =>
      refine ⟨h1, h2, ?_, ?_⟩
      · simp only [lastOr, nprev, set_next]
        rw [rd_wr_disj (by omega)]
        exact h3
      · simp only [lastOr, nnext, set_next, dll]
        exact rd_wr_same8 hv
    | cons k u =>
      have hk : lastOr (n :: k :: u) p = lastOr (k :: u) n := rfl
      have hmem : lastOr (k :: u) n ∈ k :: u := lastOr_mem (by simp)
      have hne : lastOr (k :: u) n ≠ n := by
        intro he
        rw [he] at hmem
        exact (List.nodup_cons.mp hN.1).1 hmem
      have hs := hN.ne_sep (List.mem_cons_of_mem _ hmem) (List.mem_cons_self _ _) hne
      rw [hk]
      refine ⟨h1, h2, ?_, ?_⟩
      · simp only [nprev, set_next]
        rw [rd_wr_disj (by omega)]
        exact h3
      · have e : nnext (set_next m (lastOr (k :: u) n) v) n = nnext m n := by
          simp only [nnext, set_next]
          exact rd_wr_disj (by omega)
        rw [e]
        exact ih h4 (by simp) hN.tail

/-- Overwriting the `prev` field of the first node of a list segment. -/
theorem dll_set_head_prev {m : Mem} {p c nx q n : Nat} {t : List Nat} (h : dll m p c (n :: t) nx)
    (hN : Nodes (n :: t)) (hq : q < 18446744073709551616) :
    dll (set_prev m n q) q c (n :: t) nx := by
  obtain ⟨h1, h2, _, h4⟩ := h
  refine ⟨h1, h2, ?_, ?_⟩
  · simp only [nprev, set_prev]
    exact rd_wr_same8 hq
  · have e : nnext (set_prev m n q) n = nnext m n := by
      simp only [nnext, set_prev]
      exact rd_wr_disj (by omega)
    rw [e]
    apply dll_frame h4
    intro k hk x hx1 hx2
    have hne : k ≠ n := by
      intro he
      rw [he] at hk
      exact (List.nodup_cons.mp hN.1).1 hk
    have hs := hN.ne_sep (List.mem_cons_of_mem _ hk) (List.mem_cons_self _ _) hne
    simp only [set_prev]
    exact wr_out (by omega)

/-! ## `remove_node` and `add_node` -/

theorem remove_node_seg (st : State) (nd : Nat) :
    (remove_node st nd).segment_begin = st.segment_begin ∧
    (remove_node st nd).segment_end = st.segment_end := by
  unfold remove_node
  simp only [NULL]
  split_ifs <;> exact ⟨rfl, rfl⟩

/-- The only bytes `remove_node` may change: the `next` field of the predecessor and the
`prev` field of the successor read from the node. -/
theorem remove_node_frame (st : State) (nd x : Nat)
    (h1 : nprev st.mem nd = 0 ∨ x < nprev st.mem nd ∨ nprev st.mem nd + 8 ≤ x)
    (h2 : nnext st.mem nd = 0 ∨ x < nnext st.mem nd + 8 ∨ nnext st.mem nd + 16 ≤ x) :
    (remove_node st nd).mem x = st.mem x := by
  unfold remove_node
  simp only [NULL]
  split_ifs with c1 c2 c3 c4
  · rfl
  · simp only [set_prev]
    exact wr_out (by omega)
  · simp only [set_next]
    exact wr_out (by omega)
  · rfl
  · simp only [set_prev, set_next]
    rw [wr_out (by omega), wr_out (by omega)]

theorem remove_node_empty (st : State) (nd : Nat) (h : st.f_start = 0) : remove_node st nd = st := by
  unfold remove_node
  simp [h]

/-- Unlinking a node whose `prev` and `next` fields name the end of `l1` and the start of
`l2`: the list becomes `l1 ++ l2`.  The links between `l1`, the node and `l2` may already
have been rewired (second removal of the same node). -/
theorem remove_node_gen (st : State) {nd c1 x q : Nat} {l1 l2 : List Nat}
    (hf : st.f_start ≠ 0) (hf1 : l1 ≠ [] → st.f_start = c1)
    (h1 : dll st.mem 0 c1 l1 x) (h2 : dll st.mem q (nnext st.mem nd) l2 0)
    (hp : nprev st.mem nd = lastOr l1 0) (hN : Nodes (l1 ++ l2)) :
    dll (remove_node st nd).mem 0 (remove_node st nd).f_start (l1 ++ l2) 0 := by
  have hnz := dll_ne_zero h1
  have hnz2 := dll_ne_zero h2
  unfold remove_node
  simp only [NULL]
  rw [if_neg hf]
  cases l1 with
  | nil =>
    have hp0 : nprev st.mem nd = 0 := hp
    cases l2 with
    | nil =>
      have hn0 : nnext st.mem nd = 0 := h2
      simp [hp0, hn0, dll]
    | cons k u =>
      have hk : nnext st.mem nd = k := h2.1
      have hk0 : k ≠ 0 := h2.2.1
      simp only [hp0, hk, hk0, ne_eq, not_false_eq_true, and_self, if_true, List.nil_append]
      rw [hk] at h2
      exact dll_set_head_prev h2 hN (by norm_num)
  | cons n t =>
    have hfs : st.f_start = c1 := hf1 (by simp)
    have hlm : lastOr (n :: t) 0 ∈ n :: t := lastOr_mem (by simp)
    have hl0 : lastOr (n :: t) 0 ≠ 0 := hnz _ hlm
    cases l2 with
    | nil =>
      have hn0 : nnext st.mem nd = 0 := h2
      simp only [hp, hn0, hl0, ne_eq, not_true_eq_false, false_and, if_false, not_false_eq_true,
        and_self, if_true, List.append_nil, hfs]
      rw [List.append_nil] at hN
      exact dll_set_last_next h1 (by simp) hN (by norm_num)
    | cons k u =>
      have hk : nnext st.mem nd = k := h2.1
      have hk0 : k ≠ 0 := h2.2.1
      simp only [hp, hk, hk0, hl0, ne_eq, not_true_eq_false, false_and, and_false, if_false,
        not_false_eq_true, hfs]
      rw [hk] at h2
      have hkl : k < 18446744073709551616 := hN.2.1 k (by simp)
      have hll : lastOr (n :: t) 0 < 18446744073709551616 :=
        hN.2.1 _ (List.mem_append_left _ hlm)
      have hne : ∀ a ∈ n :: t, ∀ b ∈ k :: u, a + 16 ≤ b ∨ b + 16 ≤ a := by
        intro a ha b hb
        apply hN.ne_sep (List.mem_append_left _ ha) (List.mem_append_right _ hb)
        intro he
        rw [he] at ha
        exact (List.nodup_append.mp hN.1).2.2 ha hb
      apply dll_append.mpr
      refine ⟨k, ?_, ?_⟩
      · apply dll_frame (dll_set_last_next h1 (by simp) hN.left hkl)
        intro a ha y hy1 hy2
        have := hne a ha k (by simp)
        simp only [set_prev]
        exact wr_out (by omega)
      · have h2f : dll (set_next st.mem (lastOr (n :: t) 0) k) q k (k :: u) 0 := by
          apply dll_frame h2
          intro b hb y hy1 hy2
          have := hne _ hlm b hb
          simp only [set_next]
          exact wr_out (by omega)
        exact dll_set_head_prev h2f hN.right hll

/-- Unlinking a member of a well-formed free list. -/
theorem remove_node_spec (st : State) {nd : Nat} {l1 l2 : List Nat}
    (h : dll st.mem 0 st.f_start (l1 ++ nd :: l2) 0) (hN : Nodes (l1 ++ nd :: l2)) :
    dll (remove_node st nd).mem 0 (remove_node st nd).f_start (l1 ++ l2) 0 := by
  obtain ⟨mid, h1, h2⟩ := dll_append.mp h
  obtain ⟨e1, e2, e3, e4⟩ := h2
  have hN2 : Nodes (l1 ++ l2) := by
    apply hN.sub
    · have := hN.1
      rw [List.nodup_append] at this ⊢
      refine ⟨this.1, (List.nodup_cons.mp this.2.1).2, ?_⟩
      intro a ha hb
      exact this.2.2 ha (List.mem_cons_of_mem _ hb)
    · intro a ha
      rcases List.mem_append.mp ha with ha | ha
      · exact List.mem_append_left _ ha
      · exact List.mem_append_right _ (List.mem_cons_of_mem _ ha)
  have hf : st.f_start ≠ 0 := by
    cases l1 with
    | nil =>
      have : st.f_start = mid := h1
      omega
    | cons n t => rw [h1.1]; exact h1.2.1
  exact remove_node_gen st hf (fun _ => rfl) h1 e4 e3 hN2

theorem add_node_seg (st : State) (nd : Nat) :
    (add_node st nd).segment_begin = st.segment_begin ∧
    (add_node st nd).segment_end = st.segment_end := by
  unfold add_node
  simp only [NULL]
  split_ifs <;> exact ⟨rfl, rfl⟩

theorem add_node_head (st : State) (nd : Nat) (h : nd ≠ 0) : (add_node st nd).f_start = nd := by
  unfold add_node
  simp only [NULL]
  rw [if_neg h]
  split_ifs <;> rfl

/-- The only bytes `add_node` may change: the status of the node's header, the node itself and
the `prev` field of the former head. -/
theorem add_node_frame (st : State) (nd x : Nat)
    (h1 : x < nd - 8 + 4 ∨ nd - 8 + 8 ≤ x) (h2 : x < nd ∨ nd + 16 ≤ x)
    (h3 : st.f_start = 0 ∨ x < st.f_start + 8 ∨ st.f_start + 16 ≤ x) :
    (add_node st nd).mem x = st.mem x := by
  unfold add_node
  simp only [NULL, prev_next_to_hdr, sizeof_header]
  split_ifs with c1 c2
  · rfl
  · simp only [set_prev, set_next, set_status]
    rw [wr_out (by omega), wr_out (by omega), wr_out (by omega)]
  · simp only [set_prev, set_next, set_status]
    rw [wr_out (by omega), wr_out (by omega), wr_out (by omega), wr_out (by omega)]

/-- Pushing a fresh node in front of a well-formed free list. -/
theorem add_node_spec (st : State) (nd : Nat) {fl : List Nat}
    (h : dll st.mem 0 st.f_start fl 0) (hnd : 8 ≤ nd) (hlt : nd < 18446744073709551616)
    (hN : Nodes fl) (hsep : ∀ n ∈ fl, n + 24 ≤ nd ∨ nd + 16 ≤ n) :
    dll (add_node st nd).mem 0 (add_node st nd).f_start (nd :: fl) 0 ∧
    hstatus (add_node st nd).mem (nd - 8) = 0 := by
  unfold add_node
  simp only [NULL, prev_next_to_hdr, sizeof_header]
  rw [if_neg (by omega)]
  cases fl with
  | nil =>
    have hf : st.f_start = 0 := h
    rw [if_pos hf]
    refine ⟨⟨rfl, by omega, ?_, ?_⟩, ?_⟩
    · simp only [nprev, set_prev]
      exact rd_wr_same8 (by norm_num)
    · simp only [nnext, set_prev, set_next, dll]
      rw [rd_wr_disj (by omega)]
      exact rd_wr_same8 (by norm_num)
    · simp only [hstatus, set_prev, set_next, set_status]
      rw [rd_wr_disj (by omega), rd_wr_disj (by omega)]
      exact rd_wr_same4 (by norm_num)
  | cons k u =>
    have hf : st.f_start = k := h.1
    have hk0 : k ≠ 0 := h.2.1
    have hks := hsep k (by simp)
    have hkl := hN.2.1 k (by simp)
    rw [if_neg (by omega), hf]
    refine ⟨⟨rfl, by omega, ?_, ?_⟩, ?_⟩
    · simp only [nprev, set_prev]
      exact rd_wr_same8 (by norm_num)
    · have e : nnext (set_prev (set_prev (set_next (set_status st.mem (nd - 8) 0) nd k) k nd) nd 0) nd
          = k := by
        simp only [nnext, set_prev, set_next]
        rw [rd_wr_disj (by omega), rd_wr_disj (by omega)]
        exact rd_wr_same8 hkl
      rw [e]
      have h0 : dll (set_next (set_status st.mem (nd - 8) 0) nd k) 0 k (k :: u) 0 := by
        rw [hf] at h
        apply dll_frame h
        intro b hb y hy1 hy2
        have := hsep b hb
        simp only [set_next, set_status]
        rw [wr_out (by omega), wr_out (by omega)]
      apply dll_frame (dll_set_head_prev h0 hN hlt)
      intro b hb y hy1 hy2
      have := hsep b hb
      simp only [set_prev]
      rw [wr_out (by omega)]
    · simp only [hstatus, set_prev, set_next, set_status]
      rw [rd_wr_disj (by omega), rd_wr_disj (by omega), rd_wr_disj (by omega)]
      exact rd_wr_same4 (by norm_num)

/-! ## Consequences of the representation invariant -/

theorem BlkOK.hdr_frame {S : Prop} {m m2 : Mem} {b : Blk} (h : BlkOK S m b)
    (hf : ∀ x, b.hdr ≤ x → x < b.hdr + 8 → m2 x = m x) : BlkOK S m2 b := by
  have e1 : hsize m2 b.hdr = hsize m b.hdr :=
    rd_congr (fun x h1 h2 => hf x (by omega) (by omega))
  have e2 : hstatus m2 b.hdr = hstatus m b.hdr :=
    rd_congr (fun x h1 h2 => hf x (by omega) (by omega))
  unfold BlkOK
  rw [e1, e2]
  exact h

theorem Rep.blk {S : Prop} {st : State} {bs : List Blk} {fl : List Nat} (h : Rep S st bs fl)
    {b : Blk} (hb : b ∈ bs) :
    st.segment_begin ≤ b.hdr ∧ b.hdr + 24 + b.size ≤ st.segment_end ∧ BlkOK S st.mem b :=
  ⟨(h.contig.mem_bounds hb).1, (h.contig.mem_bounds hb).2, h.ok b hb⟩

/-- Nodes of the free list are at least 24 bytes apart (a whole header and node). -/
theorem Rep.sep24 {S : Prop} {st : State} {bs : List Blk} {fl : List Nat} (h : Rep S st bs fl)
    {a b : Nat} (ha : a ∈ fl) (hb : b ∈ fl) : a = b ∨ a + 24 ≤ b ∨ b + 24 ≤ a := by
  obtain ⟨x, hx, -, rfl⟩ := (h.mem a).mp ha
  obtain ⟨y, hy, -, rfl⟩ := (h.mem b).mp hb
  rcases contig_disj h.contig hx hy with e | e | e
  · left; rw [e]
  · right; left; omega
  · right; right; omega

theorem Rep.nodes {S : Prop} {st : State} {bs : List Blk} {fl : List Nat} (h : Rep S st bs fl) :
    Nodes fl := by
  refine ⟨h.nodup, ?_, ?_⟩
  · intro a ha
    obtain ⟨x, hx, -, rfl⟩ := (h.mem a).mp ha
    have := (h.blk hx).2.1
    have := h.lt64
    omega
  · intro a ha b hb
    rcases h.sep24 ha hb with e | e | e
    · exact Or.inl e
    · right; left; omega
    · right; right; omega

/-- A free-list node and a block: either the node of that block, or outside the block. -/
theorem Rep.node_blk {S : Prop} {st : State} {bs : List Blk} {fl : List Nat} (h : Rep S st bs fl)
    {n : Nat} (hn : n ∈ fl) {b : Blk} (hb : b ∈ bs) :
    (n = b.hdr + 8 ∧ b.free = true) ∨ n + 16 ≤ b.hdr ∨ b.hdr + 24 + b.size + 8 ≤ n := by
  obtain ⟨x, hx, hxf, rfl⟩ := (h.mem n).mp hn
  rcases contig_disj h.contig hx hb with e | e | e
  · left; rw [← e]; exact ⟨rfl, hxf⟩
  · right; left; omega
  · right; right; omega

theorem mem_mid_iff {α : Type} {l1 l2 : List α} {a x : α} (h : (l1 ++ a :: l2).Nodup) :
    x ∈ l1 ++ l2 ↔ x ∈ l1 ++ a :: l2 ∧ x ≠ a := by
  rw [List.nodup_append] at h
  obtain ⟨h1, h2, h3⟩ := h
  have h4 := (List.nodup_cons.mp h2).1
  simp only [List.mem_append, List.mem_cons]
  constructor
  · rintro (hx | hx)
    · exact ⟨Or.inl hx, fun e => h3 (e ▸ hx) (List.mem_cons_self _ _)⟩
    · exact ⟨Or.inr (Or.inr hx), fun e => h4 (e ▸ hx)⟩
  · rintro ⟨hx | hx | hx, hne⟩
    · exact Or.inl hx
    · exact absurd hx hne
    · exact Or.inr hx

theorem nodup_mid {α : Type} {l1 l2 : List α} {a : α} (h : (l1 ++ a :: l2).Nodup) :
    (l1 ++ l2).Nodup := by
  rw [List.nodup_append] at h ⊢
  exact ⟨h.1, (List.nodup_cons.mp h.2.1).2, fun _ ha hb => h.2.2 ha (List.mem_cons_of_mem _ hb)⟩

theorem Nodes.mid {l1 l2 : List Nat} {a : Nat} (h : Nodes (l1 ++ a :: l2)) : Nodes (l1 ++ l2) :=
  h.sub (nodup_mid h.1) (fun _ hx => ((mem_mid_iff h.1).mp hx).1)

theorem dll_start_mem {m : Mem} {p c : Nat} {l : List Nat} (h : dll m p c l 0) : c = 0 ∨ c ∈ l := by
  cases l with
  | nil => exact Or.inl h
  | cons n t => right; rw [h.1]; exact List.mem_cons_self _ _

/-- Splitting a used block: once the two headers are written, `add_node` on the node of the
remainder yields a state represented by the split tiling. -/
theorem rep_split {S : Prop} {st0 : State} (st1 : State) {l1 l2 : List Blk} {fl : List Nat}
    {h s w : Nat} (hR : Rep S st0 (l1 ++ ⟨h, s, false⟩ :: l2) fl) (hw : w + 24 ≤ s)
    (hb : st1.segment_begin = st0.segment_begin) (he : st1.segment_end = st0.segment_end)
    (hfs : st1.f_start = st0.f_start)
    (hframe : ∀ x, (x < h ∨ h + 8 ≤ x) → (x < h + 24 + w ∨ h + 24 + w + 8 ≤ x) →
      st1.mem x = st0.mem x)
    (h1 : hsize st1.mem h = w) (h2 : hstatus st1.mem h ≠ 0)
    (h3 : hsize st1.mem (h + 24 + w) = s - w - 24) :
    Rep S (add_node st1 (h + 24 + w + 8))
      (l1 ++ ⟨h, w, false⟩ :: ⟨h + 24 + w, s - w - 24, true⟩ :: l2) ((h + 24 + w + 8) :: fl) ∧
    (∀ x, (x < h ∨ h + 8 ≤ x) → (x < h + 24 + w ∨ h + 24 + w + 24 ≤ x) →
      (∀ n ∈ fl, x < n + 8 ∨ n + 16 ≤ x) → (add_node st1 (h + 24 + w + 8)).mem x = st0.mem x) ∧
    hstatus (add_node st1 (h + 24 + w + 8)).mem (h + 24 + w) = 0 ∧
    hstatus (add_node st1 (h + 24 + w + 8)).mem h = hstatus st1.mem h := by
  have hB : (⟨h, s, false⟩ : Blk) ∈ l1 ++ ⟨h, s, false⟩ :: l2 := by simp
  have hBb := hR.blk hB
  simp only at hBb
  obtain ⟨sepL, sepR⟩ := contig_sep hR.contig
  simp only at sepL sepR
  have hfl : ∀ n ∈ fl, n + 16 ≤ h ∨ h + 24 + s + 8 ≤ n := by
    intro n hn
    rcases hR.node_blk hn hB with e | e | e
    · exact absurd e.2 (by simp)
    · exact Or.inl e
    · exact Or.inr e
  have hd1 : dll st1.mem 0 st1.f_start fl 0 := by
    rw [hfs]
    apply dll_frame hR.list
    intro n hn x hx1 hx2
    have := hfl n hn
    exact hframe x (by omega) (by omega)
  have hlt := hR.lt64
  obtain ⟨hd2, hs2⟩ := add_node_spec _ (h + 24 + w + 8) hd1 (by omega) (by omega) hR.nodes
    (by intro n hn; have := hfl n hn; omega)
  have hfr : ∀ x, (x < h + 24 + w + 4 ∨ h + 24 + w + 24 ≤ x) →
      (∀ n ∈ fl, x < n + 8 ∨ n + 16 ≤ x) → (add_node st1 (h + 24 + w + 8)).mem x = st1.mem x := by
    intro x hx1 hx2
    apply add_node_frame
    · omega
    · omega
    · rcases dll_start_mem hd1 with e | e
      · exact Or.inl e
      · exact Or.inr (hx2 _ e)
  have hokc : ∀ c ∈ l1 ++ ⟨h, s, false⟩ :: l2, (c.hdr + 24 + c.size ≤ h ∨ h + 24 + s ≤ c.hdr) →
      BlkOK S (add_node st1 (h + 24 + w + 8)).mem c := by
    intro c hc hcs
    apply (hR.ok c hc).hdr_frame
    intro x hx1 hx2
    rw [hfr x (by omega), hframe x (by omega) (by omega)]
    intro n hn
    have := hR.node_blk hn hc
    omega
  have hfrB : ∀ x, h ≤ x → x < h + 24 + w + 4 → (add_node st1 (h + 24 + w + 8)).mem x = st1.mem x := by
    intro x hx1 hx2
    apply hfr x (by omega)
    intro n hn
    have := hfl n hn
    omega
  have e0 : h + 24 + w + 8 - 8 = h + 24 + w := by omega
  rw [e0] at hs2
  refine ⟨⟨?_, ?_, ?_, ?_, ?_, ?_, ?_⟩,
    fun x hx1 hx2 hx3 => by rw [hfr x (by omega) hx3, hframe x hx1 (by omega)], hs2,
    rd_congr (fun x hx1 hx2 => hfrB x (by omega) (by omega))⟩
  · rw [(add_node_seg _ _).2, he]; exact hlt
  · rw [(add_node_seg _ _).2, (add_node_seg _ _).1, he, hb]; exact hR.lt32
  · rw [(add_node_seg _ _).2, (add_node_seg _ _).1, he, hb]
    obtain ⟨c1, c2⟩ := contig_split hR.contig
    simp only at c1 c2
    refine contig_join (b := ⟨h, w, false⟩) c1 ?_
    refine ⟨rfl, ?_⟩
    simp only
    rw [show h + 24 + w + 24 + (s - w - 24) = h + 24 + s by omega]
    exact c2
  · intro c hc
    simp only [List.mem_append, List.mem_cons] at hc
    rcases hc with hc | hc | hc | hc
    · exact hokc c (by simp [hc]) (Or.inl (sepL c hc))
    · subst hc
      refine ⟨?_, ?_, ?_⟩
      · simp only [hsize] at h1 ⊢
        rw [rd_congr (fun x hx1 hx2 => hfrB x (by omega) (by omega))]
        exact h1
      · intro _
        simp only [hstatus] at h2 ⊢
        rw [rd_congr (fun x hx1 hx2 => hfrB x (by omega) (by omega))]
        exact h2
      · intro hf; simp at hf
    · subst hc
      refine ⟨?_, ?_, ?_⟩
      · simp only [hsize] at h3 ⊢
        rw [rd_congr (fun x hx1 hx2 => hfrB x (by omega) (by omega))]
        exact h3
      · intro hf; simp at hf
      · intro _ _; exact hs2
    · exact hokc c (by simp [hc]) (Or.inr (sepR c hc))
  · rw [add_node_head _ _ (by omega)] at hd2 ⊢
    exact hd2
  · apply List.nodup_cons.mpr
    refine ⟨?_, hR.nodup⟩
    intro hn
    have := hfl _ hn
    omega
  · intro x
    have hm := hR.mem x
    simp only [List.mem_append, List.mem_cons] at hm ⊢
    constructor
    · rintro (hx | hx)
      · exact ⟨⟨h + 24 + w, s - w - 24, true⟩, by simp, rfl, hx⟩
      · obtain ⟨b, hb1, hb2, hb3⟩ := hm.mp hx
        rcases hb1 with hb1 | hb1 | hb1
        · exact ⟨b, Or.inl hb1, hb2, hb3⟩
        · rw [hb1] at hb2; simp at hb2
        · exact ⟨b, Or.inr (Or.inr (Or.inr hb1)), hb2, hb3⟩
    · rintro ⟨b, hb1, hb2, hb3⟩
      rcases hb1 with hb1 | hb1 | hb1 | hb1
      · exact Or.inr (hm.mpr ⟨b, Or.inl hb1, hb2, hb3⟩)
      · rw [hb1] at hb2; simp at hb2
      · rw [hb1] at hb3; exact Or.inl hb3
      · exact Or.inr (hm.mpr ⟨b, Or.inr (Or.inr hb1), hb2, hb3⟩)

theorem remove_node_frame_list (st : State) {nd : Nat} {l1 l2 : List Nat}
    (h : dll st.mem 0 st.f_start (l1 ++ nd :: l2) 0) (x : Nat)
    (hx : ∀ n ∈ l1 ++ l2, x < n ∨ n + 16 ≤ x) : (remove_node st nd).mem x = st.mem x := by
  obtain ⟨mid, h1, h2⟩ := dll_append.mp h
  obtain ⟨-, -, e3, e4⟩ := h2
  apply remove_node_frame
  · rw [e3]
    cases l1 with
    | nil => exact Or.inl rfl
    | cons n t =>
      have := hx _ (List.mem_append_left _ (lastOr_mem (p := 0) (l := n :: t) (by simp)))
      omega
  · cases l2 with
    | nil => exact Or.inl e4
    | cons k u =>
      rw [e4.1]
      have := hx k (by simp)
      omega

/-! ## `merge_free` -/

theorem merge_free_last {S : Prop} {st : State} {l1 : List Blk} {fl : List Nat} {h s : Nat}
    {f : Bool} (hR : Rep S st (l1 ++ [⟨h, s, f⟩]) fl) : merge_free st h = st := by
  have hB : (⟨h, s, f⟩ : Blk) ∈ l1 ++ [⟨h, s, f⟩] := by simp
  have hsz : hsize st.mem h = s := (hR.ok _ hB).1
  have hc := (contig_split hR.contig).2
  have hc : h + 24 + s = st.segment_end := hc
  unfold merge_free
  simp only [get_next_hdr, sizeof_header, sizeof_prev_next, hsz]
  rw [if_pos (by omega)]

theorem merge_free_skip {S : Prop} {st : State} {l1 l2 : List Blk} {fl : List Nat}
    {h s nh t : Nat} {f g : Bool} (hR : Rep S st (l1 ++ ⟨h, s, f⟩ :: ⟨nh, t, g⟩ :: l2) fl)
    (hs : hstatus st.mem nh ≠ 0) : merge_free st h = st := by
  have hB : (⟨h, s, f⟩ : Blk) ∈ l1 ++ ⟨h, s, f⟩ :: ⟨nh, t, g⟩ :: l2 := by simp
  have hsz : hsize st.mem h = s := (hR.ok _ hB).1
  have hc := (contig_split hR.contig).2
  have hnh : nh = h + 24 + s := hc.1
  unfold merge_free
  simp only [get_next_hdr, sizeof_header, sizeof_prev_next, hsz]
  rw [show h + s + 8 + 16 = nh by omega]
  split_ifs with c1 c2
  · rfl
  · rfl
  · exact absurd hs (by omega)

/-- Merging a block with its free successor. -/
theorem merge_free_join {S : Prop} {st : State} {l1 l2 : List Blk} {f1 f2 : List Nat}
    {h s nh t : Nat} {f g : Bool}
    (hR : Rep S st (l1 ++ ⟨h, s, f⟩ :: ⟨nh, t, g⟩ :: l2) (f1 ++ (nh + 8) :: f2))
    (hs : hstatus st.mem nh = 0) :
    Rep S (merge_free st h) (l1 ++ ⟨h, s + t + 24, f⟩ :: l2) (f1 ++ f2) ∧
    (merge_free st h).segment_begin = st.segment_begin ∧
    (merge_free st h).segment_end = st.segment_end ∧
    (∀ x, (x < h ∨ h + 4 ≤ x) → (∀ n ∈ f1 ++ f2, x < n ∨ n + 16 ≤ x) →
      (merge_free st h).mem x = st.mem x) := by
  have hB : (⟨h, s, f⟩ : Blk) ∈ l1 ++ ⟨h, s, f⟩ :: ⟨nh, t, g⟩ :: l2 := by simp
  have hNm : (⟨nh, t, g⟩ : Blk) ∈ l1 ++ ⟨h, s, f⟩ :: ⟨nh, t, g⟩ :: l2 := by simp
  have hsz : hsize st.mem h = s := (hR.ok _ hB).1
  have hsn : hsize st.mem nh = t := (hR.ok _ hNm).1
  have hBb := hR.blk hB
  have hNb := hR.blk hNm
  simp only at hBb hNb
  have hc := (contig_split hR.contig).2
  have hnh : nh = h + 24 + s := hc.1
  obtain ⟨sepL, sepR⟩ := contig_sep hR.contig
  simp only at sepL sepR
  have sepR2 : ∀ c ∈ l2, nh + 24 + t ≤ c.hdr := by
    intro c hc2
    have := (hc.2.mem_bounds hc2).1
    simp only at this
    omega
  have hlt := hR.lt64
  have hlt2 := hR.lt32
  have hN := hR.nodes
  -- the state after the size update
  have hd1 : dll (set_size st.mem h (s + t + 8 + 16)) 0 st.f_start (f1 ++ (nh + 8) :: f2) 0 := by
    apply dll_frame hR.list
    intro n hn x hx1 hx2
    have := hR.node_blk hn hB
    simp only [set_size]
    exact wr_out (by simp only at this; omega)
  have hst : merge_free st h =
      remove_node { st with mem := set_size st.mem h (s + t + 8 + 16) } (nh + 8) := by
    unfold merge_free
    simp only [get_next_hdr, sizeof_header, sizeof_prev_next, hsz, hdr_to_prev_next]
    rw [show h + s + 8 + 16 = nh by omega, hsn]
    rw [if_neg (by omega), if_neg (by omega)]
  rw [hst]
  have hd2 := remove_node_spec { st with mem := set_size st.mem h (s + t + 8 + 16) } hd1 hN
  have hfr : ∀ x, (x < h ∨ h + 4 ≤ x) → (∀ n ∈ f1 ++ f2, x < n ∨ n + 16 ≤ x) →
      (remove_node { st with mem := set_size st.mem h (s + t + 8 + 16) } (nh + 8)).mem x
        = st.mem x := by
    intro x hx1 hx2
    rw [remove_node_frame_list { st with mem := set_size st.mem h (s + t + 8 + 16) } hd1 x hx2]
    simp only [set_size]
    exact wr_out (by omega)
  have hsub : ∀ n ∈ f1 ++ f2, n ∈ f1 ++ (nh + 8) :: f2 := fun n hn =>
    ((mem_mid_iff hR.nodup).mp hn).1
  have hokc : ∀ c ∈ l1 ++ ⟨h, s, f⟩ :: ⟨nh, t, g⟩ :: l2,
      (c.hdr + 24 + c.size ≤ h ∨ nh + 24 + t ≤ c.hdr) →
      BlkOK S (remove_node { st with mem := set_size st.mem h (s + t + 8 + 16) } (nh + 8)).mem c := by
    intro c hc1 hcs
    apply (hR.ok c hc1).hdr_frame
    intro x hx1 hx2
    apply hfr x (by omega)
    intro n hn
    have := hR.node_blk (hsub n hn) hc1
    omega
  refine ⟨⟨?_, ?_, ?_, ?_, ?_, ?_, ?_⟩, (remove_node_seg _ _).1, (remove_node_seg _ _).2, hfr⟩
  · rw [(remove_node_seg _ _).2]; exact hlt
  · rw [(remove_node_seg _ _).2, (remove_node_seg _ _).1]; exact hlt2
  · rw [(remove_node_seg _ _).2, (remove_node_seg _ _).1]
    obtain ⟨c1, c2⟩ := contig_split hR.contig
    simp only at c1 c2
    refine contig_join (b := ⟨h, s + t + 24, f⟩) c1 ?_
    simp only
    have c3 := c2.2
    simp only at c3
    rw [show h + 24 + (s + t + 24) = h + 24 + s + 24 + t by omega]
    exact c3
  · intro c hc1
    simp only [List.mem_append, List.mem_cons] at hc1
    rcases hc1 with hc1 | hc1 | hc1
    · exact hokc c (by simp [hc1]) (Or.inl (sepL c hc1))
    · subst hc1
      have hfrB : ∀ x, h ≤ x → x < h + 8 → (∀ n ∈ f1 ++ f2, x < n ∨ n + 16 ≤ x) := by
        intro x hx1 hx2 n hn
        have := hR.node_blk (hsub n hn) hB
        simp only at this
        omega
      have hold := hR.ok _ hB
      refine ⟨?_, ?_, ?_⟩
      · simp only [hsize]
        rw [rd_congr (m := set_size st.mem h (s + t + 8 + 16))
          (fun x hx1 hx2 => remove_node_frame_list
            { st with mem := set_size st.mem h (s + t + 8 + 16) } hd1 x
            (hfrB x (by omega) (by omega)))]
        simp only [set_size]
        exact (rd_wr_same4 (by omega)).trans (by omega)
      · intro hf
        have e : hstatus (remove_node { st with mem := set_size st.mem h (s + t + 8 + 16) }
            (nh + 8)).mem h = hstatus st.mem h :=
          rd_congr (fun x hx1 hx2 => hfr x (by omega) (hfrB x (by omega) (by omega)))
        simp only at e ⊢
        rw [e]
        exact hold.2.1 hf
      · intro hf hS
        have e : hstatus (remove_node { st with mem := set_size st.mem h (s + t + 8 + 16) }
            (nh + 8)).mem h = hstatus st.mem h :=
          rd_congr (fun x hx1 hx2 => hfr x (by omega) (hfrB x (by omega) (by omega)))
        simp only at e ⊢
        rw [e]
        exact hold.2.2 hf hS
    · exact hokc c (by simp [hc1]) (Or.inr (sepR2 c hc1))
  · exact hd2
  · exact nodup_mid hR.nodup
  · intro x
    rw [mem_mid_iff hR.nodup]
    have hm := hR.mem x
    simp only [List.mem_append, List.mem_cons] at hm ⊢
    constructor
    · rintro ⟨hx, hne⟩
      obtain ⟨b, hb1, hb2, hb3⟩ := hm.mp hx
      rcases hb1 with hb1 | hb1 | hb1 | hb1
      · exact ⟨b, Or.inl hb1, hb2, hb3⟩
      · subst hb1
        exact ⟨⟨h, s + t + 24, f⟩, Or.inr (Or.inl rfl), hb2, hb3⟩
      · subst hb1
        exact absurd hb3 hne
      · exact ⟨b, Or.inr (Or.inr hb1), hb2, hb3⟩
    · rintro ⟨b, hb1, hb2, hb3⟩
      rcases hb1 with hb1 | hb1 | hb1
      · have := sepL b hb1
        exact ⟨hm.mpr ⟨b, Or.inl hb1, hb2, hb3⟩, by omega⟩
      · subst hb1
        exact ⟨hm.mpr ⟨⟨h, s, f⟩, Or.inr (Or.inl rfl), hb2, hb3⟩, by simp only at hb3; omega⟩
      · have := sepR2 b hb1
        exact ⟨hm.mpr ⟨b, Or.inr (Or.inr (Or.inr hb1)), hb2, hb3⟩, by omega⟩

/-! ## Moving one block in and out of the free list -/

/-- Marking a free block used and unlinking its node. -/
theorem rep_unlink {S : Prop} {st : State} {l1 l2 : List Blk} {f1 f2 : List Nat} {h s v : Nat}
    (hR : Rep S st (l1 ++ ⟨h, s, true⟩ :: l2) (f1 ++ (h + 8) :: f2))
    (hv : v ≠ 0) (hv2 : v < 4294967296) :
    Rep S (remove_node { st with mem := set_status st.mem h v } (h + 8))
      (l1 ++ ⟨h, s, false⟩ :: l2) (f1 ++ f2) ∧
    (∀ x, (x < h + 4 ∨ h + 8 ≤ x) → (∀ n ∈ f1 ++ f2, x < n ∨ n + 16 ≤ x) →
      (remove_node { st with mem := set_status st.mem h v } (h + 8)).mem x = st.mem x) := by
  have hB : (⟨h, s, true⟩ : Blk) ∈ l1 ++ ⟨h, s, true⟩ :: l2 := by simp
  have hBb := hR.blk hB
  simp only at hBb
  obtain ⟨sepL, sepR⟩ := contig_sep hR.contig
  simp only at sepL sepR
  have hN := hR.nodes
  have hd1 : dll (set_status st.mem h v) 0 st.f_start (f1 ++ (h + 8) :: f2) 0 := by
    apply dll_frame hR.list
    intro n hn x hx1 hx2
    have := hR.node_blk hn hB
    simp only [set_status]
    exact wr_out (by simp only at this; omega)
  have hd2 := remove_node_spec { st with mem := set_status st.mem h v } hd1 hN
  have hfr : ∀ x, (x < h + 4 ∨ h + 8 ≤ x) → (∀ n ∈ f1 ++ f2, x < n ∨ n + 16 ≤ x) →
      (remove_node { st with mem := set_status st.mem h v } (h + 8)).mem x = st.mem x := by
    intro x hx1 hx2
    rw [remove_node_frame_list { st with mem := set_status st.mem h v } hd1 x hx2]
    simp only [set_status]
    exact wr_out (by omega)
  have hsub : ∀ n ∈ f1 ++ f2, n ∈ f1 ++ (h + 8) :: f2 ∧ n ≠ h + 8 := fun n hn =>
    (mem_mid_iff hR.nodup).mp hn
  have hokc : ∀ c ∈ l1 ++ ⟨h, s, true⟩ :: l2, (c.hdr + 24 + c.size ≤ h ∨ h + 24 + s ≤ c.hdr) →
      BlkOK S (remove_node { st with mem := set_status st.mem h v } (h + 8)).mem c := by
    intro c hc1 hcs
    apply (hR.ok c hc1).hdr_frame
    intro x hx1 hx2
    apply hfr x (by omega)
    intro n hn
    have := hR.node_blk (hsub n hn).1 hc1
    omega
  have hfrB : ∀ x, h ≤ x → x < h + 8 → (∀ n ∈ f1 ++ f2, x < n ∨ n + 16 ≤ x) := by
    intro x hx1 hx2 n hn
    have h1 := hR.node_blk (hsub n hn).1 hB
    have h2 := (hsub n hn).2
    simp only at h1
    omega
  refine ⟨⟨?_, ?_, ?_, ?_, ?_, ?_, ?_⟩, hfr⟩
  · rw [(remove_node_seg _ _).2]; exact hR.lt64
  · rw [(remove_node_seg _ _).2, (remove_node_seg _ _).1]; exact hR.lt32
  · rw [(remove_node_seg _ _).2, (remove_node_seg _ _).1]
    obtain ⟨c1, c2⟩ := contig_split hR.contig
    exact contig_join (b := ⟨h, s, false⟩) c1 c2
  · intro c hc1
    simp only [List.mem_append, List.mem_cons] at hc1
    rcases hc1 with hc1 | hc1 | hc1
    · exact hokc c (by simp [hc1]) (Or.inl (sepL c hc1))
    · subst hc1
      have hold := hR.ok _ hB
      refine ⟨?_, ?_, ?_⟩
      · have e : hsize (remove_node { st with mem := set_status st.mem h v } (h + 8)).mem h
            = hsize st.mem h :=
          rd_congr (fun x hx1 hx2 => hfr x (by omega) (hfrB x (by omega) (by omega)))
        simp only at e ⊢
        rw [e]
        exact hold.1
      · intro _
        simp only [hstatus]
        rw [rd_congr (m := set_status st.mem h v)
          (fun x hx1 hx2 => remove_node_frame_list
            { st with mem := set_status st.mem h v } hd1 x
            (hfrB x (by omega) (by omega)))]
        simp only [set_status]
        rw [rd_wr_same4 hv2]
        exact hv
      · intro hf; simp at hf
    · exact hokc c (by simp [hc1]) (Or.inr (sepR c hc1))
  · exact hd2
  · exact nodup_mid hR.nodup
  · intro x
    rw [mem_mid_iff hR.nodup]
    have hm := hR.mem x
    simp only [List.mem_append, List.mem_cons] at hm ⊢
    constructor
    · rintro ⟨hx, hne⟩
      obtain ⟨b, hb1, hb2, hb3⟩ := hm.mp hx
      rcases hb1 with hb1 | hb1 | hb1
      · exact ⟨b, Or.inl hb1, hb2, hb3⟩
      · subst hb1
        exact absurd hb3 hne
      · exact ⟨b, Or.inr (Or.inr hb1), hb2, hb3⟩
    · rintro ⟨b, hb1, hb2, hb3⟩
      rcases hb1 with hb1 | hb1 | hb1
      · have := sepL b hb1
        exact ⟨hm.mpr ⟨b, Or.inl hb1, hb2, hb3⟩, by omega⟩
      · subst hb1
        simp at hb2
      · have := sepR b hb1
        exact ⟨hm.mpr ⟨b, Or.inr (Or.inr hb1), hb2, hb3⟩, by omega⟩

/-- Marking a used block free and pushing its node. -/
theorem rep_link {S : Prop} {st : State} {l1 l2 : List Blk} {fl : List Nat} {h s : Nat}
    (hR : Rep S st (l1 ++ ⟨h, s, false⟩ :: l2) fl) :
    Rep S (add_node { st with mem := set_status st.mem h 0 } (h + 8))
      (l1 ++ ⟨h, s, true⟩ :: l2) ((h + 8) :: fl) ∧
    (∀ x, (x < h + 4 ∨ h + 24 ≤ x) → (∀ n ∈ fl, x < n + 8 ∨ n + 16 ≤ x) →
      (add_node { st with mem := set_status st.mem h 0 } (h + 8)).mem x = st.mem x) := by
  have hB : (⟨h, s, false⟩ : Blk) ∈ l1 ++ ⟨h, s, false⟩ :: l2 := by simp
  have hBb := hR.blk hB
  simp only at hBb
  obtain ⟨sepL, sepR⟩ := contig_sep hR.contig
  simp only at sepL sepR
  have hfl : ∀ n ∈ fl, n + 16 ≤ h ∨ h + 24 + s + 8 ≤ n := by
    intro n hn
    rcases hR.node_blk hn hB with e | e | e
    · exact absurd e.2 (by simp)
    · exact Or.inl e
    · exact Or.inr e
  have hd1 : dll (set_status st.mem h 0) 0 st.f_start fl 0 := by
    apply dll_frame hR.list
    intro n hn x hx1 hx2
    have := hfl n hn
    simp only [set_status]
    exact wr_out (by omega)
  have hlt := hR.lt64
  obtain ⟨hd2, hs2⟩ := add_node_spec { st with mem := set_status st.mem h 0 }
    (h + 8) hd1 (by omega) (by omega) hR.nodes (by intro n hn; have := hfl n hn; omega)
  have hfr : ∀ x, (x < h + 4 ∨ h + 24 ≤ x) → (∀ n ∈ fl, x < n + 8 ∨ n + 16 ≤ x) →
      (add_node { st with mem := set_status st.mem h 0 } (h + 8)).mem x = st.mem x := by
    intro x hx1 hx2
    rw [add_node_frame _ _ _ (by omega) (by omega)]
    · simp only [set_status]
      exact wr_out (by omega)
    · rcases dll_start_mem hd1 with e | e
      · exact Or.inl e
      · exact Or.inr (hx2 _ e)
  have hokc : ∀ c ∈ l1 ++ ⟨h, s, false⟩ :: l2, (c.hdr + 24 + c.size ≤ h ∨ h + 24 + s ≤ c.hdr) →
      BlkOK S (add_node { st with mem := set_status st.mem h 0 } (h + 8)).mem c := by
    intro c hc hcs
    apply (hR.ok c hc).hdr_frame
    intro x hx1 hx2
    apply hfr x (by omega)
    intro n hn
    have := hR.node_blk hn hc
    omega
  have e0 : h + 8 - 8 = h := by omega
  rw [e0] at hs2
  refine ⟨⟨?_, ?_, ?_, ?_, ?_, ?_, ?_⟩, hfr⟩
  · rw [(add_node_seg _ _).2]; exact hlt
  · rw [(add_node_seg _ _).2, (add_node_seg _ _).1]; exact hR.lt32
  · rw [(add_node_seg _ _).2, (add_node_seg _ _).1]
    obtain ⟨c1, c2⟩ := contig_split hR.contig
    exact contig_join (b := ⟨h, s, true⟩) c1 c2
  · intro c hc
    simp only [List.mem_append, List.mem_cons] at hc
    rcases hc with hc | hc | hc
    · exact hokc c (by simp [hc]) (Or.inl (sepL c hc))
    · subst hc
      refine ⟨?_, ?_, ?_⟩
      · have e : hsize (add_node { st with mem := set_status st.mem h 0 } (h + 8)).mem h
            = hsize st.mem h :=
          rd_congr (fun x hx1 hx2 => hfr x (by omega)
            (fun n hn => by have := hfl n hn; omega))
        simp only at e ⊢
        rw [e]
        exact (hR.ok _ hB).1
      · intro hf; simp at hf
      · intro _ _; exact hs2
    · exact hokc c (by simp [hc]) (Or.inr (sepR c hc))
  · rw [add_node_head _ _ (by omega)] at hd2 ⊢
    exact hd2
  · apply List.nodup_cons.mpr
    refine ⟨?_, hR.nodup⟩
    intro hn
    have := hfl _ hn
    omega
  · intro x
    have hm := hR.mem x
    simp only [List.mem_append, List.mem_cons] at hm ⊢
    constructor
    · rintro (hx | hx)
      · exact ⟨⟨h, s, true⟩, by simp, rfl, hx⟩
      · obtain ⟨b, hb1, hb2, hb3⟩ := hm.mp hx
        rcases hb1 with hb1 | hb1 | hb1
        · exact ⟨b, Or.inl hb1, hb2, hb3⟩
        · rw [hb1] at hb2; simp at hb2
        · exact ⟨b, Or.inr (Or.inr hb1), hb2, hb3⟩
    · rintro ⟨b, hb1, hb2, hb3⟩
      rcases hb1 with hb1 | hb1 | hb1
      · exact Or.inr (hm.mpr ⟨b, Or.inl hb1, hb2, hb3⟩)
      · rw [hb1] at hb3; exact Or.inl hb3
      · exact Or.inr (hm.mpr ⟨b, Or.inr (Or.inr hb1), hb2, hb3⟩)

/-- A state that differs only outside the headers and nodes of the blocks (payload bytes,
bytes outside the segment) has the same representation. -/
theorem Rep.frame {S : Prop} {st : State} {bs : List Blk} {fl : List Nat} (hR : Rep S st bs fl)
    (st2 : State)
    (hb : st2.segment_begin = st.segment_begin) (he : st2.segment_end = st.segment_end)
    (hf : st2.f_start = st.f_start)
    (hm : ∀ x, (∃ b ∈ bs, b.hdr ≤ x ∧ x < b.hdr + 24) → st2.mem x = st.mem x) :
    Rep S st2 bs fl := by
  refine ⟨?_, ?_, ?_, ?_, ?_, hR.nodup, hR.mem⟩
  · rw [he]; exact hR.lt64
  · rw [he, hb]; exact hR.lt32
  · rw [he, hb]; exact hR.contig
  · intro c hc
    apply (hR.ok c hc).hdr_frame
    intro x hx1 hx2
    exact hm x ⟨c, hc, hx1, by omega⟩
  · rw [hf]
    apply dll_frame hR.list
    intro n hn x hx1 hx2
    obtain ⟨b, hb1, -, hb3⟩ := (hR.mem n).mp hn
    exact hm x ⟨b, hb1, by omega, by omega⟩

/-- A byte inside the payload of a block lies in no header and no node of the tiling. -/
theorem payload_not_hdr {a e : Nat} {bs : List Blk} (hc : Contig a e bs) {b : Blk} (hb : b ∈ bs)
    {x : Nat} (hx1 : b.hdr + 24 ≤ x) (hx2 : x < b.hdr + 24 + b.size) :
    ¬ ∃ c ∈ bs, c.hdr ≤ x ∧ x < c.hdr + 24 := by
  rintro ⟨c, hc1, hc2, hc3⟩
  rcases contig_disj hc hb hc1 with e1 | e1 | e1
  · subst e1; omega
  · omega
  · omega

theorem dll_head0 {m : Mem} {p c : Nat} {l : List Nat} (h : dll m p c l 0) : c = headOr l := by
  cases l with
  | nil => exact h
  | cons n t => exact h.1

/-- Unlinking once more a node that has already been unlinked (its own `prev` and `next`
fields still name its former neighbours) leaves the representation as it is. -/
theorem rep_remove_stale {S : Prop} {st : State} {bs : List Blk} {f1 f2 : List Nat} (nh v : Nat)
    (hR : Rep S st bs (f1 ++ f2))
    (hpay : ∃ b ∈ bs, b.hdr + 24 ≤ nh ∧ nh + 24 ≤ b.hdr + 24 + b.size)
    (hp : nprev st.mem (nh + 8) = lastOr f1 0) (hn : nnext st.mem (nh + 8) = headOr f2) :
    Rep S (remove_node { st with mem := set_status st.mem nh v } (nh + 8)) bs (f1 ++ f2) ∧
    (∀ x, (x < nh + 4 ∨ nh + 8 ≤ x) → (∀ n ∈ f1 ++ f2, x < n ∨ n + 16 ≤ x) →
      (remove_node { st with mem := set_status st.mem nh v } (nh + 8)).mem x = st.mem x) := by
  obtain ⟨b, hb1, hb2, hb3⟩ := hpay
  have hR1 : Rep S { st with mem := set_status st.mem nh v } bs (f1 ++ f2) := by
    refine hR.frame { st with mem := set_status st.mem nh v } rfl rfl rfl ?_
    intro x hx
    simp only [set_status]
    apply wr_out
    by_contra hcon
    exact payload_not_hdr hR.contig hb1 (x := x) (by omega) (by omega) hx
  have ep : nprev (set_status st.mem nh v) (nh + 8) = lastOr f1 0 := by
    rw [← hp]
    simp only [nprev, set_status]
    exact rd_wr_disj (by omega)
  have en : nnext (set_status st.mem nh v) (nh + 8) = headOr f2 := by
    rw [← hn]
    simp only [nnext, set_status]
    exact rd_wr_disj (by omega)
  obtain ⟨mid, h1, h2⟩ := dll_append.mp hR1.list
  have hmid := dll_head0 h2
  have hfr : ∀ x, (x < nh + 4 ∨ nh + 8 ≤ x) → (∀ n ∈ f1 ++ f2, x < n ∨ n + 16 ≤ x) →
      (remove_node { st with mem := set_status st.mem nh v } (nh + 8)).mem x = st.mem x := by
    intro x hx1 hx2
    rw [remove_node_frame]
    · simp only [set_status]
      exact wr_out (by omega)
    · simp only
      rw [ep]
      cases f1 with
      | nil => exact Or.inl rfl
      | cons k u =>
        have := hx2 _ (List.mem_append_left _ (lastOr_mem (p := 0) (l := k :: u) (by simp)))
        omega
    · simp only
      rw [en]
      cases f2 with
      | nil => exact Or.inl rfl
      | cons k u =>
        have := hx2 k (by simp)
        simp only [headOr]
        omega
  refine ⟨⟨?_, ?_, ?_, ?_, ?_, hR.nodup, hR.mem⟩, hfr⟩
  · rw [(remove_node_seg _ _).2]; exact hR.lt64
  · rw [(remove_node_seg _ _).2, (remove_node_seg _ _).1]; exact hR.lt32
  · rw [(remove_node_seg _ _).2, (remove_node_seg _ _).1]; exact hR.contig
  · intro c hc
    apply (hR.ok c hc).hdr_frame
    intro x hx1 hx2
    apply hfr x
    · by_contra hcon
      exact payload_not_hdr hR.contig hb1 (x := x) (by omega) (by omega) ⟨c, hc, hx1, by omega⟩
    · intro n hn2
      have := hR.node_blk hn2 hc
      omega
  · by_cases hf0 : st.f_start = 0
    · rw [remove_node_empty { st with mem := set_status st.mem nh v } (nh + 8) hf0]
      exact hR1.list
    · have h2b : dll (set_status st.mem nh v) (lastOr f1 0)
          (nnext (set_status st.mem nh v) (nh + 8)) f2 0 := by
        rw [en, ← hmid]
        exact h2
      exact remove_node_gen { st with mem := set_status st.mem nh v }
        (x := mid) (q := lastOr f1 0) hf0 (fun _ => rfl) h1 h2b ep hR.nodes

/-- `remove_node` on two memories that give the node the same `prev` and `next`. -/
theorem remove_node_congr (st : State) (ma mb : Mem) (nd : Nat)
    (hp : nprev ma nd = nprev mb nd) (hn : nnext ma nd = nnext mb nd) :
    (remove_node { st with mem := ma } nd).f_start = (remove_node { st with mem := mb } nd).f_start ∧
    ∀ x, ma x = mb x →
      (remove_node { st with mem := ma } nd).mem x = (remove_node { st with mem := mb } nd).mem x := by
  unfold remove_node
  simp only [NULL, hp, hn]
  split_ifs <;> refine ⟨rfl, fun x hx => ?_⟩
  · exact hx
  · simp only [set_prev, wr]; rw [hx]
  · simp only [set_next, wr]; rw [hx]
  · exact hx
  · simp only [set_prev, set_next, wr]; rw [hx]

/-! ## `mymalloc` -/

theorem sub64_eq {a b : Nat} (h1 : b ≤ a) (h2 : a < 18446744073709551616) : sub64 a b = a - b := by
  unfold sub64
  omega

theorem malloc_scan_none {m : Mem} {p c r : Nat} {fl : List Nat} (h : dll m p c fl 0)
    (hno : ∀ n ∈ fl, ¬ (hsize m (n - 8) > r + 24)) (fuel : Nat) (hfuel : fl.length < fuel) :
    malloc_scan m r fuel c = some 0 := by
  induction fl generalizing p c fuel with
  | nil =>
    have hc : c = 0 := h
    cases fuel with
    | zero => simp at hfuel
    | succ k => simp [malloc_scan, hc]
  | cons n t ih =>
    obtain ⟨h1, h2, -, h4⟩ := h
    cases fuel with
    | zero => simp at hfuel
    | succ k =>
      have hn := hno n (by simp)
      subst h1
      simp only [malloc_scan, NULL, prev_next_to_hdr, sizeof_header, BUF_DATA_SIZE,
        sizeof_prev_next]
      rw [if_neg h2, if_neg (by omega)]
      exact ih h4 (fun x hx => hno x (List.mem_cons_of_mem _ hx)) k (by simp at hfuel; omega)

theorem malloc_scan_some {m : Mem} {p c r nd : Nat} {f1 f2 : List Nat}
    (h : dll m p c (f1 ++ nd :: f2) 0) (hno : ∀ n ∈ f1, ¬ (hsize m (n - 8) > r + 24))
    (hyes : hsize m (nd - 8) > r + 24) (fuel : Nat) (hfuel : f1.length < fuel) :
    malloc_scan m r fuel c = some nd := by
  induction f1 generalizing p c fuel with
  | nil =>
    obtain ⟨h1, h2, -, -⟩ := h
    cases fuel with
    | zero => simp at hfuel
    | succ k =>
      subst h1
      simp only [malloc_scan, NULL, prev_next_to_hdr, sizeof_header, BUF_DATA_SIZE,
        sizeof_prev_next]
      rw [if_neg h2, if_pos (by omega)]
  | cons n t ih =>
    obtain ⟨h1, h2, -, h4⟩ := h
    cases fuel with
    | zero => simp at hfuel
    | succ k =>
      have hn := hno n (by simp)
      subst h1
      simp only [malloc_scan, NULL, prev_next_to_hdr, sizeof_header, BUF_DATA_SIZE,
        sizeof_prev_next]
      rw [if_neg h2, if_neg (by omega)]
      exact ih h4 (fun x hx => hno x (List.mem_cons_of_mem _ hx)) k (by simp at hfuel; omega)

/-- Every list either has no element with a property or splits at the first one. -/
theorem first_split {α : Type} (P : α → Prop) (l : List α) :
    (∀ n ∈ l, ¬ P n) ∨ ∃ f1 nd f2, l = f1 ++ nd :: f2 ∧ (∀ n ∈ f1, ¬ P n) ∧ P nd := by
  induction l with
  | nil => left; intro n hn; cases hn
  | cons a t ih =>
    by_cases ha : P a
    · right; exact ⟨[], a, t, rfl, by simp, ha⟩
    · rcases ih with h | ⟨f1, nd, f2, e, h1, h2⟩
      · left
        intro n hn
        rcases List.mem_cons.mp hn with e | e
        · rw [e]; exact ha
        · exact h n e
      · right
        refine ⟨a :: f1, nd, f2, by rw [e]; rfl, ?_, h2⟩
        intro n hn
        rcases List.mem_cons.mp hn with e | e
        · rw [e]; exact ha
        · exact h1 n e

/-- The split performed by `create_chunk_hdr` on a free block that is large enough. -/
theorem create_chunk_hdr_spec {S : Prop} {st : State} {l1 l2 : List Blk} {f1 f2 : List Nat}
    {h s w : Nat} (flag : Bool)
    (hR : Rep S st (l1 ++ ⟨h, s, true⟩ :: l2) (f1 ++ (h + 8) :: f2))
    (hw1 : 24 ≤ w) (hw2 : w + 24 < s) :
    Rep S (create_chunk_hdr st h w flag)
      (l1 ++ ⟨h, w, false⟩ :: ⟨h + 24 + w, s - w - 24, true⟩ :: l2)
      ((h + 24 + w + 8) :: (f1 ++ f2)) ∧
    (∀ x, (x < h ∨ h + 8 ≤ x) → (x < h + 24 + w ∨ h + 24 + w + 24 ≤ x) →
      (∀ n ∈ f1 ++ f2, x < n ∨ n + 16 ≤ x) → (create_chunk_hdr st h w flag).mem x = st.mem x) ∧
    hstatus (create_chunk_hdr st h w flag).mem (h + 24 + w) = 0 ∧
    hstatus (create_chunk_hdr st h w flag).mem h = 1 := by
  have hB : (⟨h, s, true⟩ : Blk) ∈ l1 ++ ⟨h, s, true⟩ :: l2 := by simp
  have hBb := hR.blk hB
  simp only at hBb
  have hsz : hsize st.mem h = s := (hR.ok _ hB).1
  have hs32 : s < 4294967296 := by rw [← hsz]; exact rd4_lt _ _
  have hlt := hR.lt64
  obtain ⟨hR0, hfr0⟩ := rep_unlink (v := 1) hR (by decide) (by decide)
  -- the memory after the four header writes
  have e1 : hsize (set_status st.mem (h + w + 8 + 16) 0) h = s := by
    rw [← hsz]
    simp only [hsize, set_status]
    exact rd_wr_disj (by omega)
  have a1 : sub64 s w = s - w := sub64_eq (by omega) (by omega)
  have a2 : sub64 (s - w) 8 = s - w - 8 := sub64_eq (by omega) (by omega)
  have a3 : sub64 (s - w - 8) 16 = s - w - 24 := by
    rw [sub64_eq (by omega) (by omega)]; omega
  obtain ⟨m4, hm4d⟩ : ∃ m4, m4 = set_status (set_size (set_size
      (set_status st.mem (h + 24 + w) 0) (h + 24 + w) (s - w - 24)) h w) h 1 := ⟨_, rfl⟩
  have hcc : create_chunk_hdr st h w flag =
      add_node (remove_node { st with mem := m4 } (h + 8)) (h + 24 + w + 8) := by
    unfold create_chunk_hdr
    simp only [sizeof_prev_next, sizeof_header, sizeof_size_t, hdr_to_prev_next]
    rw [if_neg (by omega), e1, a1, a2, a3, show h + w + 8 + 16 = h + 24 + w by omega, hm4d]
  rw [hcc]
  have hm4 : ∀ x, (x < h ∨ h + 8 ≤ x) → (x < h + 24 + w ∨ h + 24 + w + 8 ≤ x) →
      m4 x = st.mem x := by
    intro x hx1 hx2
    rw [hm4d]
    simp only [set_status, set_size]
    rw [wr_out (by omega), wr_out (by omega), wr_out (by omega), wr_out (by omega)]
  have v1 : hsize m4 h = w := by
    rw [hm4d]
    simp only [hsize, set_status, set_size]
    rw [rd_wr_disj (by omega)]
    exact rd_wr_same4 (by omega)
  have v2 : hstatus m4 h = 1 := by
    rw [hm4d]
    simp only [hstatus, set_status]
    exact rd_wr_same4 (by decide)
  have v3 : hsize m4 (h + 24 + w) = s - w - 24 := by
    rw [hm4d]
    simp only [hsize, set_status, set_size]
    rw [rd_wr_disj (by omega), rd_wr_disj (by omega)]
    exact rd_wr_same4 (by omega)
  have hd4 : dll m4 0 st.f_start (f1 ++ (h + 8) :: f2) 0 := by
    apply dll_frame hR.list
    intro n hn x hx1 hx2
    have := hR.node_blk hn hB
    simp only at this
    exact hm4 x (by omega) (by omega)
  have hfrb : ∀ x, (∀ n ∈ f1 ++ f2, x < n ∨ n + 16 ≤ x) →
      (remove_node { st with mem := m4 } (h + 8)).mem x = m4 x := fun x hx =>
    remove_node_frame_list { st with mem := m4 } hd4 x hx
  have hsep : ∀ x, h ≤ x → x < h + 24 + s → (∀ n ∈ f1 ++ f2, x < n ∨ n + 16 ≤ x) := by
    intro x hx1 hx2 n hn
    have h1 := (mem_mid_iff hR.nodup).mp hn
    have h2 := hR.node_blk h1.1 hB
    have h3 := h1.2
    simp only at h2
    omega
  obtain ⟨cg1, cg2⟩ := remove_node_congr st m4 (set_status st.mem h 1) (h + 8)
    (by simp only [nprev, set_status]
        rw [rd_wr_disj (by omega)]
        exact rd_congr (fun x hx1 hx2 => hm4 x (by omega) (by omega)))
    (by simp only [nnext, set_status]
        rw [rd_wr_disj (by omega)]
        exact rd_congr (fun x hx1 hx2 => hm4 x (by omega) (by omega)))
  obtain ⟨hRf, hfrf, hst0, hst1⟩ := rep_split (remove_node { st with mem := m4 } (h + 8)) (w := w)
    hR0 (by omega)
    (by rw [(remove_node_seg _ _).1, (remove_node_seg _ _).1])
    (by rw [(remove_node_seg _ _).2, (remove_node_seg _ _).2])
    cg1
    (by intro x hx1 hx2
        apply cg2
        rw [hm4 x hx1 hx2]
        simp only [set_status]
        rw [wr_out (by omega)])
    (by rw [← v1]
        exact rd_congr (fun x hx1 hx2 => hfrb x (hsep x (by omega) (by omega))))
    (by have e : hstatus (remove_node { st with mem := m4 } (h + 8)).mem h = hstatus m4 h :=
          rd_congr (fun x hx1 hx2 => hfrb x (hsep x (by omega) (by omega)))
        rw [e, v2]
        decide)
    (by rw [← v3]
        exact rd_congr (fun x hx1 hx2 => hfrb x (hsep x (by omega) (by omega))))
  refine ⟨hRf, ?_, hst0, ?_⟩
  · intro x hx1 hx2 hx3
    rw [hfrf x hx1 hx2 (fun n hn => by have := hx3 n hn; omega)]
    exact hfr0 x (by omega) hx3
  · rw [hst1, ← v2]
    exact rd_congr (fun x hx1 hx2 => hfrb x (hsep x (by omega) (by omega)))

theorem fmt_eq {n : Nat} (h : n ≤ 1073741824) :
    fmt n = if (n + 7) / 8 * 8 < 24 then 24 else (n + 7) / 8 * 8 := by
  unfold fmt
  rw [roundup_eq n (by omega)]
  rfl

theorem fmt_props {n : Nat} (h : n ≤ 1073741824) :
    24 ≤ fmt n ∧ fmt n % 8 = 0 ∧ n ≤ fmt n ∧ fmt n ≤ 1073741824 := by
  rw [fmt_eq h]
  split_ifs <;> omega

/-- Whenever `mymalloc` returns `NULL` it has not changed the state. -/
theorem mymalloc_null {fuel : Nat} {st st2 : State} {n : Nat}
    (h : mymalloc fuel st n = some (0, st2)) : st2 = st := by
  unfold mymalloc at h
  simp only [NULL] at h
  generalize (if roundup n ALIGNMENT < sizeof_header + sizeof_prev_next then
    sizeof_header + sizeof_prev_next else roundup n ALIGNMENT) = r at h
  split_ifs at h with c1 c2
  · simp only [Option.some.injEq, Prod.mk.injEq] at h; exact h.2.symm
  · simp only [Option.some.injEq, Prod.mk.injEq] at h; exact h.2.symm
  · split at h
    · cases h
    · split_ifs at h with c3
      · simp only [Option.some.injEq, Prod.mk.injEq] at h; exact h.2.symm
      · simp only [Option.some.injEq, Prod.mk.injEq, prev_next_to_payload, sizeof_prev_next] at h
        omega

/-- The value `mymalloc` computes once the loop has stopped at `c`. -/
theorem mymalloc_unfold {fuel : Nat} {st : State} {n c : Nat} (h1 : 0 < n) (h2 : n ≤ 1073741824)
    (hf : st.f_start ≠ 0) (hs : malloc_scan st.mem (fmt n) fuel st.f_start = some c) :
    mymalloc fuel st n =
      if c = 0 then some (0, st) else some (c + 16, create_chunk_hdr st (c - 8) (fmt n) false) := by
  unfold mymalloc
  simp only [NULL]
  rw [if_neg (by simp; omega), if_neg hf]
  have e : (if roundup n ALIGNMENT < sizeof_header + sizeof_prev_next then
      sizeof_header + sizeof_prev_next else roundup n ALIGNMENT) = fmt n := rfl
  simp only [e, hs]
  simp only [prev_next_to_payload, prev_next_to_hdr, sizeof_prev_next, sizeof_header]

theorem Rep.flsize {S : Prop} {st : State} {bs : List Blk} {fl : List Nat} (hR : Rep S st bs fl)
    {n : Nat} (hn : n ∈ fl) : ∃ b ∈ bs, b.free = true ∧ n = b.hdr + 8 ∧ hsize st.mem (n - 8) = b.size := by
  obtain ⟨b, hb1, hb2, hb3⟩ := (hR.mem n).mp hn
  refine ⟨b, hb1, hb2, hb3, ?_⟩
  rw [hb3, show b.hdr + 8 - 8 = b.hdr by omega]
  exact (hR.ok b hb1).1

/-- `mymalloc` fails without touching the state when no free block is large enough. -/
theorem mymalloc_fail {S : Prop} {st : State} {bs : List Blk} {fl : List Nat} {n fuel : Nat}
    (hR : Rep S st bs fl) (hno : ∀ b ∈ bs, b.free = true → ¬ (b.size > fmt n + 24))
    (hfuel : fl.length < fuel) : mymalloc fuel st n = some (0, st) := by
  by_cases h1 : 0 < n ∧ n ≤ 1073741824
  · by_cases hf : st.f_start = 0
    · unfold mymalloc
      simp only [NULL]
      rw [if_neg (by simp; omega), if_pos hf]
    · rw [mymalloc_unfold h1.1 h1.2 hf (c := 0)]
      · simp
      · apply malloc_scan_none hR.list _ fuel hfuel
        intro x hx
        obtain ⟨b, hb1, hb2, -, hb4⟩ := hR.flsize hx
        rw [hb4]
        exact hno b hb1 hb2
  · unfold mymalloc
    simp only [NULL]
    rw [if_pos (by simp; omega)]

/-- `mymalloc` splits the first free block of the list that is large enough. -/
theorem mymalloc_succ {S : Prop} {st : State} {l1 l2 : List Blk} {f1 f2 : List Nat}
    {h s n fuel : Nat} (hR : Rep S st (l1 ++ ⟨h, s, true⟩ :: l2) (f1 ++ (h + 8) :: f2))
    (h1 : 0 < n) (h2 : n ≤ 1073741824)
    (hno : ∀ x ∈ f1, ¬ (hsize st.mem (x - 8) > fmt n + 24)) (hyes : s > fmt n + 24)
    (hfuel : f1.length < fuel) :
    mymalloc fuel st n = some (h + 24, create_chunk_hdr st h (fmt n) false) := by
  have hB : (⟨h, s, true⟩ : Blk) ∈ l1 ++ ⟨h, s, true⟩ :: l2 := by simp
  have hsz : hsize st.mem h = s := (hR.ok _ hB).1
  have hf : st.f_start ≠ 0 := by
    have hl := hR.list
    cases f1 with
    | nil => rw [hl.1]; omega
    | cons k u => rw [hl.1]; exact hl.2.1
  rw [mymalloc_unfold h1 h2 hf (c := h + 8)]
  · rw [if_neg (by omega), show h + 8 + 16 = h + 24 by omega, show h + 8 - 8 = h by omega]
  · apply malloc_scan_some hR.list hno _ fuel hfuel
    rw [show h + 8 - 8 = h by omega, hsz]
    exact hyes

theorem malloc_scan_find {m : Mem} {p c r : Nat} {fl : List Nat} (h : dll m p c fl 0)
    (fuel : Nat) (hfuel : fl.length < fuel) :
    malloc_scan m r fuel c =
      some ((fl.find? (fun x => decide (hsize m (x - 8) > r + 24))).getD 0) := by
  induction fl generalizing p c fuel with
  | nil =>
    have hc : c = 0 := h
    cases fuel with
    | zero => simp at hfuel
    | succ k => simp [malloc_scan, hc]
  | cons n t ih =>
    obtain ⟨h1, h2, -, h4⟩ := h
    cases fuel with
    | zero => simp at hfuel
    | succ k =>
      subst h1
      simp only [malloc_scan, NULL, prev_next_to_hdr, sizeof_header, BUF_DATA_SIZE,
        sizeof_prev_next, List.find?]
      rw [if_neg h2]
      by_cases hfit : hsize m (c - 8) > r + 24
      · rw [if_pos (by omega)]
        simp [hfit]
      · rw [if_neg (by omega)]
        simp only [hfit, decide_False]
        exact ih h4 k (by simp at hfuel; omega)

theorem shrink_chunk_false {st : State} {h w : Nat} (hf : (shrink_chunk st h w).1 = false) :
    (shrink_chunk st h w).2 = st := by
  unfold shrink_chunk at hf ⊢
  simp only at hf ⊢
  split_ifs at hf ⊢ <;> rfl

theorem in_place_realloc_false {st : State} {h w : Nat} (hf : (in_place_realloc st h w).1 = false) :
    (in_place_realloc st h w).2 = st := by
  unfold in_place_realloc at hf ⊢
  simp only at hf ⊢
  split_ifs at hf ⊢ <;> rfl

theorem realloc_fallback_null {fuel : Nat} {st st2 : State} {p w k : Nat}
    (h : realloc_fallback fuel st p w k = some (0, st2)) : st2 = st := by
  unfold realloc_fallback at h
  split at h
  · cases h
  · rename_i ret st1 heq
    simp only [NULL] at h
    split_ifs at h with c
    · simp only [Option.some.injEq, Prod.mk.injEq] at h
      rw [c] at heq
      rw [← h.2]
      exact mymalloc_null heq
    · simp only [Option.some.injEq, Prod.mk.injEq] at h
      exact absurd h.1 c

/-- Whenever `myrealloc` with a non-zero size returns `NULL` it has not changed the state. -/
theorem myrealloc_null {fuel : Nat} {st st2 : State} {p n : Nat}
    (h : myrealloc fuel st p n = some (0, st2)) : st2 = st := by
  unfold myrealloc at h
  simp only [NULL] at h
  split_ifs at h with c1 c2 c3 c4 c5 c6 c7
  · exact mymalloc_null h
  · simp only [Option.some.injEq, Prod.mk.injEq] at h; exact h.2.symm
  · simp only [Option.some.injEq, Prod.mk.injEq] at h; exact h.2.symm
  · simp only [Option.some.injEq, Prod.mk.injEq] at h; exact h.2.symm
  · simp only [Option.some.injEq, Prod.mk.injEq] at h
    exact absurd h.1 (by omega)
  · have e := shrink_chunk_false (Bool.eq_false_iff.mpr c6)
    rw [e] at h
    exact realloc_fallback_null h
  · simp only [Option.some.injEq, Prod.mk.injEq] at h
    exact absurd h.1 (by omega)
  · have e := in_place_realloc_false (Bool.eq_false_iff.mpr c7)
    rw [e] at h
    exact realloc_fallback_null h

/-! ## `myfree` -/

theorem Rep.cover {S : Prop} {st : State} {bs : List Blk} {fl : List Nat} (hR : Rep S st bs fl)
    {x : Nat} (hx : ∀ b ∈ bs, x < b.hdr ∨ b.hdr + 24 ≤ x) : ∀ n ∈ fl, x + 8 < n ∨ n + 16 ≤ x := by
  intro n hn
  obtain ⟨b, hb1, -, hb3⟩ := (hR.mem n).mp hn
  have := hx b hb1
  omega

theorem myfree_unfold (st : State) (h : Nat) :
    myfree st (h + 24) = merge_free (add_node { st with mem := set_status st.mem h 0 } (h + 8)) h := by
  unfold myfree
  simp only [NULL, payload_to_hdr, payload_to_prev_next, sizeof_header, sizeof_prev_next]
  rw [if_neg (by omega), show h + 24 - 8 - 16 = h by omega, show h + 24 - 16 = h + 8 by omega]

/-- Release of the last block of the segment: the block becomes the head of the free list. -/
theorem myfree_last {S : Prop} {st : State} {l1 : List Blk} {fl : List Nat} {h s : Nat}
    (hR : Rep S st (l1 ++ [⟨h, s, false⟩]) fl) :
    myfree st (h + 24) = add_node { st with mem := set_status st.mem h 0 } (h + 8) ∧
    Rep S (myfree st (h + 24)) (l1 ++ [⟨h, s, true⟩]) ((h + 8) :: fl) := by
  obtain ⟨hR1, -⟩ := rep_link hR
  have e := merge_free_last hR1
  rw [myfree_unfold, e]
  exact ⟨rfl, hR1⟩

/-- Release of a block whose successor has a non-zero status: no coalescing. -/
theorem myfree_skip {S : Prop} {st : State} {l1 l2 : List Blk} {fl : List Nat} {h s nh t : Nat}
    {g : Bool} (hR : Rep S st (l1 ++ ⟨h, s, false⟩ :: ⟨nh, t, g⟩ :: l2) fl)
    (hs : hstatus st.mem nh ≠ 0) :
    myfree st (h + 24) = add_node { st with mem := set_status st.mem h 0 } (h + 8) ∧
    Rep S (myfree st (h + 24)) (l1 ++ ⟨h, s, true⟩ :: ⟨nh, t, g⟩ :: l2) ((h + 8) :: fl) := by
  obtain ⟨hR1, hfr⟩ := rep_link hR
  have hNm : (⟨nh, t, g⟩ : Blk) ∈ l1 ++ ⟨h, s, false⟩ :: ⟨nh, t, g⟩ :: l2 := by simp
  have hnh : nh = h + 24 + s := (contig_split hR.contig).2.1
  have hs1 : hstatus (add_node { st with mem := set_status st.mem h 0 } (h + 8)).mem nh ≠ 0 := by
    have e : hstatus (add_node { st with mem := set_status st.mem h 0 } (h + 8)).mem nh
        = hstatus st.mem nh := by
      apply rd_congr
      intro x hx1 hx2
      apply hfr x (by omega)
      intro n hn
      have := hR.node_blk hn hNm
      simp only at this
      omega
    rw [e]; exact hs
  have e := merge_free_skip hR1 hs1
  rw [myfree_unfold, e]
  exact ⟨rfl, hR1⟩

/-- Release of a block whose successor is free: the successor is absorbed and unlinked. -/
theorem myfree_join {S : Prop} {st : State} {l1 l2 : List Blk} {f1 f2 : List Nat}
    {h s nh t : Nat} {g : Bool}
    (hR : Rep S st (l1 ++ ⟨h, s, false⟩ :: ⟨nh, t, g⟩ :: l2) (f1 ++ (nh + 8) :: f2))
    (hs : hstatus st.mem nh = 0) :
    Rep S (myfree st (h + 24)) (l1 ++ ⟨h, s + t + 24, true⟩ :: l2) ((h + 8) :: (f1 ++ f2)) ∧
    (myfree st (h + 24)).segment_begin = st.segment_begin ∧
    (myfree st (h + 24)).segment_end = st.segment_end ∧
    (∀ x, (x < h ∨ h + 24 ≤ x) → (∀ n ∈ f1 ++ (nh + 8) :: f2, x < n ∨ n + 16 ≤ x) →
      (myfree st (h + 24)).mem x = st.mem x) := by
  obtain ⟨hR1, hfr⟩ := rep_link hR
  have hNm : (⟨nh, t, g⟩ : Blk) ∈ l1 ++ ⟨h, s, false⟩ :: ⟨nh, t, g⟩ :: l2 := by simp
  have hnh : nh = h + 24 + s := (contig_split hR.contig).2.1
  have hs1 : hstatus (add_node { st with mem := set_status st.mem h 0 } (h + 8)).mem nh = 0 := by
    have e : hstatus (add_node { st with mem := set_status st.mem h 0 } (h + 8)).mem nh
        = hstatus st.mem nh := by
      apply rd_congr
      intro x hx1 hx2
      apply hfr x (by omega)
      intro n hn
      have := hR.node_blk hn hNm
      simp only at this
      omega
    rw [e]; exact hs
  have hR1b : Rep S (add_node { st with mem := set_status st.mem h 0 } (h + 8))
      (l1 ++ ⟨h, s, true⟩ :: ⟨nh, t, g⟩ :: l2) (((h + 8) :: f1) ++ (nh + 8) :: f2) := hR1
  obtain ⟨hR2, hb2, he2, hfr2⟩ := merge_free_join hR1b hs1
  rw [myfree_unfold]
  refine ⟨hR2, ?_, ?_, ?_⟩
  · rw [hb2, (add_node_seg _ _).1]
  · rw [he2, (add_node_seg _ _).2]
  · intro x hx1 hx2
    rw [hfr2 x (by omega)]
    · apply hfr x (by omega)
      intro n hn
      have := hx2 n hn
      omega
    · intro n hn
      rcases List.mem_cons.mp hn with e | e
      · rw [e]; omega
      · exact hx2 n ((mem_mid_iff hR.nodup).mp e).1

/-! ## Summaries of the operations -/

theorem Moved.refl {S : Prop} {st : State} {bs : List Blk} {fl : List Nat} (hR : Rep S st bs fl)
    (h : Nat) : Moved S st st bs h bs fl :=
  ⟨hR, rfl, rfl, fun _ _ _ => rfl, fun _ hb _ _ => hb, fun _ hb _ _ => hb⟩

/-- Used blocks stay clear of the segment end when the block at `h` does. -/
theorem Moved.notLast {S : Prop} {st st2 : State} {bs bs2 : List Blk} {fl2 : List Nat} {h : Nat}
    (hM : Moved S st st2 bs h bs2 fl2) (hU : UsedNotLast st.segment_end bs)
    (hown : ∀ b ∈ bs2, b.free = false → b.hdr = h → b.hdr + 24 + b.size < st.segment_end) :
    UsedNotLast st2.segment_end bs2 := by
  intro b hb hf
  rw [hM.sege]
  by_cases hh : b.hdr = h
  · exact hown b hb hf hh
  · exact hU b (hM.fresh b hb hf hh) hf

theorem Moved.aligned {S : Prop} {st st2 : State} {bs bs2 : List Blk} {fl2 : List Nat} {h : Nat}
    (hM : Moved S st st2 bs h bs2 fl2) (hU : UsedAligned bs)
    (hown : ∀ b ∈ bs2, b.free = false → b.hdr = h → 16 ≤ b.size ∧ b.size % 8 = 0) :
    UsedAligned bs2 := by
  intro b hb hf
  by_cases hh : b.hdr = h
  · exact hown b hb hf hh
  · exact hU b (hM.fresh b hb hf hh) hf

/-- The block of a tiling with a given header address is unique. -/
theorem Rep.uniq {S : Prop} {st : State} {bs : List Blk} {fl : List Nat} (hR : Rep S st bs fl)
    {b c : Blk} (hb : b ∈ bs) (hc : c ∈ bs) (hh : b.hdr = c.hdr) : b = c :=
  contig_inj hR.contig hb hc hh

/-- Summary of a successful `mymalloc` split. -/
theorem create_chunk_hdr_moved {S : Prop} {st : State} {l1 l2 : List Blk} {f1 f2 : List Nat}
    {h s w : Nat} (flag : Bool)
    (hR : Rep S st (l1 ++ ⟨h, s, true⟩ :: l2) (f1 ++ (h + 8) :: f2))
    (hw1 : 24 ≤ w) (hw2 : w + 24 < s) :
    Moved S st (create_chunk_hdr st h w flag) (l1 ++ ⟨h, s, true⟩ :: l2) h
      (l1 ++ ⟨h, w, false⟩ :: ⟨h + 24 + w, s - w - 24, true⟩ :: l2)
      ((h + 24 + w + 8) :: (f1 ++ f2)) := by
  obtain ⟨hRf, hfr, -⟩ := create_chunk_hdr_spec flag hR hw1 hw2
  have hsb : (create_chunk_hdr st h w flag).segment_begin = st.segment_begin := by
    unfold create_chunk_hdr
    simp only
    rw [(add_node_seg _ _).1, (remove_node_seg _ _).1]
  have hse : (create_chunk_hdr st h w flag).segment_end = st.segment_end := by
    unfold create_chunk_hdr
    simp only
    rw [(add_node_seg _ _).2, (remove_node_seg _ _).2]
  refine ⟨hRf, hsb, hse, ?_, ?_, ?_⟩
  · intro x hx1 hx2
    have h1 := hx1 ⟨h, s, true⟩ (by simp)
    have h2 := hx2 ⟨h + 24 + w, s - w - 24, true⟩ (by simp)
    simp only at h1 h2
    apply hfr x (by omega) (by omega)
    intro n hn
    have := hR.cover hx1 n ((mem_mid_iff hR.nodup).mp hn).1
    omega
  · intro b hb hf hh
    simp only [List.mem_append, List.mem_cons] at hb ⊢
    rcases hb with hb | hb | hb
    · exact Or.inl hb
    · rw [hb] at hf; simp at hf
    · exact Or.inr (Or.inr (Or.inr hb))
  · intro b hb hf hh
    simp only [List.mem_append, List.mem_cons] at hb ⊢
    rcases hb with hb | hb | hb | hb
    · exact Or.inl hb
    · rw [hb] at hh; simp at hh
    · rw [hb] at hf; simp at hf
    · exact Or.inr (Or.inr hb)

/-- Summary of `myfree` on a used block: the block at `h` is free afterwards. -/
theorem myfree_moved {S : Prop} {st : State} {l1 l2 : List Blk} {fl : List Nat} {h s : Nat}
    (hR : Rep S st (l1 ++ ⟨h, s, false⟩ :: l2) fl) :
    ∃ bs2 fl2 s2, Moved S st (myfree st (h + 24)) (l1 ++ ⟨h, s, false⟩ :: l2) h bs2 fl2 ∧
      (⟨h, s2, true⟩ : Blk) ∈ bs2 := by
  have hlink := rep_link hR
  have hmeta_link : ∀ bs2, (⟨h, s, true⟩ : Blk) ∈ bs2 →
      OnlyMeta st.mem (add_node { st with mem := set_status st.mem h 0 } (h + 8)).mem
        (l1 ++ ⟨h, s, false⟩ :: l2) bs2 := by
    intro bs2 _ x hx1 hx2
    have h1 := hx1 ⟨h, s, false⟩ (by simp)
    simp only at h1
    apply hlink.2 x (by omega)
    intro n hn
    have := hR.cover hx1 n hn
    omega
  have hkeep : ∀ (b1 : Blk) (l2b : List Blk), ∀ b ∈ l1 ++ ⟨h, s, false⟩ :: l2, b.free = false →
      b.hdr ≠ h → (∀ c ∈ l2, c.free = false → c ∈ l2b) → b ∈ l1 ++ b1 :: l2b := by
    intro b1 l2b b hb hf hh hsub
    simp only [List.mem_append, List.mem_cons] at hb ⊢
    rcases hb with hb | hb | hb
    · exact Or.inl hb
    · rw [hb] at hh; simp at hh
    · exact Or.inr (Or.inr (hsub b hb hf))
  have hfresh : ∀ (b1 : Blk) (l2b : List Blk), b1.hdr = h → (∀ c ∈ l2b, c ∈ l2) →
      ∀ b ∈ l1 ++ b1 :: l2b, b.free = false → b.hdr ≠ h → b ∈ l1 ++ ⟨h, s, false⟩ :: l2 := by
    intro b1 l2b hb1 hsub b hb hf hh
    simp only [List.mem_append, List.mem_cons] at hb ⊢
    rcases hb with hb | hb | hb
    · exact Or.inl hb
    · rw [hb] at hh; exact absurd hb1 hh
    · exact Or.inr (Or.inr (hsub b hb))
  cases l2 with
  | nil =>
    obtain ⟨e, hR2⟩ := myfree_last hR
    refine ⟨_, _, s, ⟨hR2, ?_, ?_, ?_, ?_, ?_⟩, by simp⟩
    · rw [e, (add_node_seg _ _).1]
    · rw [e, (add_node_seg _ _).2]
    · rw [e]; exact hmeta_link _ (by simp)
    · exact fun b hb hf hh => hkeep ⟨h, s, true⟩ [] b hb hf hh (fun c hc _ => hc)
    · exact fun b hb hf hh => hfresh ⟨h, s, true⟩ [] rfl (fun c hc => hc) b hb hf hh
  | cons N l2b =>
    obtain ⟨nh, t, g⟩ := N
    by_cases hs : hstatus st.mem nh = 0
    · have hNm : (⟨nh, t, g⟩ : Blk) ∈ l1 ++ ⟨h, s, false⟩ :: ⟨nh, t, g⟩ :: l2b := by simp
      have hg : g = true := by
        by_contra hg
        exact (hR.ok _ hNm).2.1 (by simpa using hg) hs
      have hmem : nh + 8 ∈ fl := (hR.mem _).mpr ⟨_, hNm, hg, rfl⟩
      obtain ⟨f1, f2, hfl⟩ := List.append_of_mem hmem
      subst hfl
      obtain ⟨hR2, hb2, he2, hfr2⟩ := myfree_join hR hs
      refine ⟨_, _, s + t + 24, ⟨hR2, hb2, he2, ?_, ?_, ?_⟩, by simp⟩
      · intro x hx1 hx2
        have h1 := hx1 ⟨h, s, false⟩ (by simp)
        simp only at h1
        apply hfr2 x (by omega)
        intro n hn
        have := hR.cover hx1 n hn
        omega
      · refine fun b hb hf hh => hkeep ⟨h, s + t + 24, true⟩ l2b b hb hf hh ?_
        intro c hc hcf
        rcases List.mem_cons.mp hc with e | e
        · rw [e, hg] at hcf; simp at hcf
        · exact e
      · exact fun b hb hf hh => hfresh ⟨h, s + t + 24, true⟩ l2b rfl
          (fun c hc => List.mem_cons_of_mem _ hc) b hb hf hh
    · obtain ⟨e, hR2⟩ := myfree_skip hR hs
      refine ⟨_, _, s, ⟨hR2, ?_, ?_, ?_, ?_, ?_⟩, by simp⟩
      · rw [e, (add_node_seg _ _).1]
      · rw [e, (add_node_seg _ _).2]
      · rw [e]; exact hmeta_link _ (by simp)
      · exact fun b hb hf hh => hkeep ⟨h, s, true⟩ _ b hb hf hh (fun c hc _ => hc)
      · exact fun b hb hf hh => hfresh ⟨h, s, true⟩ _ rfl (fun c hc => hc) b hb hf hh

/-- Writing a non-zero status into the header of a used block changes nothing of the
representation. -/
theorem rep_set_used {S : Prop} {st : State} {bs : List Blk} {fl : List Nat} {h s v : Nat}
    (hR : Rep S st bs fl) (hB : (⟨h, s, false⟩ : Blk) ∈ bs) (hv : v ≠ 0) (hv2 : v < 4294967296) :
    Rep S { st with mem := set_status st.mem h v } bs fl := by
  refine ⟨hR.lt64, hR.lt32, hR.contig, ?_, ?_, hR.nodup, hR.mem⟩
  · intro c hc
    by_cases hh : c.hdr = h
    · have e : c = ⟨h, s, false⟩ := hR.uniq hc hB hh
      subst e
      refine ⟨?_, ?_, ?_⟩
      · have e1 : hsize (set_status st.mem h v) h = hsize st.mem h := by
          simp only [hsize, set_status]
          exact rd_wr_disj (by omega)
        simp only at e1 ⊢
        rw [e1]
        exact (hR.ok _ hB).1
      · intro _
        simp only [hstatus, set_status]
        rw [rd_wr_same4 hv2]
        exact hv
      · intro hf; simp at hf
    · apply (hR.ok c hc).hdr_frame
      intro x hx1 hx2
      simp only [set_status]
      apply wr_out
      rcases contig_disj hR.contig hc hB with e | e | e
      · rw [e] at hh; exact absurd rfl hh
      · simp only at e; omega
      · simp only at e; omega
  · apply dll_frame hR.list
    intro n hn x hx1 hx2
    have := hR.node_blk hn hB
    simp only [set_status]
    exact wr_out (by simp only at this; omega)

/-- Outcome of `merge_free` on any block of the tiling. -/
theorem merge_free_rep {S : Prop} {st : State} {l1 l2 : List Blk} {fl : List Nat} {h s : Nat}
    {f : Bool} (hR : Rep S st (l1 ++ ⟨h, s, f⟩ :: l2) fl) :
    ∃ s1 l2b fl1, Rep S (merge_free st h) (l1 ++ ⟨h, s1, f⟩ :: l2b) fl1 ∧ s ≤ s1 ∧
      (merge_free st h).segment_begin = st.segment_begin ∧
      (merge_free st h).segment_end = st.segment_end ∧
      (∀ c ∈ l2b, c ∈ l2) ∧ (∀ c ∈ l2, c.free = false → c ∈ l2b) ∧ (∀ n ∈ fl1, n ∈ fl) ∧
      (∀ x, (x < h ∨ h + 4 ≤ x) → (∀ n ∈ fl, x < n ∨ n + 16 ≤ x) →
        (merge_free st h).mem x = st.mem x) := by
  cases l2 with
  | nil =>
    rw [merge_free_last hR]
    exact ⟨s, [], fl, hR, le_refl _, rfl, rfl, fun c hc => hc, fun c hc _ => hc,
      fun n hn => hn, fun x _ _ => rfl⟩
  | cons N l2b =>
    obtain ⟨nh, t, g⟩ := N
    by_cases hs : hstatus st.mem nh = 0
    · have hNm : (⟨nh, t, g⟩ : Blk) ∈ l1 ++ ⟨h, s, f⟩ :: ⟨nh, t, g⟩ :: l2b := by simp
      have hg : g = true := by
        by_contra hg
        exact (hR.ok _ hNm).2.1 (by simpa using hg) hs
      have hmem : nh + 8 ∈ fl := (hR.mem _).mpr ⟨_, hNm, hg, rfl⟩
      obtain ⟨f1, f2, hfl⟩ := List.append_of_mem hmem
      subst hfl
      obtain ⟨hR2, hb2, he2, hfr2⟩ := merge_free_join hR hs
      refine ⟨s + t + 24, l2b, f1 ++ f2, hR2, by omega, hb2, he2,
        fun c hc => List.mem_cons_of_mem _ hc, ?_, fun n hn => ((mem_mid_iff hR.nodup).mp hn).1, ?_⟩
      · intro c hc hcf
        rcases List.mem_cons.mp hc with e | e
        · rw [e, hg] at hcf; simp at hcf
        · exact e
      · intro x hx1 hx2
        exact hfr2 x hx1 (fun n hn => hx2 n ((mem_mid_iff hR.nodup).mp hn).1)
    · rw [merge_free_skip hR hs]
      exact ⟨s, _, fl, hR, le_refl _, rfl, rfl, fun c hc => hc, fun c hc _ => hc,
        fun n hn => hn, fun x _ _ => rfl⟩

/-! ## `shrink_chunk` and `in_place_realloc` -/

theorem shrink_chunk_eq (st : State) (h wreq : Nat) :
    shrink_chunk st h wreq =
      if hsize st.mem h = shrinkWidth wreq then (true, { st with mem := set_status st.mem h 1 })
      else if sub64 (hsize st.mem h) (shrinkWidth wreq) < 48 then (false, st)
      else if hsize st.mem h > shrinkWidth wreq then
        (true, add_node
          { (merge_free st h) with
            mem := set_size (set_status (set_size (set_status (merge_free st h).mem h 1)
              (h + shrinkWidth wreq + 8 + 16)
              (sub64 (sub64 (sub64 (hsize (set_status (merge_free st h).mem h 1) h)
                (shrinkWidth wreq)) 8) 16))
              (h + shrinkWidth wreq + 8 + 16) 0) h (shrinkWidth wreq) }
          (h + shrinkWidth wreq + 8 + 16 + 8))
      else (false, st) := by
  rfl

theorem in_place_realloc_eq (st : State) (h r : Nat) :
    in_place_realloc st h r =
      if hstatus st.mem (h + hsize st.mem h + 8 + 16) = 0 then
        if (hsize st.mem (h + hsize st.mem h + 8 + 16) + hsize st.mem h) % 4294967296 < r then
          (false, st)
        else
          (true, add_node
            { (remove_node
                { (merge_free st h) with
                  mem := set_status (merge_free st h).mem (h + hsize st.mem h + 8 + 16) 1 }
                (h + hsize st.mem h + 8 + 16 + 8)) with
              mem := set_size (set_status (set_size
                (remove_node
                  { (merge_free st h) with
                    mem := set_status (merge_free st h).mem (h + hsize st.mem h + 8 + 16) 1 }
                  (h + hsize st.mem h + 8 + 16 + 8)).mem
                (h + r + 8 + 16)
                (sub64 (sub64 (sub64 (hsize (remove_node
                  { (merge_free st h) with
                    mem := set_status (merge_free st h).mem (h + hsize st.mem h + 8 + 16) 1 }
                  (h + hsize st.mem h + 8 + 16 + 8)).mem h) r) 8) 16))
                (h + r + 8 + 16) 0) h r }
            (h + r + 8 + 16 + 8))
      else (false, st) := by
  rfl

/-- The tail shared by `shrink_chunk` and `in_place_realloc`: write the header of the
remainder, set the size of the block and push the remainder on the free list. -/
theorem rep_split_writes {S : Prop} {st0 : State} {l1 l2 : List Blk} {fl : List Nat}
    {h s w : Nat} (hR : Rep S st0 (l1 ++ ⟨h, s, false⟩ :: l2) fl) (hw : w + 24 ≤ s) (M : Mem)
    (hM : ∀ x, (x < h + 4 ∨ h + 8 ≤ x) → M x = st0.mem x) (hMs : hstatus M h ≠ 0) :
    Rep S (add_node
        { st0 with
          mem := set_size (set_status (set_size M (h + w + 8 + 16)
            (sub64 (sub64 (sub64 (hsize M h) w) 8) 16)) (h + w + 8 + 16) 0) h w }
        (h + w + 8 + 16 + 8))
      (l1 ++ ⟨h, w, false⟩ :: ⟨h + 24 + w, s - w - 24, true⟩ :: l2) ((h + 24 + w + 8) :: fl) ∧
    (∀ x, (x < h ∨ h + 8 ≤ x) → (x < h + 24 + w ∨ h + 24 + w + 24 ≤ x) →
      (∀ n ∈ fl, x < n + 8 ∨ n + 16 ≤ x) →
      (add_node
        { st0 with
          mem := set_size (set_status (set_size M (h + w + 8 + 16)
            (sub64 (sub64 (sub64 (hsize M h) w) 8) 16)) (h + w + 8 + 16) 0) h w }
        (h + w + 8 + 16 + 8)).mem x = st0.mem x) := by
  have hB : (⟨h, s, false⟩ : Blk) ∈ l1 ++ ⟨h, s, false⟩ :: l2 := by simp
  have hBb := hR.blk hB
  simp only at hBb
  have hsz : hsize st0.mem h = s := (hR.ok _ hB).1
  have hs32 : s < 4294967296 := by rw [← hsz]; exact rd4_lt _ _
  have hszM : hsize M h = s := by
    rw [← hsz]
    exact rd_congr (fun x hx1 hx2 => hM x (by omega))
  have a1 : sub64 s w = s - w := sub64_eq (by omega) (by omega)
  have a2 : sub64 (s - w) 8 = s - w - 8 := sub64_eq (by omega) (by omega)
  have a3 : sub64 (s - w - 8) 16 = s - w - 24 := by
    rw [sub64_eq (by omega) (by omega)]; omega
  rw [hszM, a1, a2, a3, show h + w + 8 + 16 = h + 24 + w by omega]
  obtain ⟨m5, hm5⟩ : ∃ m5, m5 = set_size (set_status (set_size M (h + 24 + w) (s - w - 24))
      (h + 24 + w) 0) h w := ⟨_, rfl⟩
  rw [← hm5]
  refine (fun H => ⟨H.1, H.2.1⟩) (rep_split { st0 with mem := m5 } hR hw rfl rfl rfl ?_ ?_ ?_ ?_)
  · intro x hx1 hx2
    rw [hm5]
    simp only [set_size, set_status]
    rw [wr_out (by omega), wr_out (by omega), wr_out (by omega)]
    exact hM x (by omega)
  · rw [hm5]
    simp only [hsize, set_size]
    exact rd_wr_same4 (by omega)
  · have e : hstatus m5 h = hstatus M h := by
      rw [hm5]
      simp only [hstatus, set_size, set_status]
      rw [rd_wr_disj (by omega), rd_wr_disj (by omega), rd_wr_disj (by omega)]
    simp only
    rw [e]
    exact hMs
  · rw [hm5]
    simp only [hsize, set_size, set_status]
    rw [rd_wr_disj (by omega), rd_wr_disj (by omega)]
    exact rd_wr_same4 (by omega)

theorem shrinkWidth_ge (wreq : Nat) : 16 ≤ shrinkWidth wreq := by
  unfold shrinkWidth
  simp only [sizeof_prev_next]
  split_ifs <;> omega

/-- Summary of a successful `shrink_chunk` on a used block. -/
theorem shrink_chunk_moved {S : Prop} {st : State} {l1 l2 : List Blk} {fl : List Nat} {h s : Nat}
    (hR : Rep S st (l1 ++ ⟨h, s, false⟩ :: l2) fl) (wreq : Nat)
    (ht : (shrink_chunk st h wreq).1 = true) :
    ∃ bs2 fl2, Moved S st (shrink_chunk st h wreq).2 (l1 ++ ⟨h, s, false⟩ :: l2) h bs2 fl2 ∧
      (⟨h, shrinkWidth wreq, false⟩ : Blk) ∈ bs2 ∧ shrinkWidth wreq ≤ s ∧
      (s = shrinkWidth wreq ∨ h + 24 + shrinkWidth wreq < st.segment_end) := by
  have hB : (⟨h, s, false⟩ : Blk) ∈ l1 ++ ⟨h, s, false⟩ :: l2 := by simp
  have hsz : hsize st.mem h = s := (hR.ok _ hB).1
  have hs32 : s < 4294967296 := by rw [← hsz]; exact rd4_lt _ _
  rw [shrink_chunk_eq] at ht ⊢
  rw [hsz] at ht ⊢
  by_cases c1 : s = shrinkWidth wreq
  · rw [if_pos c1]
    refine ⟨_, fl, ⟨rep_set_used hR hB (by decide) (by decide), rfl, rfl, ?_,
      fun b hb _ _ => hb, fun b hb _ _ => hb⟩, ?_, by omega, Or.inl c1⟩
    · intro x hx1 _
      have h1 := hx1 ⟨h, s, false⟩ (by simp)
      simp only [set_status]
      exact wr_out (by simp only at h1; omega)
    · rw [← c1]; exact hB
  · rw [if_neg c1] at ht ⊢
    by_cases c2 : sub64 s (shrinkWidth wreq) < 48
    · rw [if_pos c2] at ht; simp at ht
    · rw [if_neg c2] at ht ⊢
      by_cases c3 : s > shrinkWidth wreq
      · rw [if_pos c3]
        have hsub : sub64 s (shrinkWidth wreq) = s - shrinkWidth wreq :=
          sub64_eq (by omega) (by omega)
        rw [hsub] at c2
        obtain ⟨s1, l2b, fl1, hR1, hle, hb1, he1, hsub1, hsub2, hsub3, hfr1⟩ := merge_free_rep hR
        have hB1 : (⟨h, s1, false⟩ : Blk) ∈ l1 ++ ⟨h, s1, false⟩ :: l2b := by simp
        have hBb1 := hR1.blk hB1
        simp only at hBb1
        obtain ⟨hR2, hfr2⟩ := rep_split_writes (w := shrinkWidth wreq) hR1 (by omega)
          (set_status (merge_free st h).mem h 1)
          (by intro x hx; simp only [set_status]; exact wr_out (by omega))
          (by simp only [hstatus, set_status]
              rw [rd_wr_same4 (by decide)]
              decide)
        refine ⟨_, _, ⟨hR2, ?_, ?_, ?_, ?_, ?_⟩, by simp, by omega, Or.inr ?_⟩
        · rw [(add_node_seg _ _).1]; exact hb1
        · rw [(add_node_seg _ _).2]; exact he1
        · intro x hx1 hx2
          have h1 := hx1 ⟨h, s, false⟩ (by simp)
          have h2 := hx2 ⟨h + 24 + shrinkWidth wreq, s1 - shrinkWidth wreq - 24, true⟩ (by simp)
          simp only at h1 h2
          have hc := hR.cover hx1
          rw [hfr2 x (by omega) (by omega)
            (fun n hn => by have := hc n (hsub3 n hn); omega)]
          exact hfr1 x (by omega) (fun n hn => by have := hc n hn; omega)
        · intro b hb hf hh
          simp only [List.mem_append, List.mem_cons] at hb ⊢
          rcases hb with hb | hb | hb
          · exact Or.inl hb
          · rw [hb] at hh; simp at hh
          · exact Or.inr (Or.inr (Or.inr (hsub2 b hb hf)))
        · intro b hb hf hh
          simp only [List.mem_append, List.mem_cons] at hb ⊢
          rcases hb with hb | hb | hb | hb
          · exact Or.inl hb
          · rw [hb] at hh; simp at hh
          · rw [hb] at hf; simp at hf
          · exact Or.inr (Or.inr (hsub1 b hb))
        · rw [← he1]; omega
      · rw [if_neg c3] at ht; simp at ht

/-- The middle of `in_place_realloc`: after `merge_free`, the status write into the absorbed
header and the second `remove_node`, the state is represented by the merged tiling. -/
theorem in_place_mid {S : Prop} {st : State} {l1 l2 : List Blk} {fl : List Nat}
    {h s nh t : Nat} {g : Bool}
    (hR : Rep S st (l1 ++ ⟨h, s, false⟩ :: ⟨nh, t, g⟩ :: l2) fl) (c1 : hstatus st.mem nh = 0) :
    ∃ f1 f2, fl = f1 ++ (nh + 8) :: f2 ∧ g = true ∧
      Rep S (remove_node
          { (merge_free st h) with mem := set_status (merge_free st h).mem nh 1 } (nh + 8))
        (l1 ++ ⟨h, s + t + 24, false⟩ :: l2) (f1 ++ f2) ∧
      (remove_node
          { (merge_free st h) with mem := set_status (merge_free st h).mem nh 1 }
          (nh + 8)).segment_begin = st.segment_begin ∧
      (remove_node
          { (merge_free st h) with mem := set_status (merge_free st h).mem nh 1 }
          (nh + 8)).segment_end = st.segment_end ∧
      (∀ x, (x < h ∨ h + 4 ≤ x) → (x < nh + 4 ∨ nh + 8 ≤ x) →
        (∀ n ∈ f1 ++ f2, x < n ∨ n + 16 ≤ x) →
        (remove_node
          { (merge_free st h) with mem := set_status (merge_free st h).mem nh 1 }
          (nh + 8)).mem x = st.mem x) := by
  have hNm : (⟨nh, t, g⟩ : Blk) ∈ l1 ++ ⟨h, s, false⟩ :: ⟨nh, t, g⟩ :: l2 := by simp
  have hnh : nh = h + 24 + s := (contig_split hR.contig).2.1
  have hg : g = true := by
    by_contra hg
    exact (hR.ok _ hNm).2.1 (by simpa using hg) c1
  have hmem : nh + 8 ∈ fl := (hR.mem _).mpr ⟨_, hNm, hg, rfl⟩
  obtain ⟨f1, f2, hfl⟩ := List.append_of_mem hmem
  subst hfl
  obtain ⟨hR1, hb1, he1, hfr1⟩ := merge_free_join hR c1
  -- the node of the absorbed block keeps its own fields
  obtain ⟨mid, hd1, hd2⟩ := dll_append.mp hR.list
  obtain ⟨-, -, hp0, hn0⟩ := hd2
  have hn0b := dll_head0 hn0
  have hstale : ∀ x, nh + 8 ≤ x → x < nh + 24 → (merge_free st h).mem x = st.mem x := by
    intro x hx1 hx2
    apply hfr1 x (by omega)
    intro n hn
    have hn2 := (mem_mid_iff hR.nodup).mp hn
    have := hR.sep24 hn2.1 hmem
    have := hn2.2
    omega
  have hp1 : nprev (merge_free st h).mem (nh + 8) = lastOr f1 0 := by
    rw [← hp0]
    exact rd_congr (fun x hx1 hx2 => hstale x (by omega) (by omega))
  have hn1 : nnext (merge_free st h).mem (nh + 8) = headOr f2 := by
    rw [← hn0b]
    exact rd_congr (fun x hx1 hx2 => hstale x (by omega) (by omega))
  have hBm : (⟨h, s + t + 24, false⟩ : Blk) ∈ l1 ++ ⟨h, s + t + 24, false⟩ :: l2 := by simp
  obtain ⟨hR2, hfr2⟩ := rep_remove_stale nh 1 hR1
    ⟨_, hBm, by simp only; omega, by simp only; omega⟩ hp1 hn1
  refine ⟨f1, f2, rfl, hg, hR2, ?_, ?_, ?_⟩
  · rw [(remove_node_seg _ _).1]; exact hb1
  · rw [(remove_node_seg _ _).2]; exact he1
  · intro x hx1 hx2 hx3
    rw [hfr2 x hx2 hx3]
    exact hfr1 x hx1 hx3

/-- Summary of a successful `in_place_realloc` on a used block that is not the last block. -/
theorem in_place_realloc_moved {S : Prop} {st : State} {l1 l2 : List Blk} {fl : List Nat}
    {h s : Nat} (hR : Rep S st (l1 ++ ⟨h, s, false⟩ :: l2) fl)
    (hU : h + 24 + s < st.segment_end) (r : Nat) (ht : (in_place_realloc st h r).1 = true) :
    ∃ bs2 fl2, Moved S st (in_place_realloc st h r).2 (l1 ++ ⟨h, s, false⟩ :: l2) h bs2 fl2 ∧
      (⟨h, r, false⟩ : Blk) ∈ bs2 ∧ h + 24 + r < st.segment_end ∧
      ∃ t, (⟨h + 24 + s, t, true⟩ : Blk) ∈ l2 ∧ r ≤ s + t := by
  have hB : (⟨h, s, false⟩ : Blk) ∈ l1 ++ ⟨h, s, false⟩ :: l2 := by simp
  have hsz : hsize st.mem h = s := (hR.ok _ hB).1
  cases l2 with
  | nil =>
    have hc : h + 24 + s = st.segment_end := (contig_split hR.contig).2
    omega
  | cons N l2b =>
    obtain ⟨nh, t, g⟩ := N
    have hNm : (⟨nh, t, g⟩ : Blk) ∈ l1 ++ ⟨h, s, false⟩ :: ⟨nh, t, g⟩ :: l2b := by simp
    have hnh : nh = h + 24 + s := (contig_split hR.contig).2.1
    have hsn : hsize st.mem nh = t := (hR.ok _ hNm).1
    have hNb := hR.blk hNm
    simp only at hNb
    have hBb := hR.blk hB
    simp only at hBb
    have hmod : (t + s) % 4294967296 = t + s := Nat.mod_eq_of_lt (by have := hR.lt32; omega)
    rw [in_place_realloc_eq] at ht ⊢
    rw [hsz, show h + s + 8 + 16 = nh by omega, hsn, hmod] at ht ⊢
    by_cases c1 : hstatus st.mem nh = 0
    · rw [if_pos c1] at ht ⊢
      by_cases c2 : t + s < r
      · rw [if_pos c2] at ht; simp at ht
      · rw [if_neg c2]
        obtain ⟨f1, f2, hfl, hg, hR2, hb2, he2, hfr2⟩ := in_place_mid hR c1
        subst hfl
        have hBm : (⟨h, s + t + 24, false⟩ : Blk) ∈ l1 ++ ⟨h, s + t + 24, false⟩ :: l2b := by
          simp
        obtain ⟨hR3, hfr3⟩ := rep_split_writes (w := r) hR2 (by omega) _ (fun x _ => rfl)
          ((hR2.ok _ hBm).2.1 rfl)
        refine ⟨_, _, ⟨hR3, ?_, ?_, ?_, ?_, ?_⟩, by simp, ?_, t, ?_, by omega⟩
        · rw [(add_node_seg _ _).1]; exact hb2
        · rw [(add_node_seg _ _).2]; exact he2
        · intro x hx1 hx2
          have h1 := hx1 ⟨h, s, false⟩ (by simp)
          have h3 := hx1 ⟨nh, t, g⟩ (by simp)
          have h2 := hx2 ⟨h + 24 + r, s + t + 24 - r - 24, true⟩ (by simp)
          simp only at h1 h2 h3
          have hc := hR.cover hx1
          have hc2 : ∀ n ∈ f1 ++ f2, x + 8 < n ∨ n + 16 ≤ x :=
            fun n hn => hc n ((mem_mid_iff hR.nodup).mp hn).1
          rw [hfr3 x (by omega) (by omega) (fun n hn => by have := hc2 n hn; omega)]
          exact hfr2 x (by omega) (by omega) (fun n hn => by have := hc2 n hn; omega)
        · intro b hb hf hh
          simp only [List.mem_append, List.mem_cons] at hb ⊢
          rcases hb with hb | hb | hb | hb
          · exact Or.inl hb
          · rw [hb] at hh; simp at hh
          · rw [hb, hg] at hf; simp at hf
          · exact Or.inr (Or.inr (Or.inr hb))
        · intro b hb hf hh
          simp only [List.mem_append, List.mem_cons] at hb ⊢
          rcases hb with hb | hb | hb | hb
          · exact Or.inl hb
          · rw [hb] at hh; simp at hh
          · rw [hb] at hf; simp at hf
          · exact Or.inr (Or.inr (Or.inr hb))
        · omega
        · rw [← hnh, ← hg]; simp
    · rw [if_neg c1] at ht; simp at ht

/-! ## `mymalloc` and `myrealloc` on a represented state -/

/-- The payload bytes that a block has both before and after an operation are unchanged. -/
theorem OnlyMeta.payload {m m2 : Mem} {bs bs2 : List Blk} (hM : OnlyMeta m m2 bs bs2)
    {a e a2 e2 : Nat} (hc : Contig a e bs) (hc2 : Contig a2 e2 bs2) {b b2 : Blk} (hb : b ∈ bs)
    (hb2 : b2 ∈ bs2) (hh : b2.hdr = b.hdr) {i : Nat} (hi : i < b.size) (hi2 : i < b2.size) :
    m2 (b.hdr + 24 + i) = m (b.hdr + 24 + i) := by
  apply hM
  · intro c hcm
    by_contra hcon
    exact payload_not_hdr hc hb (x := b.hdr + 24 + i) (by omega) (by omega)
      ⟨c, hcm, by omega, by omega⟩
  · intro c hcm
    by_contra hcon
    exact payload_not_hdr hc2 hb2 (x := b.hdr + 24 + i) (by omega) (by omega)
      ⟨c, hcm, by omega, by omega⟩

/-- Outcome of `mymalloc` on a represented state: failure without change, or the split of a
free block of the tiling. -/
theorem mymalloc_rep {S : Prop} {st : State} {bs : List Blk} {fl : List Nat} (hR : Rep S st bs fl)
    (n fuel : Nat) (hfuel : fl.length < fuel) :
    mymalloc fuel st n = some (0, st) ∨
    ∃ h s bs2 fl2, mymalloc fuel st n = some (h + 24, create_chunk_hdr st h (fmt n) false) ∧
      (⟨h, s, true⟩ : Blk) ∈ bs ∧ fmt n + 24 < s ∧ 0 < n ∧ n ≤ 1073741824 ∧
      Moved S st (create_chunk_hdr st h (fmt n) false) bs h bs2 fl2 ∧
      (⟨h, fmt n, false⟩ : Blk) ∈ bs2 ∧ h + 24 + fmt n + 24 ≤ st.segment_end := by
  by_cases h1 : 0 < n ∧ n ≤ 1073741824
  · rcases first_split (fun x => hsize st.mem (x - 8) > fmt n + 24) fl with hno | ⟨f1, nd, f2, e, hno, hyes⟩
    · left
      by_cases hf : st.f_start = 0
      · unfold mymalloc
        simp only [NULL]
        rw [if_neg (by simp; omega), if_pos hf]
      · rw [mymalloc_unfold h1.1 h1.2 hf (c := 0)]
        · simp
        · exact malloc_scan_none hR.list hno fuel hfuel
    · right
      subst e
      obtain ⟨b, hb1, hb2, hb3, hb4⟩ := hR.flsize (n := nd) (by simp)
      obtain ⟨h, s, f⟩ := b
      simp only at hb2 hb3 hb4
      subst hb2 hb3
      rw [hb4] at hyes
      obtain ⟨l1, l2, e⟩ := List.append_of_mem hb1
      subst e
      have hfp := fmt_props h1.2
      have hM := create_chunk_hdr_moved false hR hfp.1 (by omega)
      have hBb := hR.blk hb1
      simp only at hBb
      refine ⟨h, s, _, _, ?_, hb1, by omega, h1.1, h1.2, hM, by simp, by omega⟩
      exact mymalloc_succ hR h1.1 h1.2 hno (by omega) (by simp at hfuel; omega)
  · left
    unfold mymalloc
    simp only [NULL]
    rw [if_pos (by simp; omega)]

/-- Outcome of the `mymalloc`/`memcpy`/`myfree` fallback of `myrealloc` for a used block. -/
theorem realloc_fallback_rep {S : Prop} {st : State} {bs : List Blk} {fl : List Nat} {h s : Nat}
    (hR : Rep S st bs fl) (hB : (⟨h, s, false⟩ : Blk) ∈ bs) (r k fuel : Nat)
    (hfuel : fl.length < fuel) (hk : k ≤ r) (hk2 : k ≤ s) :
    ∃ q st2, realloc_fallback fuel st (h + 24) r k = some (q, st2) ∧
      ((q = 0 ∧ st2 = st) ∨
       ∃ bs2 fl2 hq w, q = hq + 24 ∧ Rep S st2 bs2 fl2 ∧
        st2.segment_begin = st.segment_begin ∧ st2.segment_end = st.segment_end ∧
        (⟨hq, w, false⟩ : Blk) ∈ bs2 ∧ hq ≠ h ∧ 24 ≤ w ∧ w % 8 = 0 ∧ r ≤ w ∧
        hq + 24 + w < st.segment_end ∧
        (∀ b ∈ bs, b.free = false → b.hdr ≠ h → b ∈ bs2) ∧
        (∀ b ∈ bs2, b.free = false → b.hdr = hq ∨ (b ∈ bs ∧ b.hdr ≠ h)) ∧
        (∀ i, i < k → st2.mem (q + i) = st.mem (h + 24 + i))) := by
  rcases mymalloc_rep hR r fuel hfuel with e | ⟨hq, sq, bs1, fl1, e, hq1, hq2, hr1, hr2, hM, hq3, hq4⟩
  · refine ⟨0, st, ?_, Or.inl ⟨rfl, rfl⟩⟩
    unfold realloc_fallback
    rw [e]
    simp [NULL]
  · have hne : hq ≠ h := by
      intro he
      have := hR.uniq hq1 hB he
      simp at this
    have hB1 : (⟨h, s, false⟩ : Blk) ∈ bs1 := hM.keep _ hB rfl (fun e => hne e.symm)
    have hfp := fmt_props hr2
    refine ⟨hq + 24, myfree { (create_chunk_hdr st hq (fmt r) false) with
      mem := memcpy (create_chunk_hdr st hq (fmt r) false).mem (hq + 24) (h + 24) k } (h + 24),
      ?_, Or.inr ?_⟩
    · unfold realloc_fallback
      rw [e]
      simp only [NULL]
      rw [if_neg (by omega)]
    · have hRm : Rep S { (create_chunk_hdr st hq (fmt r) false) with
          mem := memcpy (create_chunk_hdr st hq (fmt r) false).mem (hq + 24) (h + 24) k }
          bs1 fl1 := by
        refine hM.rep.frame _ rfl rfl rfl ?_
        intro x hx
        apply memcpy_out
        by_contra hcon
        exact payload_not_hdr hM.rep.contig hq3 (x := x) (by simp only; omega)
          (by simp only; omega) hx
      obtain ⟨l1, l2, el⟩ := List.append_of_mem hB1
      subst el
      obtain ⟨bs2, fl2, s2, hM2, hfree⟩ := myfree_moved hRm
      have hq5 : (⟨hq, fmt r, false⟩ : Blk) ∈ bs2 := hM2.keep _ hq3 rfl hne
      refine ⟨bs2, fl2, hq, fmt r, rfl, hM2.rep, ?_, ?_, hq5, hne, hfp.1, hfp.2.1, hfp.2.2.1,
        by omega, ?_, ?_, ?_⟩
      · rw [hM2.segb]; exact hM.segb
      · rw [hM2.sege]; exact hM.sege
      · intro b hb hf hh
        apply hM2.keep b _ hf hh
        apply hM.keep b hb hf
        intro e2
        have := hR.uniq hb hq1 e2
        rw [this] at hf
        simp at hf
      · intro b hb hf
        by_cases hh : b.hdr = h
        · have := hM2.rep.uniq hb hfree hh
          rw [this] at hf
          simp at hf
        · have hb1 := hM2.fresh b hb hf hh
          by_cases hh2 : b.hdr = hq
          · exact Or.inl hh2
          · exact Or.inr ⟨hM.fresh b hb1 hf hh2, hh⟩
      · intro i hi
        have e1 := hM2.meta.payload hRm.contig hM2.rep.contig hq3 hq5 rfl (i := i)
          (by simp only; omega) (by simp only; omega)
        simp only at e1
        rw [e1, memcpy_in hi]
        have e2 := hM.meta.payload hR.contig hM.rep.contig hB hB1 rfl (i := i)
          (by simp only; omega) (by simp only; omega)
        exact e2

theorem roundup_idem {r : Nat} (h8 : r % 8 = 0) (hr : r + 7 < 18446744073709551616) :
    roundup r ALIGNMENT = r := by
  rw [roundup_eq r hr]
  omega

theorem myrealloc_unfold {S : Prop} {st : State} {bs : List Blk} {fl : List Nat} {h s : Nat}
    (hR : Rep S st bs fl) (hB : (⟨h, s, false⟩ : Blk) ∈ bs) (n fuel : Nat) (h1 : 0 < n)
    (h2 : n ≤ 1073741824) :
    myrealloc fuel st (h + 24) n =
      if s = roundup n ALIGNMENT then some (h + 24, st)
      else if s > roundup n ALIGNMENT then
        if (shrink_chunk st h (roundup n ALIGNMENT)).1 then
          some (h + 24, (shrink_chunk st h (roundup n ALIGNMENT)).2)
        else
          realloc_fallback fuel (shrink_chunk st h (roundup n ALIGNMENT)).2 (h + 24)
            (roundup n ALIGNMENT) (roundup n ALIGNMENT)
      else if (in_place_realloc st h (roundup n ALIGNMENT)).1 then
        some (h + 24, (in_place_realloc st h (roundup n ALIGNMENT)).2)
      else
        realloc_fallback fuel (in_place_realloc st h (roundup n ALIGNMENT)).2 (h + 24)
          (roundup n ALIGNMENT) s := by
  have hBb := hR.blk hB
  simp only at hBb
  have hsz : hsize st.mem h = s := (hR.ok _ hB).1
  unfold myrealloc
  simp only [NULL, payload_to_hdr, sizeof_header, sizeof_prev_next, MAX_HEAP_SIZE]
  rw [if_neg (by omega), show h + 24 - 8 - 16 = h by omega, hsz,
    if_neg (by simp; omega), if_neg (by omega)]

/-- Outcome of `myrealloc` on a used block of a represented state in which no used block is
the last one: failure without change, resize in place, or a move to a fresh block. -/
theorem myrealloc_rep {S : Prop} {st : State} {bs : List Blk} {fl : List Nat} {h s : Nat}
    (hR : Rep S st bs fl) (hU : UsedNotLast st.segment_end bs)
    (hB : (⟨h, s, false⟩ : Blk) ∈ bs) (n fuel : Nat) (hfuel : fl.length < fuel) :
    ∃ q st2, myrealloc fuel st (h + 24) n = some (q, st2) ∧
      ((q = 0 ∧ st2 = st) ∨
       (q = h + 24 ∧ ∃ bs2 fl2 w, Moved S st st2 bs h bs2 fl2 ∧ (⟨h, w, false⟩ : Blk) ∈ bs2 ∧
          n ≤ w ∧ w % 8 = 0 ∧ (16 ≤ s → 16 ≤ w) ∧ h + 24 + w < st.segment_end) ∨
       ∃ bs2 fl2 hq w, q = hq + 24 ∧ Rep S st2 bs2 fl2 ∧
        st2.segment_begin = st.segment_begin ∧ st2.segment_end = st.segment_end ∧
        (⟨hq, w, false⟩ : Blk) ∈ bs2 ∧ hq ≠ h ∧ 24 ≤ w ∧ w % 8 = 0 ∧ n ≤ w ∧
        hq + 24 + w < st.segment_end ∧
        (∀ b ∈ bs, b.free = false → b.hdr ≠ h → b ∈ bs2) ∧
        (∀ b ∈ bs2, b.free = false → b.hdr = hq ∨ (b ∈ bs ∧ b.hdr ≠ h)) ∧
        (∀ i, i < s → i < n → st2.mem (q + i) = st.mem (h + 24 + i))) := by
  have hBb := hR.blk hB
  simp only at hBb
  have hUB := hU _ hB rfl
  simp only at hUB
  by_cases h1 : 0 < n ∧ n ≤ 1073741824
  · have hre := roundup_eq n (by omega)
    have hr8 : roundup n ALIGNMENT % 8 = 0 := by rw [hre]; omega
    have hrn : n ≤ roundup n ALIGNMENT := by rw [hre]; omega
    have hrlt : roundup n ALIGNMENT ≤ 1073741824 := by rw [hre]; omega
    rw [myrealloc_unfold hR hB n fuel h1.1 h1.2]
    obtain ⟨l1, l2, el⟩ := List.append_of_mem hB
    subst el
    by_cases c1 : s = roundup n ALIGNMENT
    · rw [if_pos c1]
      exact ⟨h + 24, st, rfl, Or.inr (Or.inl ⟨rfl, _, fl, s, Moved.refl hR h, hB, by omega,
        by omega, fun x => x, hUB⟩)⟩
    · rw [if_neg c1]
      by_cases c2 : s > roundup n ALIGNMENT
      · rw [if_pos c2]
        by_cases c3 : (shrink_chunk st h (roundup n ALIGNMENT)).1 = true
        · rw [if_pos c3]
          obtain ⟨bs2, fl2, hM, hw1, hw2, hw3⟩ := shrink_chunk_moved hR (roundup n ALIGNMENT) c3
          have hsw : shrinkWidth (roundup n ALIGNMENT) =
              if roundup n ALIGNMENT < 16 then 16 else roundup n ALIGNMENT := by
            unfold shrinkWidth
            rw [roundup_idem hr8 (by omega)]
            rfl
          have hsw1 := shrinkWidth_ge (roundup n ALIGNMENT)
          refine ⟨h + 24, _, rfl, Or.inr (Or.inl ⟨rfl, bs2, fl2, _, hM, hw1, ?_, ?_,
            fun _ => hsw1, ?_⟩)⟩
          · rw [hsw]; split_ifs <;> omega
          · rw [hsw]; split_ifs <;> omega
          · rcases hw3 with e | e
            · rw [← e]; exact hUB
            · exact e
        · rw [if_neg c3, shrink_chunk_false (Bool.eq_false_iff.mpr c3)]
          obtain ⟨q, st2, e, hq⟩ := realloc_fallback_rep hR hB (roundup n ALIGNMENT)
            (roundup n ALIGNMENT) fuel hfuel (le_refl _) (by omega)
          refine ⟨q, st2, e, ?_⟩
          rcases hq with hq | ⟨bs2, fl2, hq, w, a1, a2, a3, a4, a5, a6, a7, a8, a9, a10, a11, a12, a13⟩
          · exact Or.inl hq
          · exact Or.inr (Or.inr ⟨bs2, fl2, hq, w, a1, a2, a3, a4, a5, a6, a7, a8, by omega,
              a10, a11, a12, fun i _ hi => a13 i (by omega)⟩)
      · rw [if_neg c2]
        by_cases c3 : (in_place_realloc st h (roundup n ALIGNMENT)).1 = true
        · rw [if_pos c3]
          obtain ⟨bs2, fl2, hM, hw1, hw2, -⟩ :=
            in_place_realloc_moved hR hUB (roundup n ALIGNMENT) c3
          exact ⟨h + 24, _, rfl, Or.inr (Or.inl ⟨rfl, bs2, fl2, _, hM, hw1, hrn, hr8,
            fun _ => by omega, hw2⟩)⟩
        · rw [if_neg c3, in_place_realloc_false (Bool.eq_false_iff.mpr c3)]
          obtain ⟨q, st2, e, hq⟩ := realloc_fallback_rep hR hB (roundup n ALIGNMENT)
            s fuel hfuel (by omega) (le_refl _)
          refine ⟨q, st2, e, ?_⟩
          rcases hq with hq | ⟨bs2, fl2, hq, w, a1, a2, a3, a4, a5, a6, a7, a8, a9, a10, a11, a12, a13⟩
          · exact Or.inl hq
          · exact Or.inr (Or.inr ⟨bs2, fl2, hq, w, a1, a2, a3, a4, a5, a6, a7, a8, by omega,
              a10, a11, a12, fun i hi _ => a13 i hi⟩)
  · refine ⟨0, st, ?_, Or.inl ⟨rfl, rfl⟩⟩
    unfold myrealloc
    simp only [NULL, MAX_HEAP_SIZE]
    rw [if_neg (by omega)]
    by_cases c : n > 1073741824
    · rw [if_pos (by simpa using c)]
    · rw [if_neg (by simpa using c), if_pos (by omega)]

/-! ## Fuel -/

theorem malloc_scan_mono {m : Mem} {r c x : Nat} {k : Nat} (h : malloc_scan m r k c = some x)
    (k2 : Nat) (hk : k ≤ k2) : malloc_scan m r k2 c = some x := by
  induction k generalizing c k2 with
  | zero => simp [malloc_scan] at h
  | succ k ih =>
    cases k2 with
    | zero => omega
    | succ j =>
      simp only [malloc_scan] at h ⊢
      split_ifs at h ⊢ with c1 c2
      · exact h
      · exact h
      · exact ih h j (by omega)

theorem mymalloc_mono {st : State} {n k : Nat} {res : Nat × State}
    (h : mymalloc k st n = some res) (k2 : Nat) (hk : k ≤ k2) : mymalloc k2 st n = some res := by
  unfold mymalloc at h ⊢
  simp only [NULL] at h ⊢
  generalize (if roundup n ALIGNMENT < sizeof_header + sizeof_prev_next then
    sizeof_header + sizeof_prev_next else roundup n ALIGNMENT) = r at h ⊢
  split_ifs at h ⊢ with c1 c2
  · exact h
  · exact h
  · cases hs : malloc_scan st.mem r k st.f_start with
    | none => rw [hs] at h; simp at h
    | some c =>
      rw [hs] at h
      rw [malloc_scan_mono hs k2 hk]
      exact h

theorem realloc_fallback_mono {st : State} {p r c k : Nat} {res : Nat × State}
    (h : realloc_fallback k st p r c = some res) (k2 : Nat) (hk : k ≤ k2) :
    realloc_fallback k2 st p r c = some res := by
  unfold realloc_fallback at h ⊢
  cases hs : mymalloc k st r with
  | none => rw [hs] at h; simp at h
  | some x =>
    rw [hs] at h
    rw [mymalloc_mono hs k2 hk]
    exact h

theorem myrealloc_mono {st : State} {p n k : Nat} {res : Nat × State}
    (h : myrealloc k st p n = some res) (k2 : Nat) (hk : k ≤ k2) :
    myrealloc k2 st p n = some res := by
  unfold myrealloc at h ⊢
  simp only at h ⊢
  split_ifs at h ⊢
  · exact mymalloc_mono h k2 hk
  · exact h
  · exact h
  · exact h
  · exact h
  · exact realloc_fallback_mono h k2 hk
  · exact h
  · exact realloc_fallback_mono h k2 hk

/-! ## The invariant of the reachable states -/

/-- The state after a successful `myinit` is represented by one free block. -/
theorem myinit_rep {S : Prop} (st0 : State) (start length : Nat) (h0 : start ≠ 0)
    (h1 : 24 ≤ length) (h2 : length < 4294967296 + 24)
    (h3 : start + length < 18446744073709551616) (hS : S → hstatus st0.mem start = 0) :
    Rep S (myinit st0 start length).2 [⟨start, length - 24, true⟩] [start + 8] := by
  have e : (myinit st0 start length).2 =
      { mem := set_prev (set_next (set_size st0.mem start (length - 24)) (start + 8) 0)
          (start + 8) 0,
        segment_begin := start, segment_end := start + length, f_start := start + 8 } := by
    have a1 : sub64 length 8 = length - 8 := sub64_eq (by omega) (by omega)
    have a2 : sub64 (length - 8) 16 = length - 24 := by
      rw [sub64_eq (by omega) (by omega)]; omega
    unfold myinit
    simp only [NULL, sizeof_header, sizeof_prev_next, hdr_to_prev_next]
    rw [Nat.mod_eq_of_lt h3, if_neg (by omega), if_neg (by omega), a1, a2]
  rw [e]
  refine ⟨h3, by simp only; omega,
    ⟨rfl, by show start + 24 + (length - 24) = start + length; omega⟩, ?_, ?_, by simp, ?_⟩
  · intro b hb
    simp only [List.mem_singleton] at hb
    subst hb
    refine ⟨?_, by simp, ?_⟩
    · simp only [hsize, set_prev, set_next, set_size]
      rw [rd_wr_disj (by omega), rd_wr_disj (by omega)]
      exact rd_wr_same4 (by omega)
    · intro _ hs
      simp only [hstatus, set_prev, set_next, set_size]
      rw [rd_wr_disj (by omega), rd_wr_disj (by omega), rd_wr_disj (by omega)]
      exact hS hs
  · refine ⟨rfl, by omega, ?_, ?_⟩
    · simp only [nprev, set_prev]
      exact rd_wr_same8 (by norm_num)
    · simp only [dll, nnext, set_prev, set_next]
      rw [rd_wr_disj (by omega)]
      exact rd_wr_same8 (by norm_num)
  · intro x
    simp

theorem inv_init {S : Prop} (st0 : State) (start length : Nat) (h0 : start ≠ 0)
    (h1 : 24 ≤ length) (h2 : length < 4294967296 + 24)
    (h3 : start + length < 18446744073709551616) (hS : S → hstatus st0.mem start = 0) :
    Inv S (myinit st0 start length).2 [] :=
  ⟨_, _, myinit_rep st0 start length h0 h1 h2 h3 hS, by intro b hb hf; simp at hb; rw [hb] at hf; simp at hf,
    by intro b hb hf; simp at hb; rw [hb] at hf; simp at hf, by intro p hp; simp at hp⟩

theorem inv_alloc {S : Prop} {st st2 : State} {A : List Nat} {n fuel p : Nat} (hI : Inv S st A)
    (h : mymalloc fuel st n = some (p, st2)) : Inv S st2 (if p = NULL then A else p :: A) := by
  obtain ⟨bs, fl, hR, hU, hA, hP⟩ := hI
  have h2 := mymalloc_mono h (fuel + fl.length + 1) (by omega)
  rcases mymalloc_rep hR n (fuel + fl.length + 1) (by omega) with e | ⟨hq, sq, bs2, fl2, e, b1, b2, b3, b4, hM, b5, b6⟩
  · rw [e] at h2
    simp only [Option.some.injEq, Prod.mk.injEq] at h2
    rw [← h2.1, ← h2.2]
    simp only [NULL, if_true]
    exact ⟨bs, fl, hR, hU, hA, hP⟩
  · rw [e] at h2
    simp only [Option.some.injEq, Prod.mk.injEq] at h2
    rw [← h2.1, ← h2.2]
    simp only [NULL]
    rw [if_neg (by omega)]
    have hfp := fmt_props b4
    have hown : ∀ b ∈ bs2, b.free = false → b.hdr = hq → b = ⟨hq, fmt n, false⟩ :=
      fun b hb _ hh => hM.rep.uniq hb b5 hh
    refine ⟨bs2, fl2, hM.rep, hM.notLast hU ?_, hM.aligned hA ?_, ?_⟩
    · intro b hb hf hh
      rw [hown b hb hf hh]
      simp only
      omega
    · intro b hb hf hh
      rw [hown b hb hf hh]
      simp only
      omega
    · intro x hx
      rcases List.mem_cons.mp hx with e1 | e1
      · exact ⟨_, b5, rfl, e1⟩
      · obtain ⟨b, hb1, hb2, hb3⟩ := hP x e1
        refine ⟨b, hM.keep b hb1 hb2 ?_, hb2, hb3⟩
        intro hh
        have := hR.uniq hb1 b1 hh
        rw [this] at hb2
        simp at hb2

theorem inv_release {S : Prop} {st : State} {A : List Nat} {p : Nat} (hI : Inv S st A)
    (hp : p ∈ A) : Inv S (myfree st p) (A.filter (fun x => decide (x ≠ p))) := by
  obtain ⟨bs, fl, hR, hU, hA, hP⟩ := hI
  obtain ⟨b, hb1, hb2, hb3⟩ := hP p hp
  obtain ⟨h, s, f⟩ := b
  simp only at hb2 hb3
  subst hb2 hb3
  obtain ⟨l1, l2, el⟩ := List.append_of_mem hb1
  subst el
  obtain ⟨bs2, fl2, s2, hM, hfree⟩ := myfree_moved hR
  have hown : ∀ b ∈ bs2, b.free = false → b.hdr = h → False := by
    intro b hb hf hh
    have := hM.rep.uniq hb hfree hh
    rw [this] at hf
    simp at hf
  refine ⟨bs2, fl2, hM.rep, hM.notLast hU (fun b hb hf hh => (hown b hb hf hh).elim),
    hM.aligned hA (fun b hb hf hh => (hown b hb hf hh).elim), ?_⟩
  intro x hx
  simp only [List.mem_filter, decide_eq_true_eq] at hx
  obtain ⟨b, hb1', hb2', hb3'⟩ := hP x hx.1
  exact ⟨b, hM.keep b hb1' hb2' (by intro hh; apply hx.2; omega), hb2', hb3'⟩

theorem inv_resize {S : Prop} {st st2 : State} {A : List Nat} {p n fuel q : Nat}
    (hI : Inv S st A) (hp : p ∈ A) (h : myrealloc fuel st p n = some (q, st2)) :
    Inv S st2 (if q = NULL then A else q :: A.filter (fun x => decide (x ≠ p))) := by
  obtain ⟨bs, fl, hR, hU, hA, hP⟩ := hI
  obtain ⟨b, hb1, hb2, hb3⟩ := hP p hp
  obtain ⟨h0, s, f⟩ := b
  simp only at hb2 hb3
  subst hb2 hb3
  have h2 := myrealloc_mono h (fuel + fl.length + 1) (by omega)
  obtain ⟨q2, st3, e, hcase⟩ := myrealloc_rep hR hU hb1 n (fuel + fl.length + 1) (by omega)
  rw [e] at h2
  simp only [Option.some.injEq, Prod.mk.injEq] at h2
  rw [← h2.1, ← h2.2]
  simp only [NULL]
  have hAs := hA _ hb1 rfl
  simp only at hAs
  rcases hcase with ⟨e1, e2⟩ | ⟨e1, bs2, fl2, w, hM, hw1, hw2, hw3, hw4, hw5⟩ |
    ⟨bs2, fl2, hq, w, a1, a2, a3, a4, a5, a6, a7, a8, a9, a10, a11, a12, a13⟩
  · rw [if_pos e1, e2]
    exact ⟨bs, fl, hR, hU, hA, hP⟩
  · rw [if_neg (by omega), e1]
    have hown : ∀ b ∈ bs2, b.free = false → b.hdr = h0 → b = ⟨h0, w, false⟩ :=
      fun b hb _ hh => hM.rep.uniq hb hw1 hh
    refine ⟨bs2, fl2, hM.rep, hM.notLast hU ?_, hM.aligned hA ?_, ?_⟩
    · intro b hb hf hh
      rw [hown b hb hf hh]
      exact hw5
    · intro b hb hf hh
      rw [hown b hb hf hh]
      exact ⟨hw4 hAs.1, hw3⟩
    · intro x hx
      rcases List.mem_cons.mp hx with e3 | e3
      · exact ⟨_, hw1, rfl, e3⟩
      · simp only [List.mem_filter, decide_eq_true_eq] at e3
        obtain ⟨b, hb1', hb2', hb3'⟩ := hP x e3.1
        exact ⟨b, hM.keep b hb1' hb2' (by intro hh; apply e3.2; omega), hb2', hb3'⟩
  · rw [if_neg (by omega), a1]
    refine ⟨bs2, fl2, a2, ?_, ?_, ?_⟩
    · intro b hb hf
      rw [a4]
      rcases a12 b hb hf with e3 | e3
      · have := a2.uniq hb a5 e3
        rw [this]
        exact a10
      · exact hU b e3.1 hf
    · intro b hb hf
      rcases a12 b hb hf with e3 | e3
      · have := a2.uniq hb a5 e3
        rw [this]
        simp only
        omega
      · exact hA b e3.1 hf
    · intro x hx
      rcases List.mem_cons.mp hx with e3 | e3
      · exact ⟨_, a5, rfl, e3⟩
      · simp only [List.mem_filter, decide_eq_true_eq] at e3
        obtain ⟨b, hb1', hb2', hb3'⟩ := hP x e3.1
        exact ⟨b, a11 b hb1' hb2' (by intro hh; apply e3.2; omega), hb2', hb3'⟩

/-- Every reachable state satisfies the invariant. -/
theorem reach_inv {S : Prop} {st0 : State} {start length : Nat} (h0 : start ≠ 0)
    (h1 : 24 ≤ length) (h2 : length < 4294967296 + 24)
    (h3 : start + length < 18446744073709551616) (hS : S → hstatus st0.mem start = 0)
    {st : State} {A : List Nat} (hr : Reach st0 start length st A) : Inv S st A := by
  induction hr with
  | init => exact inv_init st0 start length h0 h1 h2 h3 hS
  | alloc n fuel p st2 _ h ih => exact inv_alloc ih h
  | release p _ hp ih => exact inv_release ih hp
  | resize p n fuel q st2 _ hp h ih => exact inv_resize ih hp h

/-! ## The walk over the headers and the size subtractions -/

theorem walk_of_contig {m : Mem} {a e : Nat} {bs : List Blk} (hc : Contig a e bs)
    (hs : ∀ b ∈ bs, hsize m b.hdr = b.size) : Walk m a e (bs.map (fun b => b.hdr)) := by
  induction bs generalizing a with
  | nil => exact hc
  | cons b t ih =>
    have h1 := hc.1
    have h2 := Contig.le hc.2
    have h3 := hs b (by simp)
    refine ⟨h1, by omega, ?_⟩
    have e1 : get_next_hdr m a = a + 24 + b.size := by
      simp only [get_next_hdr, sizeof_header, sizeof_prev_next]
      rw [← h1, h3]
      omega
    rw [e1]
    exact ih hc.2 (fun c hc2 => hs c (List.mem_cons_of_mem _ hc2))

theorem pairwise_of_contig {m : Mem} {a e : Nat} {bs : List Blk} (hc : Contig a e bs)
    (hs : ∀ b ∈ bs, hsize m b.hdr = b.size) :
    (bs.map (fun b => b.hdr)).Pairwise (fun x y => get_next_hdr m x ≤ y) := by
  induction bs generalizing a with
  | nil => exact List.Pairwise.nil
  | cons b t ih =>
    simp only [List.map_cons, List.pairwise_cons]
    refine ⟨?_, ih hc.2 (fun c hc2 => hs c (List.mem_cons_of_mem _ hc2))⟩
    intro y hy
    obtain ⟨c, hc1, hc2⟩ := List.mem_map.mp hy
    have h1 := hc.1
    have h3 := hs b (by simp)
    have := (hc.2.mem_bounds hc1).1
    simp only [get_next_hdr, sizeof_header, sizeof_prev_next]
    rw [h3]
    omega

theorem malloc_scan_fits {m : Mem} {r c x k : Nat} (h : malloc_scan m r k c = some x)
    (hx : x ≠ 0) : hsize m (x - 8) > r + 24 := by
  induction k generalizing c with
  | zero => simp [malloc_scan] at h
  | succ k ih =>
    simp only [malloc_scan, NULL, prev_next_to_hdr, sizeof_header, BUF_DATA_SIZE,
      sizeof_prev_next] at h
    split_ifs at h with c1 c2
    · simp only [Option.some.injEq] at h; exact absurd h.symm hx
    · simp only [Option.some.injEq] at h; rw [← h]; omega
    · exact ih h

theorem fmt_ge (n : Nat) : 24 ≤ fmt n := by
  unfold fmt
  simp only [sizeof_header, sizeof_prev_next]
  split_ifs <;> omega

/-- In every state the split made by `mymalloc` is guarded: no subtraction underflows. -/
theorem mymalloc_exact_all (fuel : Nat) (st : State) (n : Nat) : mymalloc_exact fuel st n := by
  unfold mymalloc_exact
  simp only [NULL]
  split_ifs with c1 c2
  cases hs : malloc_scan st.mem (fmt n) fuel st.f_start with
  | none => trivial
  | some c =>
    simp only
    split_ifs with c3
    have hfit := malloc_scan_fits hs c3
    have hf := fmt_ge n
    unfold create_chunk_hdr_exact
    simp only [sizeof_prev_next, sizeof_header, sizeof_size_t, prev_next_to_hdr]
    rw [if_neg (by omega)]
    have e : hsize (set_status st.mem (c - 8 + fmt n + 8 + 16) 0) (c - 8) = hsize st.mem (c - 8) := by
      simp only [hsize, set_status]
      exact rd_wr_disj (by omega)
    rw [e]
    omega

theorem myrealloc_exact_used {S : Prop} {st : State} {bs : List Blk} {fl : List Nat} {h s : Nat}
    (hR : Rep S st bs fl) (hU : UsedNotLast st.segment_end bs) (hA : UsedAligned bs)
    (hB : (⟨h, s, false⟩ : Blk) ∈ bs) (n fuel : Nat) : myrealloc_exact fuel st (h + 24) n := by
  have hBb := hR.blk hB
  simp only at hBb
  have hsz : hsize st.mem h = s := (hR.ok _ hB).1
  have hs32 : s < 4294967296 := by rw [← hsz]; exact rd4_lt _ _
  have hUB := hU _ hB rfl
  have hAB := hA _ hB rfl
  simp only at hUB hAB
  obtain ⟨l1, l2, el⟩ := List.append_of_mem hB
  subst el
  unfold myrealloc_exact
  simp only [NULL, payload_to_hdr, sizeof_header, sizeof_prev_next, MAX_HEAP_SIZE]
  rw [if_neg (by omega), show h + 24 - 8 - 16 = h by omega, hsz]
  by_cases c0 : n > 1 <<< 30
  · rw [if_pos c0]; trivial
  · rw [if_neg c0]
    have hn : n ≤ 1073741824 := by simpa using c0
    by_cases c00 : n = 0
    · rw [if_pos c00]; trivial
    · rw [if_neg c00]
      have hre := roundup_eq n (by omega)
      have hr8 : roundup n ALIGNMENT % 8 = 0 := by rw [hre]; omega
      have hrlt : roundup n ALIGNMENT ≤ 1073741824 := by rw [hre]; omega
      by_cases c1 : s = roundup n ALIGNMENT
      · rw [if_pos c1]; trivial
      · rw [if_neg c1]
        by_cases c2 : s > roundup n ALIGNMENT
        · rw [if_pos c2]
          refine ⟨?_, fun _ => mymalloc_exact_all _ _ _⟩
          have hsw : shrinkWidth (roundup n ALIGNMENT) =
              if roundup n ALIGNMENT < 16 then 16 else roundup n ALIGNMENT := by
            unfold shrinkWidth
            rw [roundup_idem hr8 (by omega)]
            rfl
          have hwle : shrinkWidth (roundup n ALIGNMENT) ≤ s := by
            rw [hsw]; split_ifs <;> omega
          have hex : shrink_chunk_exact st h (roundup n ALIGNMENT) =
              (shrinkWidth (roundup n ALIGNMENT) ≤ hsize st.mem h ∧
              (if hsize st.mem h = shrinkWidth (roundup n ALIGNMENT) then True
               else if sub64 (hsize st.mem h) (shrinkWidth (roundup n ALIGNMENT)) < 48 then True
               else if hsize st.mem h > shrinkWidth (roundup n ALIGNMENT) then
                 shrinkWidth (roundup n ALIGNMENT) + 8 + 16 ≤
                   hsize (set_status (merge_free st h).mem h 1) h
               else True)) := rfl
          rw [hex, hsz]
          refine ⟨hwle, ?_⟩
          split_ifs with d1 d2 d3
          rw [sub64_eq hwle (by omega)] at d2
          obtain ⟨s1, l2b, fl1, hR1, hle, -⟩ := merge_free_rep hR
          have hsz1 : hsize (merge_free st h).mem h = s1 := (hR1.ok ⟨h, s1, false⟩ (by simp)).1
          have e : hsize (set_status (merge_free st h).mem h 1) h = s1 := by
            rw [← hsz1]
            simp only [hsize, set_status]
            exact rd_wr_disj (by omega)
          rw [e]
          omega
        · rw [if_neg c2]
          refine ⟨?_, fun _ => mymalloc_exact_all _ _ _⟩
          cases l2 with
          | nil =>
            have hc : h + 24 + s = st.segment_end := (contig_split hR.contig).2
            omega
          | cons N l2b =>
            obtain ⟨nh, t, g⟩ := N
            have hNm : (⟨nh, t, g⟩ : Blk) ∈ l1 ++ ⟨h, s, false⟩ :: ⟨nh, t, g⟩ :: l2b := by simp
            have hnh : nh = h + 24 + s := (contig_split hR.contig).2.1
            have hsn : hsize st.mem nh = t := (hR.ok _ hNm).1
            have hex : in_place_realloc_exact st h (roundup n ALIGNMENT) =
                (if hstatus st.mem (h + hsize st.mem h + 8 + 16) = 0 then
                  if (hsize st.mem (h + hsize st.mem h + 8 + 16) + hsize st.mem h) % 4294967296
                      < roundup n ALIGNMENT then True
                  else roundup n ALIGNMENT + 8 + 16 ≤
                    hsize (remove_node
                      { (merge_free st h) with
                        mem := set_status (merge_free st h).mem (h + hsize st.mem h + 8 + 16) 1 }
                      (h + hsize st.mem h + 8 + 16 + 8)).mem h
                else True) := rfl
            have hBb := hR.blk hB
            have hNb := hR.blk hNm
            simp only at hBb hNb
            have hmod : (t + s) % 4294967296 = t + s :=
              Nat.mod_eq_of_lt (by have := hR.lt32; omega)
            rw [hex, hsz, show h + s + 8 + 16 = nh by omega, hsn, hmod]
            split_ifs with d1 d2
            obtain ⟨f1, f2, -, -, hR2, -⟩ := in_place_mid hR d1
            have hsz2 := (hR2.ok ⟨h, s + t + 24, false⟩ (by simp)).1
            simp only at hsz2
            rw [hsz2]
            omega

/-! ## A state has one representation -/

theorem dll_unique {m : Mem} {p c : Nat} {l l2 : List Nat} (h : dll m p c l 0)
    (h2 : dll m p c l2 0) : l = l2 := by
  induction l generalizing p c l2 with
  | nil =>
    cases l2 with
    | nil => rfl
    | cons n t =>
      have e1 : c = 0 := h
      exact absurd (h2.1 ▸ e1) h2.2.1
  | cons n t ih =>
    cases l2 with
    | nil =>
      have e1 : c = 0 := h2
      exact absurd (h.1 ▸ e1) h.2.1
    | cons k u =>
      have e : n = k := by rw [← h.1, ← h2.1]
      subst e
      rw [ih h.2.2.2 h2.2.2.2]

theorem Rep.free_iff {S : Prop} {st : State} {bs : List Blk} {fl : List Nat} (hR : Rep S st bs fl)
    {b : Blk} (hb : b ∈ bs) : b.free = true ↔ b.hdr + 8 ∈ fl := by
  constructor
  · intro hf
    exact (hR.mem _).mpr ⟨b, hb, hf, rfl⟩
  · intro hm
    obtain ⟨c, hc1, hc2, hc3⟩ := (hR.mem _).mp hm
    have := hR.uniq hb hc1 (by omega)
    rw [this]
    exact hc2

theorem contig_unique {m : Mem} {fl : List Nat} {a e : Nat} {bs bs2 : List Blk}
    (h1 : Contig a e bs) (h2 : Contig a e bs2)
    (s1 : ∀ b ∈ bs, hsize m b.hdr = b.size) (s2 : ∀ b ∈ bs2, hsize m b.hdr = b.size)
    (f1 : ∀ b ∈ bs, (b.free = true ↔ b.hdr + 8 ∈ fl))
    (f2 : ∀ b ∈ bs2, (b.free = true ↔ b.hdr + 8 ∈ fl)) : bs = bs2 := by
  induction bs generalizing a bs2 with
  | nil =>
    cases bs2 with
    | nil => rfl
    | cons c u =>
      have e1 : a = e := h1
      have := Contig.le h2.2
      omega
  | cons b t ih =>
    cases bs2 with
    | nil =>
      have e1 : a = e := h2
      have := Contig.le h1.2
      omega
    | cons c u =>
      have eh : b.hdr = c.hdr := by rw [h1.1, h2.1]
      have es : b.size = c.size := by
        rw [← s1 b (by simp), ← s2 c (by simp), eh]
      have ef : b.free = c.free := by
        have a1 := f1 b (by simp)
        have a2 := f2 c (by simp)
        rw [eh] at a1
        cases hbf : b.free <;> cases hcf : c.free <;> simp_all
      have ebc : b = c := by
        cases b; cases c
        simp only at eh es ef
        subst eh es ef
        rfl
      subst ebc
      have h2b := h2.2
      rw [ih h1.2 h2b (fun x hx => s1 x (List.mem_cons_of_mem _ hx))
        (fun x hx => s2 x (List.mem_cons_of_mem _ hx))
        (fun x hx => f1 x (List.mem_cons_of_mem _ hx))
        (fun x hx => f2 x (List.mem_cons_of_mem _ hx))]

/-- Two representations of one state are equal. -/
theorem Rep.unique {S S2 : Prop} {st : State} {bs bs2 : List Blk} {fl fl2 : List Nat}
    (h1 : Rep S st bs fl) (h2 : Rep S2 st bs2 fl2) : bs = bs2 ∧ fl = fl2 := by
  have ef : fl = fl2 := dll_unique h1.list h2.list
  subst ef
  exact ⟨contig_unique h1.contig h2.contig (fun b hb => (h1.ok b hb).1)
    (fun b hb => (h2.ok b hb).1) (fun b hb => h1.free_iff hb) (fun b hb => h2.free_iff hb), rfl⟩

/-- A reachable state in which the strict duality holds satisfies the invariant with it. -/
theorem Inv.strict {st : State} {A : List Nat} {bs : List Blk} {fl : List Nat}
    (hI : Inv False st A) (hR : Rep True st bs fl) : Inv True st A := by
  obtain ⟨bs2, fl2, hR2, hU, hA, hP⟩ := hI
  obtain ⟨e1, e2⟩ := hR2.unique hR
  subst e1 e2
  exact ⟨bs2, fl2, hR, hU, hA, hP⟩

/-- When `myinit` fails: the length is 0, the start is `NULL`, or the end of the segment,
computed modulo `2 ^ 64`, is `NULL`. -/
theorem myinit_false_iff (st : State) (start length : Nat) :
    (myinit st start length).1 = false ↔
      (length = 0 ∨ start = NULL ∨ (start + length) % 18446744073709551616 = NULL) := by
  unfold myinit
  simp only [NULL]
  split_ifs with c1 c2
  · simp; omega
  · simp; omega
  · simp; omega

/-- For a segment that ends below `2 ^ 64`, `myinit` fails exactly when the length is 0 or
the start is `NULL`. -/
theorem myinit_false_iff_lt (st : State) (start length : Nat)
    (h : start + length < 18446744073709551616) :
    (myinit st start length).1 = false ↔ (length = 0 ∨ start = NULL) := by
  rw [myinit_false_iff, Nat.mod_eq_of_lt h]
  simp only [NULL]
  omega

theorem myinit_true_start {st : State} {start length : Nat}
    (h : (myinit st start length).1 = true) : start ≠ 0 := by
  intro e
  have := (myinit_false_iff st start length).mpr (Or.inr (Or.inl e))
  rw [this] at h
  cases h

/-! ## The bytes written by `create_chunk_hdr` -/

theorem remove_node_head (st : State) (nd : Nat) :
    (remove_node st nd).f_start = st.f_start ∨ (remove_node st nd).f_start = nnext st.mem nd ∨
      (remove_node st nd).f_start = 0 := by
  unfold remove_node
  simp only [NULL]
  split_ifs
  · exact Or.inl rfl
  · exact Or.inr (Or.inl rfl)
  · exact Or.inl rfl
  · exact Or.inr (Or.inr rfl)
  · exact Or.inl rfl

theorem four_writes_out (m : Mem) (a b v1 v2 v3 v4 y : Nat) (h1 : y < a ∨ a + 8 ≤ y)
    (h2 : y < b ∨ b + 8 ≤ y) :
    set_status (set_size (set_size (set_status m b v1) b v2) a v3) a v4 y = m y := by
  simp only [set_status, set_size]
  rw [wr_out (by omega), wr_out (by omega), wr_out (by omega), wr_out (by omega)]

/-- The only bytes `create_chunk_hdr` may change: the header of the block, the header and node
of the remainder, the node of the block's predecessor and successor in the free list and the
node of the head of the list. -/
theorem create_chunk_hdr_frame (st : State) (h w : Nat) (flag : Bool) (x : Nat) (hw : 24 ≤ w)
    (hx1 : x < h ∨ h + 8 ≤ x) (hx2 : x < h + 24 + w ∨ h + 24 + w + 24 ≤ x)
    (hp : nprev st.mem (h + 8) = 0 ∨ x < nprev st.mem (h + 8) ∨ nprev st.mem (h + 8) + 16 ≤ x)
    (hn : nnext st.mem (h + 8) = 0 ∨ x < nnext st.mem (h + 8) ∨ nnext st.mem (h + 8) + 16 ≤ x)
    (hf : st.f_start = 0 ∨ x < st.f_start ∨ st.f_start + 16 ≤ x) :
    (create_chunk_hdr st h w flag).mem x = st.mem x := by
  unfold create_chunk_hdr
  simp only [sizeof_prev_next, sizeof_header, sizeof_size_t, hdr_to_prev_next]
  rw [if_neg (by omega)]
  generalize sub64 (sub64 (sub64 (hsize (set_status st.mem (h + w + 8 + 16) 0) h) w) 8) 16 = V
  have ep : nprev (set_status (set_size (set_size (set_status st.mem (h + w + 8 + 16) 0)
      (h + w + 8 + 16) V) h w) h 1) (h + 8) = nprev st.mem (h + 8) :=
    rd_congr (fun y hy1 hy2 => four_writes_out _ _ _ _ _ _ _ y (by omega) (by omega))
  have en : nnext (set_status (set_size (set_size (set_status st.mem (h + w + 8 + 16) 0)
      (h + w + 8 + 16) V) h w) h 1) (h + 8) = nnext st.mem (h + 8) :=
    rd_congr (fun y hy1 hy2 => four_writes_out _ _ _ _ _ _ _ y (by omega) (by omega))
  rw [add_node_frame _ _ x (by omega) (by omega), remove_node_frame _ _ x]
  · exact four_writes_out _ _ _ _ _ _ _ x hx1 (by omega)
  · simp only
    rw [ep]
    omega
  · simp only
    rw [en]
    omega
  · rcases remove_node_head { st with mem := set_status (set_size (set_size
        (set_status st.mem (h + w + 8 + 16) 0) (h + w + 8 + 16) V) h w) h 1 } (h + 8)
      with e | e | e
    · rw [e]
      simp only
      omega
    · rw [e]
      simp only
      rw [en]
      omega
    · exact Or.inl e

/-- The two outcomes of `mymalloc` on a represented state, with the chosen block. -/
theorem mymalloc_cases {S : Prop} {st : State} {bs : List Blk} {fl : List Nat}
    (hR : Rep S st bs fl) (n fuel : Nat) (hfuel : fl.length < fuel) :
    mymalloc fuel st n = some (0, st) ∨
    ∃ h s l1 l2 f1 f2, bs = l1 ++ ⟨h, s, true⟩ :: l2 ∧ fl = f1 ++ (h + 8) :: f2 ∧
      0 < n ∧ n ≤ 1073741824 ∧ fmt n + 24 < s ∧
      (∀ x ∈ f1, ¬ (hsize st.mem (x - 8) > fmt n + 24)) ∧
      mymalloc fuel st n = some (h + 24, create_chunk_hdr st h (fmt n) false) := by
  by_cases h1 : 0 < n ∧ n ≤ 1073741824
  · rcases first_split (fun x => hsize st.mem (x - 8) > fmt n + 24) fl with hno | ⟨f1, nd, f2, e, hno, hyes⟩
    · left
      by_cases hf : st.f_start = 0
      · unfold mymalloc
        simp only [NULL]
        rw [if_neg (by simp; omega), if_pos hf]
      · rw [mymalloc_unfold h1.1 h1.2 hf (c := 0)]
        · simp
        · exact malloc_scan_none hR.list hno fuel hfuel
    · right
      subst e
      obtain ⟨b, hb1, hb2, hb3, hb4⟩ := hR.flsize (n := nd) (by simp)
      obtain ⟨h, s, f⟩ := b
      simp only at hb2 hb3 hb4
      subst hb2 hb3
      rw [hb4] at hyes
      obtain ⟨l1, l2, e⟩ := List.append_of_mem hb1
      subst e
      exact ⟨h, s, l1, l2, f1, f2, rfl, rfl, h1.1, h1.2, by omega, hno,
        mymalloc_succ hR h1.1 h1.2 hno (by omega) (by simp at hfuel; omega)⟩
  · left
    unfold mymalloc
    simp only [NULL]
    rw [if_pos (by simp; omega)]


/-! ## Explicit outcomes of the operations on the tiling -/

/-- A representation in which every free block has status 0 is a strict one. -/
theorem Rep.strengthen {S : Prop} {st : State} {bs : List Blk} {fl : List Nat}
    (hR : Rep S st bs fl) (h0 : ∀ b ∈ bs, b.free = true → hstatus st.mem b.hdr = 0) :
    Rep True st bs fl :=
  ⟨hR.lt64, hR.lt32, hR.contig,
    fun b hb => ⟨(hR.ok b hb).1, (hR.ok b hb).2.1, fun hf _ => h0 b hb hf⟩,
    hR.list, hR.nodup, hR.mem⟩

/-- A strict representation is a representation for every strictness. -/
theorem Rep.weaken {S : Prop} {st : State} {bs : List Blk} {fl : List Nat}
    (hR : Rep True st bs fl) : Rep S st bs fl :=
  ⟨hR.lt64, hR.lt32, hR.contig,
    fun b hb => ⟨(hR.ok b hb).1, (hR.ok b hb).2.1, fun hf _ => (hR.ok b hb).2.2 hf trivial⟩,
    hR.list, hR.nodup, hR.mem⟩

/-- The two outcomes of `myfree` on a used block: the block is linked as it is (it is the last
block, or the header that follows has a non-zero status), or it absorbs the free block that
follows. -/
theorem myfree_cases {S : Prop} {st : State} {l1 l2 : List Blk} {fl : List Nat} {h s : Nat}
    (hR : Rep S st (l1 ++ ⟨h, s, false⟩ :: l2) fl) :
    (Rep S (myfree st (h + 24)) (l1 ++ ⟨h, s, true⟩ :: l2) ((h + 8) :: fl) ∧
      (l2 = [] ∨ ∃ nh t g l2b, l2 = ⟨nh, t, g⟩ :: l2b ∧ hstatus st.mem nh ≠ 0)) ∨
    (∃ nh t l2b f1 f2, l2 = ⟨nh, t, true⟩ :: l2b ∧ fl = f1 ++ (nh + 8) :: f2 ∧
      hstatus st.mem nh = 0 ∧
      Rep S (myfree st (h + 24)) (l1 ++ ⟨h, s + t + 24, true⟩ :: l2b)
        ((h + 8) :: (f1 ++ f2))) := by
  cases l2 with
  | nil => exact Or.inl ⟨(myfree_last hR).2, Or.inl rfl⟩
  | cons N l2b =>
    obtain ⟨nh, t, g⟩ := N
    have hNm : (⟨nh, t, g⟩ : Blk) ∈ l1 ++ ⟨h, s, false⟩ :: ⟨nh, t, g⟩ :: l2b := by simp
    by_cases c : hstatus st.mem nh = 0
    · have hg : g = true := by
        by_contra hg
        exact (hR.ok _ hNm).2.1 (by simpa using hg) c
      subst hg
      have hmem : nh + 8 ∈ fl := (hR.mem _).mpr ⟨_, hNm, rfl, rfl⟩
      obtain ⟨f1, f2, hfl⟩ := List.append_of_mem hmem
      subst hfl
      exact Or.inr ⟨nh, t, l2b, f1, f2, rfl, rfl, c, (myfree_join hR c).1⟩
    · exact Or.inl ⟨(myfree_skip hR c).2, Or.inr ⟨nh, t, g, l2b, rfl, c⟩⟩

/-- The two outcomes of `merge_free` on a block: nothing changes (the block is the last one,
or the header that follows has a non-zero status), or the free block that follows is
absorbed. -/
theorem merge_free_cases {S : Prop} {st : State} {l1 l2 : List Blk} {fl : List Nat} {h s : Nat}
    {f : Bool} (hR : Rep S st (l1 ++ ⟨h, s, f⟩ :: l2) fl) :
    (merge_free st h = st ∧
      (l2 = [] ∨ ∃ nh t g l2b, l2 = ⟨nh, t, g⟩ :: l2b ∧ hstatus st.mem nh ≠ 0)) ∨
    (∃ nh t l2b f1 f2, l2 = ⟨nh, t, true⟩ :: l2b ∧ fl = f1 ++ (nh + 8) :: f2 ∧
      hstatus st.mem nh = 0 ∧
      Rep S (merge_free st h) (l1 ++ ⟨h, s + t + 24, f⟩ :: l2b) (f1 ++ f2) ∧
      (merge_free st h).segment_begin = st.segment_begin ∧
      (merge_free st h).segment_end = st.segment_end) := by
  cases l2 with
  | nil => exact Or.inl ⟨merge_free_last hR, Or.inl rfl⟩
  | cons N l2b =>
    obtain ⟨nh, t, g⟩ := N
    have hNm : (⟨nh, t, g⟩ : Blk) ∈ l1 ++ ⟨h, s, f⟩ :: ⟨nh, t, g⟩ :: l2b := by simp
    by_cases c : hstatus st.mem nh = 0
    · have hg : g = true := by
        by_contra hg
        exact (hR.ok _ hNm).2.1 (by simpa using hg) c
      subst hg
      have hmem : nh + 8 ∈ fl := (hR.mem _).mpr ⟨_, hNm, rfl, rfl⟩
      obtain ⟨f1, f2, hfl⟩ := List.append_of_mem hmem
      subst hfl
      obtain ⟨a1, a2, a3, -⟩ := merge_free_join hR c
      exact Or.inr ⟨nh, t, l2b, f1, f2, rfl, rfl, c, a1, a2, a3⟩
    · exact Or.inl ⟨merge_free_skip hR c, Or.inr ⟨nh, t, g, l2b, rfl, c⟩⟩

/-- The splitting path of `shrink_chunk`: when the block exceeds the promoted width by at
least 48 the call succeeds; the block keeps the width and a new free block follows it, made
of the rest of the block and, when the block that followed was free, of that block too. -/
theorem shrink_chunk_spec {S : Prop} {st : State} {l1 l2 : List Blk} {fl : List Nat} {h s : Nat}
    (hR : Rep S st (l1 ++ ⟨h, s, false⟩ :: l2) fl) (wreq : Nat)
    (hw : shrinkWidth wreq + 48 ≤ s) :
    (shrink_chunk st h wreq).1 = true ∧
    (shrink_chunk st h wreq).2.segment_begin = st.segment_begin ∧
    (shrink_chunk st h wreq).2.segment_end = st.segment_end ∧
    ((Rep S (shrink_chunk st h wreq).2
        (l1 ++ ⟨h, shrinkWidth wreq, false⟩ ::
          ⟨h + 24 + shrinkWidth wreq, s - shrinkWidth wreq - 24, true⟩ :: l2)
        ((h + 24 + shrinkWidth wreq + 8) :: fl) ∧
      (l2 = [] ∨ ∃ nh t g l2b, l2 = ⟨nh, t, g⟩ :: l2b ∧ hstatus st.mem nh ≠ 0)) ∨
    (∃ nh t l2b f1 f2, l2 = ⟨nh, t, true⟩ :: l2b ∧ fl = f1 ++ (nh + 8) :: f2 ∧
      hstatus st.mem nh = 0 ∧
      Rep S (shrink_chunk st h wreq).2
        (l1 ++ ⟨h, shrinkWidth wreq, false⟩ ::
          ⟨h + 24 + shrinkWidth wreq, s + t + 24 - shrinkWidth wreq - 24, true⟩ :: l2b)
        ((h + 24 + shrinkWidth wreq + 8) :: (f1 ++ f2)))) := by
  have hB : (⟨h, s, false⟩ : Blk) ∈ l1 ++ ⟨h, s, false⟩ :: l2 := by simp
  have hsz : hsize st.mem h = s := (hR.ok _ hB).1
  have hs32 : s < 4294967296 := by rw [← hsz]; exact rd4_lt _ _
  have hsub : sub64 s (shrinkWidth wreq) = s - shrinkWidth wreq :=
    sub64_eq (by omega) (by omega)
  rw [shrink_chunk_eq, hsz, if_neg (by omega), hsub, if_neg (by omega), if_pos (by omega)]
  refine ⟨rfl, ?_, ?_, ?_⟩
  · rw [(add_node_seg _ _).1]
    rcases merge_free_cases hR with ⟨e, -⟩ | ⟨nh, t, l2b, f1, f2, -, -, -, -, a2, -⟩
    · rw [e]
    · exact a2
  · rw [(add_node_seg _ _).2]
    rcases merge_free_cases hR with ⟨e, -⟩ | ⟨nh, t, l2b, f1, f2, -, -, -, -, -, a3⟩
    · rw [e]
    · exact a3
  · rcases merge_free_cases hR with ⟨e, hl⟩ | ⟨nh, t, l2b, f1, f2, e1, e2, c, hR1, -, -⟩
    · left
      refine ⟨?_, hl⟩
      rw [e]
      exact (rep_split_writes (w := shrinkWidth wreq) hR (by omega)
        (set_status st.mem h 1)
        (by intro x hx; simp only [set_status]; exact wr_out (by omega))
        (by simp only [hstatus, set_status]
            rw [rd_wr_same4 (by decide)]
            decide)).1
    · right
      refine ⟨nh, t, l2b, f1, f2, e1, e2, c, ?_⟩
      exact (rep_split_writes (w := shrinkWidth wreq) hR1 (by omega)
        (set_status (merge_free st h).mem h 1)
        (by intro x hx; simp only [set_status]; exact wr_out (by omega))
        (by simp only [hstatus, set_status]
            rw [rd_wr_same4 (by decide)]
            decide)).1

/-- The rejecting path of `shrink_chunk`: the block is not of the promoted width and exceeds
it by less than 48 (or is smaller than it). -/
theorem shrink_chunk_reject {st : State} {h s : Nat} (wreq : Nat) (hsz : hsize st.mem h = s)
    (h1 : s ≠ shrinkWidth wreq) (h2 : s < shrinkWidth wreq + 48) :
    shrink_chunk st h wreq = (false, st) := by
  have hs32 : s < 4294967296 := by rw [← hsz]; exact rd4_lt _ _
  rw [shrink_chunk_eq, hsz, if_neg h1]
  by_cases c : shrinkWidth wreq ≤ s
  · rw [sub64_eq c (by omega), if_pos (by omega)]
  · split_ifs
    · rfl
    · omega
    · rfl

/-- The outcome of `in_place_realloc` on a used block that is followed by a block: it
succeeds exactly when the header that follows has status 0 and the two sizes together reach
the request; the block then has the requested size and the rest is a new free block. -/
theorem in_place_realloc_spec {S : Prop} {st : State} {l1 l2 : List Blk} {fl : List Nat}
    {h s nh t : Nat} {g : Bool}
    (hR : Rep S st (l1 ++ ⟨h, s, false⟩ :: ⟨nh, t, g⟩ :: l2) fl) (r : Nat) :
    ((in_place_realloc st h r).1 = true ↔ (hstatus st.mem nh = 0 ∧ r ≤ s + t)) ∧
    (hstatus st.mem nh = 0 → r ≤ s + t →
      ∃ f1 f2, fl = f1 ++ (nh + 8) :: f2 ∧ g = true ∧
        Rep S (in_place_realloc st h r).2
          (l1 ++ ⟨h, r, false⟩ :: ⟨h + 24 + r, s + t - r, true⟩ :: l2)
          ((h + 24 + r + 8) :: (f1 ++ f2)) ∧
        (in_place_realloc st h r).2.segment_begin = st.segment_begin ∧
        (in_place_realloc st h r).2.segment_end = st.segment_end) := by
  have hB : (⟨h, s, false⟩ : Blk) ∈ l1 ++ ⟨h, s, false⟩ :: ⟨nh, t, g⟩ :: l2 := by simp
  have hNm : (⟨nh, t, g⟩ : Blk) ∈ l1 ++ ⟨h, s, false⟩ :: ⟨nh, t, g⟩ :: l2 := by simp
  have hsz : hsize st.mem h = s := (hR.ok _ hB).1
  have hnh : nh = h + 24 + s := (contig_split hR.contig).2.1
  have hsn : hsize st.mem nh = t := (hR.ok _ hNm).1
  have hBb := hR.blk hB
  have hNb := hR.blk hNm
  simp only at hBb hNb
  have hmod : (t + s) % 4294967296 = t + s := Nat.mod_eq_of_lt (by have := hR.lt32; omega)
  rw [in_place_realloc_eq]
  rw [hsz, show h + s + 8 + 16 = nh by omega, hsn, hmod]
  by_cases c1 : hstatus st.mem nh = 0
  · rw [if_pos c1]
    by_cases c2 : t + s < r
    · rw [if_pos c2]
      exact ⟨⟨fun hf => by simp at hf, fun hf => by omega⟩, fun _ hf => by omega⟩
    · rw [if_neg c2]
      refine ⟨⟨fun _ => ⟨c1, by omega⟩, fun _ => rfl⟩, fun _ _ => ?_⟩
      obtain ⟨f1, f2, hfl, hg, hR2, hb2, he2, -⟩ := in_place_mid hR c1
      have hBm : (⟨h, s + t + 24, false⟩ : Blk) ∈ l1 ++ ⟨h, s + t + 24, false⟩ :: l2 := by
        simp
      obtain ⟨hR3, -⟩ := rep_split_writes (w := r) hR2 (by omega) _ (fun x _ => rfl)
        ((hR2.ok _ hBm).2.1 rfl)
      rw [show s + t + 24 - r - 24 = s + t - r by omega] at hR3
      refine ⟨f1, f2, hfl, hg, hR3, ?_, ?_⟩
      · rw [(add_node_seg _ _).1]; exact hb2
      · rw [(add_node_seg _ _).2]; exact he2
  · rw [if_neg c1]
    exact ⟨⟨fun hf => by simp at hf, fun hf => absurd hf.1 c1⟩, fun hf => absurd hf c1⟩

/-- The outcome of the fallback of `myrealloc` for a used block: `mymalloc` fails and nothing
changes, or it splits a free block `⟨hq, sq⟩`, the bytes are copied into the new payload and
the old block is released from the state `stm` after the copy. -/
theorem realloc_fallback_cases {S : Prop} {st : State} {bs : List Blk} {fl : List Nat}
    {h s : Nat} (hR : Rep S st bs fl) (hB : (⟨h, s, false⟩ : Blk) ∈ bs) (r k fuel : Nat)
    (hfuel : fl.length < fuel) (hk : k ≤ r) :
    realloc_fallback fuel st (h + 24) r k = some (0, st) ∨
    ∃ hq sq l1 l2 f1 f2 stm, bs = l1 ++ ⟨hq, sq, true⟩ :: l2 ∧ fl = f1 ++ (hq + 8) :: f2 ∧
      0 < r ∧ r ≤ 1073741824 ∧ fmt r + 24 < sq ∧ hq ≠ h ∧
      Rep S stm (l1 ++ ⟨hq, fmt r, false⟩ :: ⟨hq + 24 + fmt r, sq - fmt r - 24, true⟩ :: l2)
        ((hq + 24 + fmt r + 8) :: (f1 ++ f2)) ∧
      stm.segment_begin = st.segment_begin ∧ stm.segment_end = st.segment_end ∧
      realloc_fallback fuel st (h + 24) r k = some (hq + 24, myfree stm (h + 24)) := by
  rcases mymalloc_cases hR r fuel hfuel with e | ⟨hq, sq, l1, l2, f1, f2, e1, e2, n1, n2, hs, -, e⟩
  · left
    unfold realloc_fallback
    rw [e]
    simp [NULL]
  · right
    subst e1 e2
    have hfp := fmt_props n2
    have hq1 : (⟨hq, sq, true⟩ : Blk) ∈ l1 ++ ⟨hq, sq, true⟩ :: l2 := by simp
    have hne : hq ≠ h := by
      intro he
      have := hR.uniq hq1 hB he
      simp at this
    obtain ⟨hR1, -, -, -⟩ := create_chunk_hdr_spec false hR hfp.1 hs
    have hM := create_chunk_hdr_moved false hR hfp.1 hs
    have hq3 : (⟨hq, fmt r, false⟩ : Blk) ∈
        l1 ++ ⟨hq, fmt r, false⟩ :: ⟨hq + 24 + fmt r, sq - fmt r - 24, true⟩ :: l2 := by simp
    have hRm : Rep S { (create_chunk_hdr st hq (fmt r) false) with
        mem := memcpy (create_chunk_hdr st hq (fmt r) false).mem (hq + 24) (h + 24) k }
        (l1 ++ ⟨hq, fmt r, false⟩ :: ⟨hq + 24 + fmt r, sq - fmt r - 24, true⟩ :: l2)
        ((hq + 24 + fmt r + 8) :: (f1 ++ f2)) := by
      refine hR1.frame _ rfl rfl rfl ?_
      intro x hx
      apply memcpy_out
      by_contra hcon
      exact payload_not_hdr hR1.contig hq3 (x := x) (by simp only; omega)
        (by simp only; omega) hx
    refine ⟨hq, sq, l1, l2, f1, f2, _, rfl, rfl, n1, n2, hs, hne, hRm, hM.segb, hM.sege, ?_⟩
    unfold realloc_fallback
    rw [e]
    simp only [NULL]
    rw [if_neg (by omega)]

/-! ## Sizes that are multiples of 8 -/

theorem allAligned_mid {l1 l2 : List Blk} {b : Blk} :
    AllAligned (l1 ++ b :: l2) ↔ AllAligned l1 ∧ b.size % 8 = 0 ∧ AllAligned l2 := by
  simp only [AllAligned, List.forall_mem_append, List.forall_mem_cons]

theorem allAligned_mid2 {l1 l2 : List Blk} {b c : Blk} :
    AllAligned (l1 ++ b :: c :: l2) ↔
      AllAligned l1 ∧ b.size % 8 = 0 ∧ c.size % 8 = 0 ∧ AllAligned l2 := by
  simp only [AllAligned, List.forall_mem_append, List.forall_mem_cons]

theorem mymalloc_aligned {S : Prop} {st : State} {bs : List Blk} {fl : List Nat}
    (hR : Rep S st bs fl) (hA : AllAligned bs) {n fuel p : Nat} {st2 : State}
    (hfuel : fl.length < fuel) (hm : mymalloc fuel st n = some (p, st2)) :
    ∃ bs2 fl2, Rep S st2 bs2 fl2 ∧ AllAligned bs2 := by
  rcases mymalloc_cases hR n fuel hfuel with e | ⟨h, s, l1, l2, f1, f2, e1, e2, n1, n2, hs, -, e⟩
  · rw [e] at hm
    simp only [Option.some.injEq, Prod.mk.injEq] at hm
    rw [← hm.2]
    exact ⟨bs, fl, hR, hA⟩
  · rw [e] at hm
    simp only [Option.some.injEq, Prod.mk.injEq] at hm
    rw [← hm.2]
    subst e1 e2
    have hfp := fmt_props n2
    obtain ⟨hR1, -⟩ := create_chunk_hdr_spec false hR hfp.1 hs
    refine ⟨_, _, hR1, ?_⟩
    obtain ⟨a1, a2, a3⟩ := allAligned_mid.mp hA
    simp only at a2
    exact allAligned_mid2.mpr ⟨a1, hfp.2.1, by simp only; omega, a3⟩

theorem myfree_aligned {S : Prop} {st : State} {bs : List Blk} {fl : List Nat} {h s : Nat}
    (hR : Rep S st bs fl) (hA : AllAligned bs) (hB : (⟨h, s, false⟩ : Blk) ∈ bs) :
    ∃ bs2 fl2, Rep S (myfree st (h + 24)) bs2 fl2 ∧ AllAligned bs2 := by
  obtain ⟨l1, l2, el⟩ := List.append_of_mem hB
  subst el
  rcases myfree_cases hR with ⟨hR1, -⟩ | ⟨nh, t, l2b, f1, f2, e1, e2, -, hR1⟩
  · refine ⟨_, _, hR1, ?_⟩
    obtain ⟨a1, a2, a3⟩ := allAligned_mid.mp hA
    exact allAligned_mid.mpr ⟨a1, a2, a3⟩
  · subst e1
    refine ⟨_, _, hR1, ?_⟩
    obtain ⟨a1, a2, a3, a4⟩ := allAligned_mid2.mp hA
    simp only at a2 a3
    exact allAligned_mid.mpr ⟨a1, by simp only; omega, a4⟩

theorem realloc_fallback_aligned {S : Prop} {st : State} {bs : List Blk} {fl : List Nat}
    {h s : Nat} (hR : Rep S st bs fl) (hA : AllAligned bs) (hB : (⟨h, s, false⟩ : Blk) ∈ bs)
    {r k fuel q : Nat} {st2 : State} (hfuel : fl.length < fuel) (hk : k ≤ r)
    (hm : realloc_fallback fuel st (h + 24) r k = some (q, st2)) :
    ∃ bs2 fl2, Rep S st2 bs2 fl2 ∧ AllAligned bs2 := by
  rcases realloc_fallback_cases hR hB r k fuel hfuel hk with e |
    ⟨hq, sq, l1, l2, f1, f2, stm, e1, e2, n1, n2, hs, hne, hRm, -, -, e⟩
  · rw [e] at hm
    simp only [Option.some.injEq, Prod.mk.injEq] at hm
    rw [← hm.2]
    exact ⟨bs, fl, hR, hA⟩
  · rw [e] at hm
    simp only [Option.some.injEq, Prod.mk.injEq] at hm
    rw [← hm.2]
    subst e1
    have hfp := fmt_props n2
    obtain ⟨a1, a2, a3⟩ := allAligned_mid.mp hA
    simp only at a2
    have hAm : AllAligned
        (l1 ++ ⟨hq, fmt r, false⟩ :: ⟨hq + 24 + fmt r, sq - fmt r - 24, true⟩ :: l2) :=
      allAligned_mid2.mpr ⟨a1, hfp.2.1, by simp only; omega, a3⟩
    have hBm : (⟨h, s, false⟩ : Blk) ∈
        l1 ++ ⟨hq, fmt r, false⟩ :: ⟨hq + 24 + fmt r, sq - fmt r - 24, true⟩ :: l2 := by
      simp only [List.mem_append, List.mem_cons] at hB ⊢
      rcases hB with hB | hB | hB
      · exact Or.inl hB
      · simp at hB
      · exact Or.inr (Or.inr (Or.inr hB))
    exact myfree_aligned hRm hAm hBm

theorem myrealloc_aligned {S : Prop} {st : State} {bs : List Blk} {fl : List Nat} {h s : Nat}
    (hR : Rep S st bs fl) (hU : UsedNotLast st.segment_end bs) (hA : AllAligned bs)
    (hB : (⟨h, s, false⟩ : Blk) ∈ bs) {n fuel q : Nat} {st2 : State}
    (hfuel : fl.length < fuel) (hm : myrealloc fuel st (h + 24) n = some (q, st2)) :
    ∃ bs2 fl2, Rep S st2 bs2 fl2 ∧ AllAligned bs2 := by
  have hUB := hU _ hB rfl
  simp only at hUB
  by_cases h1 : 0 < n ∧ n ≤ 1073741824
  · have hre := roundup_eq n (by omega)
    have hr8 : roundup n ALIGNMENT % 8 = 0 := by rw [hre]; omega
    have hrlt : roundup n ALIGNMENT ≤ 1073741824 := by rw [hre]; omega
    have hsw : shrinkWidth (roundup n ALIGNMENT) =
        if roundup n ALIGNMENT < 16 then 16 else roundup n ALIGNMENT := by
      unfold shrinkWidth
      rw [roundup_idem hr8 (by omega)]
      rfl
    have hsw8 : shrinkWidth (roundup n ALIGNMENT) % 8 = 0 := by
      rw [hsw]; split_ifs <;> omega
    rw [myrealloc_unfold hR hB n fuel h1.1 h1.2] at hm
    obtain ⟨l1, l2, el⟩ := List.append_of_mem hB
    subst el
    obtain ⟨a1, a2, a3⟩ := allAligned_mid.mp hA
    simp only at a2
    by_cases c1 : s = roundup n ALIGNMENT
    · rw [if_pos c1] at hm
      simp only [Option.some.injEq, Prod.mk.injEq] at hm
      rw [← hm.2]
      exact ⟨_, fl, hR, hA⟩
    · rw [if_neg c1] at hm
      by_cases c2 : s > roundup n ALIGNMENT
      · rw [if_pos c2] at hm
        by_cases c3 : (shrink_chunk st h (roundup n ALIGNMENT)).1 = true
        · rw [if_pos c3] at hm
          simp only [Option.some.injEq, Prod.mk.injEq] at hm
          rw [← hm.2]
          by_cases c4 : s = shrinkWidth (roundup n ALIGNMENT)
          · have e : (shrink_chunk st h (roundup n ALIGNMENT)).2 =
                { st with mem := set_status st.mem h 1 } := by
              rw [shrink_chunk_eq, (hR.ok _ hB).1, if_pos c4]
            rw [e]
            exact ⟨_, fl, rep_set_used hR hB (by decide) (by decide), hA⟩
          · by_cases c5 : s < shrinkWidth (roundup n ALIGNMENT) + 48
            · rw [shrink_chunk_reject (roundup n ALIGNMENT) (hR.ok _ hB).1 c4 c5] at c3
              simp at c3
            · obtain ⟨-, -, -, hsp⟩ := shrink_chunk_spec hR (roundup n ALIGNMENT) (by omega)
              rcases hsp with ⟨hR1, -⟩ | ⟨nh, t, l2b, f1, f2, e1, e2, -, hR1⟩
              · exact ⟨_, _, hR1, allAligned_mid2.mpr ⟨a1, hsw8, by simp only; omega, a3⟩⟩
              · subst e1
                obtain ⟨b1, b2, b3, b4⟩ := allAligned_mid2.mp hA
                simp only at b2 b3
                exact ⟨_, _, hR1, allAligned_mid2.mpr ⟨b1, hsw8, by simp only; omega, b4⟩⟩
        · rw [if_neg c3, shrink_chunk_false (Bool.eq_false_iff.mpr c3)] at hm
          exact realloc_fallback_aligned hR hA hB hfuel (le_refl _) hm
      · rw [if_neg c2] at hm
        by_cases c3 : (in_place_realloc st h (roundup n ALIGNMENT)).1 = true
        · rw [if_pos c3] at hm
          simp only [Option.some.injEq, Prod.mk.injEq] at hm
          rw [← hm.2]
          cases l2 with
          | nil =>
            have hc : h + 24 + s = st.segment_end := (contig_split hR.contig).2
            omega
          | cons N l2b =>
            obtain ⟨nh, t, g⟩ := N
            obtain ⟨hiff, hsp⟩ := in_place_realloc_spec hR (roundup n ALIGNMENT)
            obtain ⟨d1, d2⟩ := hiff.mp c3
            obtain ⟨f1, f2, -, -, hR1, -, -⟩ := hsp d1 d2
            obtain ⟨b1, b2, b3, b4⟩ := allAligned_mid2.mp hA
            simp only at b2 b3
            exact ⟨_, _, hR1, allAligned_mid2.mpr ⟨b1, hr8, by simp only; omega, b4⟩⟩
        · rw [if_neg c3, in_place_realloc_false (Bool.eq_false_iff.mpr c3)] at hm
          exact realloc_fallback_aligned hR hA hB hfuel (by omega) hm
  · have e : myrealloc fuel st (h + 24) n = some (0, st) := by
      have hBb := hR.blk hB
      simp only at hBb
      unfold myrealloc
      simp only [NULL, MAX_HEAP_SIZE]
      rw [if_neg (by omega)]
      by_cases c : n > 1073741824
      · rw [if_pos (by simpa using c)]
      · rw [if_neg (by simpa using c), if_pos (by omega)]
    rw [e] at hm
    simp only [Option.some.injEq, Prod.mk.injEq] at hm
    rw [← hm.2]
    exact ⟨bs, fl, hR, hA⟩

/-- In every state reached from a segment whose length is a multiple of 8 the size of every
block is a multiple of 8. -/
theorem reach_aligned {st0 : State} {start length : Nat} (h0 : start ≠ 0)
    (h1 : 24 ≤ length) (h2 : length < 4294967296 + 24)
    (h3 : start + length < 18446744073709551616) (h8 : length % 8 = 0)
    {st : State} {A : List Nat} (hr : Reach st0 start length st A) :
    ∃ bs fl, Rep False st bs fl ∧ AllAligned bs := by
  induction hr with
  | init =>
    refine ⟨_, _, myinit_rep st0 start length h0 h1 h2 h3 (fun hf => hf.elim), ?_⟩
    intro b hb
    simp only [List.mem_singleton] at hb
    rw [hb]
    simp only
    omega
  | alloc n fuel p st2 _ h ih =>
    obtain ⟨bs, fl, hR, hA⟩ := ih
    exact mymalloc_aligned hR hA (Nat.lt_add_of_pos_right (n := fl.length) (k := fuel + 1)
      (by omega)) (mymalloc_mono h _ (by omega))
  | release p hprev hp ih =>
    obtain ⟨bs, fl, hR, hA⟩ := ih
    obtain ⟨bs1, fl1, hR1, -, -, hP⟩ := reach_inv (S := False) h0 h1 h2 h3 (fun hf => hf.elim) hprev
    obtain ⟨e1, -⟩ := hR.unique hR1
    subst e1
    obtain ⟨b, hb1, hb2, hb3⟩ := hP p hp
    obtain ⟨h, s, f⟩ := b
    simp only at hb2 hb3
    subst hb2 hb3
    exact myfree_aligned hR hA hb1
  | resize p n fuel q st2 hprev hp h ih =>
    obtain ⟨bs, fl, hR, hA⟩ := ih
    obtain ⟨bs1, fl1, hR1, hU, -, hP⟩ := reach_inv (S := False) h0 h1 h2 h3 (fun hf => hf.elim) hprev
    obtain ⟨e1, -⟩ := hR.unique hR1
    subst e1
    obtain ⟨b, hb1, hb2, hb3⟩ := hP p hp
    obtain ⟨hh, s, f⟩ := b
    simp only at hb2 hb3
    subst hb2 hb3
    exact myrealloc_aligned hR hU hA hb1 (Nat.lt_add_of_pos_right (n := fl.length)
      (k := fuel + 1) (by omega)) (myrealloc_mono h _ (by omega))

/-- A reachable state is the state right after `myinit`, with no address allocated, or it
satisfies the invariant with the strict status/free-list duality: the first successful
`mymalloc` writes the status of both blocks it leaves. -/
theorem reach_strict {st0 : State} {start length : Nat} (h0 : start ≠ 0)
    (h1 : 24 ≤ length) (h2 : length < 4294967296 + 24)
    (h3 : start + length < 18446744073709551616)
    {st : State} {A : List Nat} (hr : Reach st0 start length st A) :
    (st = (myinit st0 start length).2 ∧ A = []) ∨ Inv True st A := by
  induction hr with
  | init => exact Or.inl ⟨rfl, rfl⟩
  | alloc n fuel p st2 hprev h ih =>
    rcases ih with ⟨e1, e2⟩ | ih
    · subst e1 e2
      have hR0 : Rep False (myinit st0 start length).2 [⟨start, length - 24, true⟩] [start + 8] :=
        myinit_rep st0 start length h0 h1 h2 h3 (fun hf => hf.elim)
      have hm := mymalloc_mono h (fuel + 2) (by omega)
      rcases mymalloc_cases hR0 n (fuel + 2) (by simp) with e |
        ⟨hh, s, l1, l2, f1, f2, e1, e2, n1, n2, hs, -, e⟩
      · rw [e] at hm
        simp only [Option.some.injEq, Prod.mk.injEq] at hm
        left
        rw [← hm.1, ← hm.2]
        exact ⟨rfl, by simp⟩
      · right
        rw [e] at hm
        simp only [Option.some.injEq, Prod.mk.injEq] at hm
        have hI : Inv False st2 (if p = NULL then [] else p :: []) :=
          inv_alloc (inv_init st0 start length h0 h1 h2 h3 (fun hf => hf.elim)) h
        have hl : l1 = [] ∧ l2 = [] := by
          cases l1 with
          | nil =>
            simp only [List.nil_append, List.cons.injEq] at e1
            exact ⟨rfl, e1.2.symm⟩
          | cons a t => simp at e1
        obtain ⟨hl1, hl2⟩ := hl
        subst hl1 hl2
        have hR0b : Rep False (myinit st0 start length).2 ([] ++ ⟨hh, s, true⟩ :: [])
            (f1 ++ (hh + 8) :: f2) := by
          rw [← e1, ← e2]; exact hR0
        obtain ⟨hR1, -, hs0, -⟩ := create_chunk_hdr_spec false hR0b (fmt_props n2).1 hs
        rw [hm.2] at hR1 hs0
        refine Inv.strict hI (hR1.strengthen ?_)
        intro b hb hf
        simp only [List.nil_append, List.mem_cons, List.mem_singleton, List.not_mem_nil,
          or_false] at hb
        rcases hb with hb | hb
        · rw [hb] at hf; simp at hf
        · rw [hb]; exact hs0
    · exact Or.inr (inv_alloc ih h)
  | release p hprev hp ih =>
    rcases ih with ⟨-, e2⟩ | ih
    · rw [e2] at hp; simp at hp
    · exact Or.inr (inv_release ih hp)
  | resize p n fuel q st2 hprev hp h ih =>
    rcases ih with ⟨-, e2⟩ | ih
    · rw [e2] at hp; simp at hp
    · exact Or.inr (inv_resize ih hp h)

/-! ## Consecutive free blocks -/

theorem noAdj_chain (bs : List Blk) :
    NoAdjFree bs ↔ bs.Chain' (fun a b => ¬ (a.free = true ∧ b.free = true)) := by
  induction bs with
  | nil => simp [NoAdjFree]
  | cons a t ih =>
    cases t with
    | nil => simp [NoAdjFree]
    | cons b t2 =>
      rw [NoAdjFree, List.chain'_cons, ih]

theorem noAdj_split {l1 l2 : List Blk} {a : Blk} :
    NoAdjFree (l1 ++ a :: l2) ↔ NoAdjFree (l1 ++ [a]) ∧ NoAdjFree (a :: l2) := by
  simp only [noAdj_chain]
  exact List.chain'_split

theorem noAdj_snoc {l1 : List Blk} {a : Blk} :
    NoAdjFree (l1 ++ [a]) ↔
      NoAdjFree l1 ∧ ∀ x ∈ l1.getLast?, ¬ (x.free = true ∧ a.free = true) := by
  simp only [noAdj_chain]
  rw [List.chain'_append]
  simp

theorem noAdj_cons {l : List Blk} {a : Blk} :
    NoAdjFree (a :: l) ↔
      (∀ y ∈ l.head?, ¬ (a.free = true ∧ y.free = true)) ∧ NoAdjFree l := by
  simp only [noAdj_chain]
  exact List.chain'_cons'

/-- After `myfree` of a used block in a tiling without consecutive free blocks, the tiling
has consecutive free blocks exactly when the block before the released one is free. -/
theorem myfree_noAdj {st : State} {l1 l2 : List Blk} {fl : List Nat} {h s : Nat}
    (hR : Rep True st (l1 ++ ⟨h, s, false⟩ :: l2) fl)
    (hN : NoAdjFree (l1 ++ ⟨h, s, false⟩ :: l2)) :
    ∃ bs2 fl2, Rep True (myfree st (h + 24)) bs2 fl2 ∧
      (NoAdjFree bs2 ↔ ∀ x ∈ l1.getLast?, x.free = false) := by
  obtain ⟨hN1, hN2⟩ := noAdj_split.mp hN
  have hN1a := (noAdj_snoc.mp hN1).1
  have hN2a := (noAdj_cons.mp hN2).2
  rcases myfree_cases hR with ⟨hR1, hl⟩ | ⟨nh, t, l2b, f1, f2, e1, e2, -, hR1⟩
  · refine ⟨_, _, hR1, ?_⟩
    rw [noAdj_split, noAdj_snoc, noAdj_cons]
    have hhead : ∀ y ∈ l2.head?, ¬ (true = true ∧ y.free = true) := by
      rcases hl with hl | ⟨nh, t, g, l2b, hl, hs⟩
      · rw [hl]; simp
      · rw [hl]
        intro y hy
        simp only [List.head?_cons, Option.mem_def, Option.some.injEq] at hy
        rw [← hy]
        rintro ⟨-, hg⟩
        simp only at hg
        subst hg
        exact hs ((hR.ok ⟨nh, t, true⟩ (by rw [hl]; simp)).2.2 rfl trivial)
    constructor
    · rintro ⟨⟨-, hx⟩, -⟩ x hx1
      have := hx x hx1
      simpa using this
    · intro hx
      exact ⟨⟨hN1a, fun x hx1 => by simp [hx x hx1]⟩, hhead, hN2a⟩
  · subst e1
    refine ⟨_, _, hR1, ?_⟩
    rw [noAdj_split, noAdj_snoc, noAdj_cons]
    obtain ⟨hN3, hN4⟩ := noAdj_cons.mp hN2a
    constructor
    · rintro ⟨⟨-, hx⟩, -⟩ x hx1
      have := hx x hx1
      simpa using this
    · intro hx
      exact ⟨⟨hN1a, fun x hx1 => by simp [hx x hx1]⟩, hN3, hN4⟩

/-- A successful in-place shrink by `myrealloc` keeps a tiling free of consecutive free
blocks. -/
theorem shrink_noAdj {st : State} {l1 l2 : List Blk} {fl : List Nat} {h s : Nat}
    (hR : Rep True st (l1 ++ ⟨h, s, false⟩ :: l2) fl)
    (hN : NoAdjFree (l1 ++ ⟨h, s, false⟩ :: l2)) (n fuel : Nat) (st2 : State)
    (hlt : roundup n ALIGNMENT < s)
    (hm : myrealloc fuel st (h + 24) n = some (h + 24, st2)) :
    ∃ bs2 fl2, Rep True st2 bs2 fl2 ∧ NoAdjFree bs2 := by
  have hB : (⟨h, s, false⟩ : Blk) ∈ l1 ++ ⟨h, s, false⟩ :: l2 := by simp
  obtain ⟨hN1, hN2⟩ := noAdj_split.mp hN
  have hN2a := (noAdj_cons.mp hN2).2
  have hm2 := myrealloc_mono hm (fl.length + 1 + fuel) (by omega)
  by_cases h1 : 0 < n ∧ n ≤ 1073741824
  · rw [myrealloc_unfold hR hB n _ h1.1 h1.2, if_neg (by omega), if_pos hlt] at hm2
    by_cases c3 : (shrink_chunk st h (roundup n ALIGNMENT)).1 = true
    · rw [if_pos c3] at hm2
      simp only [Option.some.injEq, Prod.mk.injEq, true_and] at hm2
      rw [← hm2]
      by_cases c4 : s = shrinkWidth (roundup n ALIGNMENT)
      · have e : (shrink_chunk st h (roundup n ALIGNMENT)).2 =
            { st with mem := set_status st.mem h 1 } := by
          rw [shrink_chunk_eq, (hR.ok _ hB).1, if_pos c4]
        rw [e]
        exact ⟨_, fl, rep_set_used hR hB (by decide) (by decide), hN⟩
      · by_cases c5 : s < shrinkWidth (roundup n ALIGNMENT) + 48
        · rw [shrink_chunk_reject (roundup n ALIGNMENT) (hR.ok _ hB).1 c4 c5] at c3
          simp at c3
        · obtain ⟨-, -, -, hsp⟩ := shrink_chunk_spec hR (roundup n ALIGNMENT) (by omega)
          rcases hsp with ⟨hR1, hl⟩ | ⟨nh, t, l2b, f1, f2, e1, e2, -, hR1⟩
          · refine ⟨_, _, hR1, ?_⟩
            rw [noAdj_split, noAdj_cons, noAdj_cons]
            refine ⟨?_, by simp, ?_, hN2a⟩
            · rw [noAdj_snoc] at hN1 ⊢
              exact hN1
            · rcases hl with hl | ⟨nh, t, g, l2b, hl, hs⟩
              · rw [hl]; simp
              · rw [hl]
                intro y hy
                simp only [List.head?_cons, Option.mem_def, Option.some.injEq] at hy
                rw [← hy]
                rintro ⟨-, hg⟩
                simp only at hg
                subst hg
                exact hs ((hR.ok ⟨nh, t, true⟩ (by rw [hl]; simp)).2.2 rfl trivial)
          · subst e1
            refine ⟨_, _, hR1, ?_⟩
            rw [noAdj_split, noAdj_cons, noAdj_cons]
            obtain ⟨hN3, hN4⟩ := noAdj_cons.mp hN2a
            refine ⟨?_, by simp, hN3, hN4⟩
            rw [noAdj_snoc] at hN1 ⊢
            exact hN1
    · rw [if_neg c3, shrink_chunk_false (Bool.eq_false_iff.mpr c3)] at hm2
      rcases realloc_fallback_cases hR hB (roundup n ALIGNMENT) (roundup n ALIGNMENT)
        (fl.length + 1 + fuel) (by omega) (le_refl _) with e |
        ⟨hq, sq, k1, k2, f1, f2, stm, -, -, -, -, -, hne, -, -, -, e⟩
      · rw [e] at hm2
        simp only [Option.some.injEq, Prod.mk.injEq] at hm2
        omega
      · rw [e] at hm2
        simp only [Option.some.injEq, Prod.mk.injEq] at hm2
        omega
  · have e : myrealloc (fl.length + 1 + fuel) st (h + 24) n = some (0, st) := by
      have hBb := hR.blk hB
      simp only at hBb
      unfold myrealloc
      simp only [NULL, MAX_HEAP_SIZE]
      rw [if_neg (by omega)]
      by_cases c : n > 1073741824
      · rw [if_pos (by simpa using c)]
      · rw [if_neg (by simpa using c), if_pos (by omega)]
    rw [e] at hm2
    simp only [Option.some.injEq, Prod.mk.injEq] at hm2
    omega

/-- Two allocations of 8 bytes right after `myinit`, then the two releases in both orders:
releasing the second block first leaves one free block that spans the segment, releasing
the first block first leaves two consecutive free blocks. -/
theorem two_allocs_release (st0 : State) (seg L k : Nat) (h0 : seg ≠ NULL) (h1 : 121 ≤ L)
    (h2 : L < 4294967296 + 24) (h3 : seg + L < 18446744073709551616) (hk : 0 < k) :
    ∃ sa sab, mymalloc k (myinit st0 seg L).2 8 = some (seg + 24, sa) ∧
      mymalloc k sa 8 = some (seg + 72, sab) ∧
      Rep True (myfree (myfree sab (seg + 72)) (seg + 24)) [⟨seg, L - 24, true⟩] [seg + 8] ∧
      Rep True (myfree (myfree sab (seg + 24)) (seg + 72))
        [⟨seg, 24, true⟩, ⟨seg + 48, L - 72, true⟩] [seg + 56, seg + 8] := by
  have hfm : fmt 8 = 24 := by
    rw [fmt_eq (by norm_num)]
    rfl
  have hR0 : Rep False (myinit st0 seg L).2 [⟨seg, L - 24, true⟩] [seg + 8] :=
    myinit_rep st0 seg L h0 (by omega) h2 h3 (fun hx => hx.elim)
  have hm0 := @mymalloc_succ False (myinit st0 seg L).2 [] [] [] [] seg (L - 24) 8 k hR0
    (by norm_num) (by norm_num) (by simp) (by rw [hfm]; omega) (by simpa using hk)
  rw [hfm] at hm0
  obtain ⟨hRa0, -, hs0, -⟩ := @create_chunk_hdr_spec False (myinit st0 seg L).2 [] [] [] []
    seg (L - 24) 24 false hR0 (by omega) (by omega)
  obtain ⟨sa, hsa⟩ : ∃ sa, sa = create_chunk_hdr (myinit st0 seg L).2 seg 24 false := ⟨_, rfl⟩
  rw [← hsa] at hm0 hRa0 hs0
  have hRa : Rep True sa [⟨seg, 24, false⟩, ⟨seg + 48, L - 72, true⟩] [seg + 48 + 8] := by
    have hx := hRa0.strengthen (by
      intro b hb hf
      simp only [List.nil_append, List.mem_cons, List.mem_singleton, List.not_mem_nil,
        or_false] at hb
      rcases hb with hb | hb
      · rw [hb] at hf; simp at hf
      · rw [hb]; exact hs0)
    have e1 : ([] ++ (⟨seg, 24, false⟩ : Blk) :: ⟨seg + 24 + 24, L - 24 - 24 - 24, true⟩ :: [])
        = [⟨seg, 24, false⟩, ⟨seg + 48, L - 72, true⟩] := by
      simp only [List.nil_append, List.cons.injEq, Blk.mk.injEq, and_true, true_and]
      omega
    have e2 : ((seg + 24 + 24 + 8) :: ([] ++ []) : List Nat) = [seg + 48 + 8] := by
      simp only [List.append_nil, List.cons.injEq, and_true]
    rw [e1, e2] at hx
    exact hx
  have hm1 := @mymalloc_succ True sa [⟨seg, 24, false⟩] [] [] [] (seg + 48) (L - 72) 8 k hRa
    (by norm_num) (by norm_num) (by simp) (by rw [hfm]; omega) (by simpa using hk)
  rw [hfm, show seg + 48 + 24 = seg + 72 by omega] at hm1
  obtain ⟨hRab0, -⟩ := @create_chunk_hdr_spec True sa [⟨seg, 24, false⟩] [] [] []
    (seg + 48) (L - 72) 24 false hRa (by omega) (by omega)
  obtain ⟨sab, hsab⟩ : ∃ sab, sab = create_chunk_hdr sa (seg + 48) 24 false := ⟨_, rfl⟩
  rw [← hsab] at hm1 hRab0
  have hRab : Rep True sab
      [⟨seg, 24, false⟩, ⟨seg + 48, 24, false⟩, ⟨seg + 48 + 24 + 24, L - 120, true⟩]
      [seg + 48 + 24 + 24 + 8] := by
    have e1 : ([(⟨seg, 24, false⟩ : Blk)] ++ ⟨seg + 48, 24, false⟩ ::
        ⟨seg + 48 + 24 + 24, L - 72 - 24 - 24, true⟩ :: [])
        = [⟨seg, 24, false⟩, ⟨seg + 48, 24, false⟩, ⟨seg + 48 + 24 + 24, L - 120, true⟩] := by
      simp only [List.singleton_append, List.cons.injEq, Blk.mk.injEq, and_true, true_and]
      omega
    rw [e1] at hRab0
    exact hRab0
  refine ⟨sa, sab, hm0, hm1, ?_, ?_⟩
  · -- the second block first
    have hst : hstatus sab.mem (seg + 48 + 24 + 24) = 0 :=
      (hRab.ok ⟨seg + 48 + 24 + 24, L - 120, true⟩ (by simp)).2.2 rfl trivial
    have hj1 := (@myfree_join True sab [⟨seg, 24, false⟩] [] [] [] (seg + 48) 24
      (seg + 48 + 24 + 24) (L - 120) true hRab hst).1
    have hst2 : hstatus (myfree sab (seg + 48 + 24)).mem (seg + 48) = 0 :=
      (hj1.ok ⟨seg + 48, 24 + (L - 120) + 24, true⟩ (by simp)).2.2 rfl trivial
    have hj2 := (@myfree_join True (myfree sab (seg + 48 + 24)) [] [] [] [] seg 24
      (seg + 48) (24 + (L - 120) + 24) true hj1 hst2).1
    have e1 : ([] ++ (⟨seg, 24 + (24 + (L - 120) + 24) + 24, true⟩ : Blk) :: [])
        = [⟨seg, L - 24, true⟩] := by
      simp only [List.nil_append, List.cons.injEq, Blk.mk.injEq, and_true, true_and]
      omega
    rw [e1, show seg + 48 + 24 = seg + 72 by omega] at hj2
    exact hj2
  · -- the first block first
    have hst : hstatus sab.mem (seg + 48) ≠ 0 :=
      (hRab.ok ⟨seg + 48, 24, false⟩ (by simp)).2.1 rfl
    have hk1 := (@myfree_skip True sab [] [⟨seg + 48 + 24 + 24, L - 120, true⟩]
      [seg + 48 + 24 + 24 + 8] seg 24 (seg + 48) 24 false hRab hst).2
    have hst2 : hstatus (myfree sab (seg + 24)).mem (seg + 48 + 24 + 24) = 0 :=
      (hk1.ok ⟨seg + 48 + 24 + 24, L - 120, true⟩ (by simp)).2.2 rfl trivial
    have hj2 := (@myfree_join True (myfree sab (seg + 24)) [⟨seg, 24, true⟩] [] [seg + 8] []
      (seg + 48) 24 (seg + 48 + 24 + 24) (L - 120) true hk1 hst2).1
    have e1 : ([(⟨seg, 24, true⟩ : Blk)] ++ ⟨seg + 48, 24 + (L - 120) + 24, true⟩ :: [])
        = [⟨seg, 24, true⟩, ⟨seg + 48, L - 72, true⟩] := by
      simp only [List.singleton_append, List.cons.injEq, Blk.mk.injEq, and_true, true_and]
      omega
    have e2 : ((seg + 48 + 8) :: ([seg + 8] ++ []) : List Nat) = [seg + 56, seg + 8] := by
      simp only [List.append_nil, List.cons.injEq, and_true]
    rw [e1, e2, show seg + 48 + 24 = seg + 72 by omega] at hj2
    exact hj2

/-! ## Pointers that `myfree` and `myrealloc` do not check -/

/-- With an old pointer that is `NULL`, below `segment_begin` or strictly above `segment_end`,
`myrealloc` is `mymalloc`. -/
theorem myrealloc_foreign (st : State) (p n fuel : Nat)
    (h : p = NULL ∨ p < st.segment_begin ∨ st.segment_end < p) :
    myrealloc fuel st p n = mymalloc fuel st n := by
  unfold myrealloc
  rw [if_pos]
  rcases h with h | h | h
  · exact Or.inr (Or.inr h)
  · exact Or.inl h
  · exact Or.inr (Or.inl h)

/-- A node whose `next` field holds the node itself starts no list that ends in `NULL`. -/
theorem dll_self_loop {m : Mem} {c : Nat} (hc : nnext m c = c) (h0 : c ≠ 0) :
    ∀ {l : List Nat} {p : Nat}, ¬ dll m p c l 0 := by
  intro l
  induction l with
  | nil =>
    intro p hd
    exact h0 hd
  | cons n t ih =>
    intro p hd
    obtain ⟨e, -, -, ht⟩ := hd
    rw [← e, hc] at ht
    exact ih ht

/-- A second release of a free block whose node is the head of the free list and that is
not followed by a free block: the head stays, and its `next` field now holds the head. -/
theorem double_release {S : Prop} {st : State} {l1 l2 : List Blk} {fl : List Nat} {h s : Nat}
    (hR : Rep S st (l1 ++ ⟨h, s, true⟩ :: l2) fl) (hhead : st.f_start = h + 8)
    (hl : l2 = [] ∨ ∃ nh t l2b, l2 = ⟨nh, t, false⟩ :: l2b) :
    (myfree st (h + 24)).f_start = h + 8 ∧
    nnext (myfree st (h + 24)).mem (h + 8) = h + 8 ∧
    nnext st.mem (h + 8) ≠ h + 8 := by
  have hB : (⟨h, s, true⟩ : Blk) ∈ l1 ++ ⟨h, s, true⟩ :: l2 := by simp
  have hBb := hR.blk hB
  simp only at hBb
  have hsz : hsize st.mem h = s := (hR.ok _ hB).1
  have h64 := hR.lt64
  obtain ⟨st1, hst1⟩ : ∃ st1, st1 = add_node { st with mem := set_status st.mem h 0 } (h + 8) :=
    ⟨_, rfl⟩
  have hfr : ∀ x, (x < h + 4 ∨ h + 24 ≤ x) → st1.mem x = st.mem x := by
    intro x hx
    rw [hst1, add_node_frame _ _ _ (by omega) (by omega)
      (by right; simp only; rw [hhead]; omega)]
    simp only [set_status]
    exact wr_out (by omega)
  have hseg : st1.segment_end = st.segment_end := by
    rw [hst1]; exact (add_node_seg _ _).2
  have hf1 : st1.f_start = h + 8 := by
    rw [hst1]; exact add_node_head _ _ (by omega)
  have hsz1 : hsize st1.mem h = s := by
    rw [← hsz]
    exact rd_congr (fun x hx1 hx2 => hfr x (by omega))
  have hmf : merge_free st1 h = st1 := by
    unfold merge_free
    simp only [get_next_hdr, sizeof_header, sizeof_prev_next]
    rw [hsz1, hseg]
    rcases hl with hl | ⟨nh, t, l2b, hl⟩
    · subst hl
      have hc : h + 24 + s = st.segment_end := (contig_split hR.contig).2
      rw [if_pos (by omega)]
    · subst hl
      have hNm : (⟨nh, t, false⟩ : Blk) ∈ l1 ++ ⟨h, s, true⟩ :: ⟨nh, t, false⟩ :: l2b := by simp
      have hnh : nh = h + 24 + s := (contig_split hR.contig).2.1
      have hNb := hR.blk hNm
      simp only at hNb
      have hs0 : hstatus st.mem nh ≠ 0 := (hR.ok _ hNm).2.1 rfl
      have hsn : hsize st.mem nh = t := (hR.ok _ hNm).1
      have e1 : hsize st1.mem (h + s + 8 + 16) = t := by
        rw [show h + s + 8 + 16 = nh by omega, ← hsn]
        exact rd_congr (fun x hx1 hx2 => hfr x (by omega))
      have e2 : hstatus st1.mem (h + s + 8 + 16) = hstatus st.mem nh := by
        rw [show h + s + 8 + 16 = nh by omega]
        exact rd_congr (fun x hx1 hx2 => hfr x (by omega))
      rw [e1, e2, if_neg (by omega), if_pos (Or.inr hs0)]
  have hmy : myfree st (h + 24) = st1 := by
    rw [myfree_unfold, ← hst1, hmf]
  have hnx : nnext st1.mem (h + 8) = h + 8 := by
    rw [hst1]
    unfold add_node
    simp only [NULL]
    rw [if_neg (by omega),
      if_neg (by intro hc; have hc2 : st.f_start = 0 := hc; omega)]
    simp only [nnext, set_prev, set_next, hhead]
    rw [rd_wr_disj (by omega), rd_wr_disj (by omega), rd_wr_same8 (by omega)]
  have hold : nnext st.mem (h + 8) ≠ h + 8 := by
    have hd := hR.list
    rw [hhead] at hd
    cases fl with
    | nil =>
      simp only [dll] at hd
      omega
    | cons n t =>
      obtain ⟨e, hn0, -, ht⟩ := hd
      have hnd := hR.nodup
      rw [← e] at ht hnd
      rcases dll_start_mem ht with c | c
      · omega
      · intro hc
        rw [hc] at c
        exact (List.nodup_cons.mp hnd).1 c
  rw [hmy]
  exact ⟨hf1, hnx, hold⟩

/-! ## The segment bounds and the last block -/

/-- The operations never change the segment bounds that `myinit` has set. -/
theorem reach_bounds {st0 : State} {start length : Nat} (h0 : start ≠ 0)
    (h1 : 24 ≤ length) (h2 : length < 4294967296 + 24)
    (h3 : start + length < 18446744073709551616)
    {st : State} {A : List Nat} (hr : Reach st0 start length st A) :
    st.segment_begin = start ∧ st.segment_end = start + length := by
  induction hr with
  | init =>
    unfold myinit
    simp only [NULL]
    rw [Nat.mod_eq_of_lt h3, if_neg (by omega), if_neg (by omega)]
    exact ⟨rfl, rfl⟩
  | alloc n fuel p st2 hprev h ih =>
    obtain ⟨bs, fl, hR, -, -, -⟩ := reach_inv (S := False) h0 h1 h2 h3 (fun hf => hf.elim) hprev
    have hm := mymalloc_mono h (fuel + fl.length + 1) (by omega)
    rcases mymalloc_rep hR n (fuel + fl.length + 1) (by omega) with e |
      ⟨hq, sq, bs2, fl2, e, -, -, -, -, hM, -, -⟩
    · rw [e] at hm
      simp only [Option.some.injEq, Prod.mk.injEq] at hm
      rw [← hm.2]
      exact ih
    · rw [e] at hm
      simp only [Option.some.injEq, Prod.mk.injEq] at hm
      rw [← hm.2, hM.segb, hM.sege]
      exact ih
  | release p hprev hp ih =>
    obtain ⟨bs, fl, hR, -, -, hP⟩ := reach_inv (S := False) h0 h1 h2 h3 (fun hf => hf.elim) hprev
    obtain ⟨b, hb1, hb2, hb3⟩ := hP p hp
    obtain ⟨h, s, f⟩ := b
    simp only at hb2 hb3
    subst hb2 hb3
    obtain ⟨l1, l2, el⟩ := List.append_of_mem hb1
    subst el
    obtain ⟨bs2, fl2, s2, hM, -⟩ := myfree_moved hR
    rw [hM.segb, hM.sege]
    exact ih
  | resize p n fuel q st2 hprev hp h ih =>
    obtain ⟨bs, fl, hR, hU, -, hP⟩ := reach_inv (S := False) h0 h1 h2 h3 (fun hf => hf.elim) hprev
    obtain ⟨b, hb1, hb2, hb3⟩ := hP p hp
    obtain ⟨hh, s, f⟩ := b
    simp only at hb2 hb3
    subst hb2 hb3
    have hm := myrealloc_mono h (fuel + fl.length + 1) (by omega)
    obtain ⟨q2, st3, e, hc⟩ := myrealloc_rep hR hU hb1 n (fuel + fl.length + 1) (by omega)
    rw [e] at hm
    simp only [Option.some.injEq, Prod.mk.injEq] at hm
    rw [← hm.2]
    rcases hc with ⟨-, e2⟩ | ⟨-, bs2, fl2, w, hM, -⟩ | ⟨bs2, fl2, hq, w, -, -, e3, e4, -⟩
    · rw [e2]; exact ih
    · rw [hM.segb, hM.sege]; exact ih
    · rw [e3, e4]; exact ih

/-- In a represented state in which no used block is the last one and whose segment is not
empty, the last block of the tiling is free: its node is in the free list, and the head of
the free list is not `NULL`. -/
theorem last_block_free {S : Prop} {st : State} {bs : List Blk} {fl : List Nat}
    (hR : Rep S st bs fl) (hU : UsedNotLast st.segment_end bs)
    (hne : st.segment_begin < st.segment_end) :
    (∃ l b, bs = l ++ [b] ∧ b.hdr + 24 + b.size = st.segment_end ∧ b.free = true ∧
      b.hdr + 8 ∈ fl) ∧ st.f_start ≠ 0 := by
  have hbs : bs ≠ [] := by
    intro e
    have hc := hR.contig
    rw [e] at hc
    simp only [Contig] at hc
    omega
  obtain ⟨l, b, e⟩ : ∃ l b, bs = l ++ [b] :=
    ⟨bs.dropLast, bs.getLast hbs, (List.dropLast_append_getLast hbs).symm⟩
  subst e
  have hb : b ∈ l ++ [b] := by simp
  have hend : b.hdr + 24 + b.size = st.segment_end := (contig_split hR.contig).2
  have hf : b.free = true := by
    cases hx : b.free with
    | true => rfl
    | false =>
      have := hU b hb hx
      omega
  have hm : b.hdr + 8 ∈ fl := (hR.mem _).mpr ⟨b, hb, hf, rfl⟩
  refine ⟨⟨l, b, rfl, hend, hf, hm⟩, ?_⟩
  have hd := hR.list
  cases fl with
  | nil => simp at hm
  | cons n t =>
    obtain ⟨e, hn0, -⟩ := hd
    rw [e]
    exact hn0
/-! ## The claims -/

/-- C1: tiling invariant.  In every state reachable from a successful
`myinit st0 start length` with `24 ≤ length < 2 ^ 32` (the segment lying in the 64-bit address
space) by `mymalloc`, `myfree` and `myrealloc` calls on currently allocated addresses, walking
`get_next_hdr` from `segment_begin` visits a finite list of headers `hs`, each block
(8-byte header, 16-byte node, `size` bytes) is followed immediately by the next header, the
blocks are pairwise disjoint, and the walk ends exactly at `segment_end`; and on the path
that any further `mymalloc` or `myrealloc` (of a currently allocated address) takes from
that state no subtraction of sizes underflows. -/
theorem C1_tiling_invariant (st0 : State) (start length : Nat) (st : State) (A : List Nat)
    (hinit : (myinit st0 start length).1 = true) (h1 : 24 ≤ length) (h2 : length < 4294967296)
    (h3 : start + length < 18446744073709551616) (hr : Reach st0 start length st A) :
    (∃ hs : List Nat, Walk st.mem st.segment_begin st.segment_end hs ∧
      hs.Pairwise (fun a b => get_next_hdr st.mem a ≤ b)) ∧
    (∀ n fuel, mymalloc_exact fuel st n) ∧
    (∀ p ∈ A, ∀ n fuel, myrealloc_exact fuel st p n) := by
  have h0 : start ≠ 0 := myinit_true_start hinit
  obtain ⟨bs, fl, hR, hU, hA, hP⟩ :=
    reach_inv (S := False) h0 h1 (by omega) h3 (fun hf => hf.elim) hr
  refine ⟨⟨bs.map (fun b => b.hdr), walk_of_contig hR.contig (fun b hb => (hR.ok b hb).1),
    pairwise_of_contig hR.contig (fun b hb => (hR.ok b hb).1)⟩,
    fun n fuel => mymalloc_exact_all fuel st n, ?_⟩
  intro p hp n fuel
  obtain ⟨b, hb1, hb2, hb3⟩ := hP p hp
  obtain ⟨h, s, f⟩ := b
  simp only at hb2 hb3
  subst hb2 hb3
  exact myrealloc_exact_used hR hU hA hb1 n fuel

/-- C1 witness: the state after `myinit` of a 200-byte segment at 1000 and `mymalloc(8)`,
which returns 1024. -/
theorem C1_tiling_invariant_witness :
    ((myinit blank 1000 200).1 = true ∧ 24 ≤ 200 ∧ 200 < 4294967296 ∧
      1000 + 200 < 18446744073709551616 ∧
      Reach blank 1000 200 (create_chunk_hdr (myinit blank 1000 200).2 1000 24 false) [1024]) ∧
    ((∃ hs : List Nat, Walk (create_chunk_hdr (myinit blank 1000 200).2 1000 24 false).mem
        (create_chunk_hdr (myinit blank 1000 200).2 1000 24 false).segment_begin
        (create_chunk_hdr (myinit blank 1000 200).2 1000 24 false).segment_end hs ∧
      hs.Pairwise (fun a b =>
        get_next_hdr (create_chunk_hdr (myinit blank 1000 200).2 1000 24 false).mem a ≤ b)) ∧
    (∀ n fuel, mymalloc_exact fuel (create_chunk_hdr (myinit blank 1000 200).2 1000 24 false) n) ∧
    (∀ p ∈ [1024], ∀ n fuel,
      myrealloc_exact fuel (create_chunk_hdr (myinit blank 1000 200).2 1000 24 false) p n)) :=
  ⟨⟨by decide, by decide, by decide, by decide,
      Reach.alloc 8 5 1024 _ Reach.init (by rfl)⟩,
    C1_tiling_invariant blank 1000 200 _ [1024] (by decide) (by decide) (by decide) (by decide)
      (Reach.alloc 8 5 1024 _ Reach.init (by rfl))⟩

/-- C2: the free-list invariant is preserved by every public operation.  In a reachable state
(so that "currently allocated" has a meaning) that is represented with the strict duality
between status and list membership (`Rep True`: the free list from `f_start` is a doubly
linked list without repetition, its members are exactly the nodes of the blocks with status
`0`), the state after `mymalloc`, after `myfree` of a currently allocated address and after
`myrealloc` of a currently allocated address is again represented that way; and with fuel
above the length of the free list `mymalloc` and `myrealloc` do return. -/
theorem C2_free_list_preserved (st0 : State) (start length : Nat) (st : State) (A : List Nat)
    (bs : List Blk) (fl : List Nat)
    (hinit : (myinit st0 start length).1 = true) (h1 : 24 ≤ length) (h2 : length < 4294967296)
    (h3 : start + length < 18446744073709551616) (hr : Reach st0 start length st A)
    (hR : Rep True st bs fl) :
    (∀ n fuel p st2, mymalloc fuel st n = some (p, st2) → ∃ bs2 fl2, Rep True st2 bs2 fl2) ∧
    (∀ p ∈ A, ∃ bs2 fl2, Rep True (myfree st p) bs2 fl2) ∧
    (∀ p ∈ A, ∀ n fuel q st2, myrealloc fuel st p n = some (q, st2) →
      ∃ bs2 fl2, Rep True st2 bs2 fl2) ∧
    (∀ n fuel, fl.length < fuel → (mymalloc fuel st n).isSome = true ∧
      ∀ p ∈ A, (myrealloc fuel st p n).isSome = true) := by
  have h0 : start ≠ 0 := myinit_true_start hinit
  have hI : Inv True st A :=
    (reach_inv (S := False) h0 h1 (by omega) h3 (fun hf => hf.elim) hr).strict hR
  refine ⟨?_, ?_, ?_, ?_⟩
  · intro n fuel p st2 h
    obtain ⟨bs2, fl2, hR2, -⟩ := inv_alloc hI h
    exact ⟨bs2, fl2, hR2⟩
  · intro p hp
    obtain ⟨bs2, fl2, hR2, -⟩ := inv_release hI hp
    exact ⟨bs2, fl2, hR2⟩
  · intro p hp n fuel q st2 h
    obtain ⟨bs2, fl2, hR2, -⟩ := inv_resize hI hp h
    exact ⟨bs2, fl2, hR2⟩
  · intro n fuel hfuel
    obtain ⟨bs2, fl2, hR2, hU, hA, hP⟩ := hI
    obtain ⟨e1, e2⟩ := hR2.unique hR
    subst e1 e2
    constructor
    · rcases mymalloc_rep hR n fuel hfuel with e | ⟨h, s, b3, f3, e, -⟩
      · rw [e]; rfl
      · rw [e]; rfl
    · intro p hp
      obtain ⟨b, hb1, hb2, hb3⟩ := hP p hp
      obtain ⟨h, s, f⟩ := b
      simp only at hb2 hb3
      subst hb2 hb3
      obtain ⟨q, st2, e, -⟩ := myrealloc_rep hR hU hb1 n fuel hfuel
      rw [e]; rfl

/-- The fresh 200-byte heap at 1000 is represented by one free block. -/
theorem heap200_rep : Rep True heap200 [⟨1000, 176, true⟩] [1008] :=
  myinit_rep blank 1000 200 (by decide) (by decide) (by decide) (by decide) (fun _ => by decide)

/-- After `mymalloc(8)` the heap is a used block of 24 bytes followed by a free block. -/
theorem heap200a_rep : Rep True heap200a [⟨1000, 24, false⟩, ⟨1048, 128, true⟩] [1056] :=
  (@create_chunk_hdr_spec True heap200 [] [] [] [] 1000 176 24 false heap200_rep
    (by decide) (by decide)).1

theorem heap200a_reach : Reach blank 1000 200 heap200a [1024] :=
  Reach.alloc 8 5 1024 _ Reach.init (by rfl)

/-- C2 witness: the state after `myinit` of a 200-byte segment at 1000 and `mymalloc(8)`. -/
theorem C2_free_list_preserved_witness :
    ((myinit blank 1000 200).1 = true ∧ 24 ≤ 200 ∧ 200 < 4294967296 ∧
      1000 + 200 < 18446744073709551616 ∧ Reach blank 1000 200 heap200a [1024] ∧
      Rep True heap200a [⟨1000, 24, false⟩, ⟨1048, 128, true⟩] [1056]) ∧
    ((∀ n fuel p st2, mymalloc fuel heap200a n = some (p, st2) →
        ∃ bs2 fl2, Rep True st2 bs2 fl2) ∧
    (∀ p ∈ [1024], ∃ bs2 fl2, Rep True (myfree heap200a p) bs2 fl2) ∧
    (∀ p ∈ [1024], ∀ n fuel q st2, myrealloc fuel heap200a p n = some (q, st2) →
      ∃ bs2 fl2, Rep True st2 bs2 fl2) ∧
    (∀ n fuel, [1056].length < fuel → (mymalloc fuel heap200a n).isSome = true ∧
      ∀ p ∈ [1024], (myrealloc fuel heap200a p n).isSome = true)) :=
  ⟨⟨by decide, by decide, by decide, by decide, heap200a_reach, heap200a_rep⟩,
    C2_free_list_preserved blank 1000 200 heap200a [1024] _ _ (by decide) (by decide)
      (by decide) (by decide) heap200a_reach heap200a_rep⟩

/-- C3: first-fit result of `allocate`.  When the free list anchored at `f_start` is the list
of nodes `fl` (in order from the head) and `r` is the request rounded up to a multiple of 8 and
promoted to 24, `mymalloc` returns: `NULL` when the request is `0` or above `2 ^ 30`; otherwise
the payload address (node address + 16) of the first node of `fl` whose block has a size
field exceeding `r + 24`, and `NULL` when there is no such node. -/
theorem C3_first_fit (st : State) (fl : List Nat) (n fuel : Nat)
    (hl : dll st.mem 0 st.f_start fl 0) (hfuel : fl.length < fuel) :
    ∃ st2, mymalloc fuel st n = some
      (if n = 0 ∨ n > 1073741824 then NULL
       else match fl.find? (fun x => decide (hsize st.mem (x - 8) > roundedRequest n + 24)) with
         | none => NULL
         | some nd => nd + 16, st2) := by
  by_cases h1 : n = 0 ∨ n > 1073741824
  · refine ⟨st, ?_⟩
    rw [if_pos h1]
    unfold mymalloc
    rw [if_pos (by simp; omega)]
  · rw [if_neg h1]
    have hr : roundedRequest n = fmt n := by
      rw [fmt_eq (by omega)]; rfl
    rw [hr]
    by_cases hf : st.f_start = 0
    · refine ⟨st, ?_⟩
      have hnil : fl = [] := by
        cases fl with
        | nil => rfl
        | cons k u => exact absurd (hl.1 ▸ hf) hl.2.1
      subst hnil
      unfold mymalloc
      simp only [NULL]
      rw [if_neg (by simp; omega), if_pos hf]
      rfl
    · rw [mymalloc_unfold (by omega) (by omega) hf (malloc_scan_find hl fuel hfuel)]
      cases hfind : fl.find? (fun x => decide (hsize st.mem (x - 8) > fmt n + 24)) with
      | none => exact ⟨st, by simp [NULL]⟩
      | some nd =>
        have hnd : nd ∈ fl := List.mem_of_find?_eq_some hfind
        have hnz : nd ≠ 0 := dll_ne_zero hl nd hnd
        refine ⟨create_chunk_hdr st (nd - 8) (fmt n) false, ?_⟩
        simp [hnz]

/-- C3 witness: on the state after `myinit` of a 200-byte segment at address 1000 the list is
the single node 1008 and a request of 8 bytes returns the payload address 1024. -/
theorem C3_first_fit_witness :
    dll (myinit blank 1000 200).2.mem 0 (myinit blank 1000 200).2.f_start [1008] 0 ∧
    [1008].length < 5 ∧
    ∃ st2, mymalloc 5 (myinit blank 1000 200).2 8 = some
      (if 8 = 0 ∨ 8 > 1073741824 then NULL
       else match [1008].find?
          (fun x => decide (hsize (myinit blank 1000 200).2.mem (x - 8) > roundedRequest 8 + 24)) with
         | none => NULL
         | some nd => nd + 16, st2) :=
  ⟨by decide, by decide, C3_first_fit (myinit blank 1000 200).2 [1008] 8 5 (by decide) (by decide)⟩

/-- C4: split postcondition of `allocate`.  When `mymalloc(n)` succeeds on a represented
state it has chosen a free block `B` (header `h`, size `s`, node `h + 8` in the free list
`f1 ++ (h + 8) :: f2`) and returns `h + 24`; with `r` the request rounded up to a multiple
of 8 and promoted to 24 (`n ≤ r`), afterwards `B` has status 1 (used) and size `r`, the
header at `h + 24 + r` has status 0 and size `s - r - 24`, the node of that new block is the
head of the free list, followed by the former members other than `B`'s node in their former
order, and every byte that changed lies in `B`'s header or node, in the new header or node,
or in the node of `B`'s predecessor or successor in the former list or of the former head. -/
theorem C4_split_postcondition {S : Prop} (st : State) (bs : List Blk) (fl : List Nat)
    (n fuel p : Nat) (st2 : State) (hR : Rep S st bs fl) (hfuel : fl.length < fuel)
    (hm : mymalloc fuel st n = some (p, st2)) (hp : p ≠ NULL) :
    ∃ h s f1 f2, p = h + 24 ∧ (⟨h, s, true⟩ : Blk) ∈ bs ∧ fl = f1 ++ (h + 8) :: f2 ∧
      n ≤ roundedRequest n ∧ roundedRequest n % 8 = 0 ∧ roundedRequest n + 24 < s ∧
      hstatus st2.mem h = 1 ∧ hsize st2.mem h = roundedRequest n ∧
      hstatus st2.mem (h + 24 + roundedRequest n) = 0 ∧
      hsize st2.mem (h + 24 + roundedRequest n) = s - roundedRequest n - 24 ∧
      st2.f_start = h + 24 + roundedRequest n + 8 ∧
      dll st2.mem 0 st2.f_start ((h + 24 + roundedRequest n + 8) :: (f1 ++ f2)) 0 ∧
      (∀ x, st2.mem x ≠ st.mem x →
        (h ≤ x ∧ x < h + 24) ∨
        (h + 24 + roundedRequest n ≤ x ∧ x < h + 24 + roundedRequest n + 24) ∨
        ∃ nb, (nb = lastOr f1 0 ∨ nb = headOr f2 ∨ nb = st.f_start) ∧ nb ≠ 0 ∧
          nb ≤ x ∧ x < nb + 16) := by
  rcases mymalloc_cases hR n fuel hfuel with e | ⟨h, s, l1, l2, f1, f2, e1, e2, n1, n2, hs, -, e⟩
  · rw [e] at hm
    simp only [Option.some.injEq, Prod.mk.injEq] at hm
    exact absurd hm.1.symm hp
  · rw [e] at hm
    simp only [Option.some.injEq, Prod.mk.injEq] at hm
    obtain ⟨hm1, hm2⟩ := hm
    subst hm1 hm2 e1 e2
    have hr : roundedRequest n = fmt n := by
      rw [fmt_eq n2]; rfl
    rw [hr]
    have hfp := fmt_props n2
    obtain ⟨hR2, -, hs0, hs1⟩ := create_chunk_hdr_spec false hR hfp.1 hs
    have hd := hR2.list
    have hnew : (⟨h + 24 + fmt n, s - fmt n - 24, true⟩ : Blk) ∈
        l1 ++ ⟨h, fmt n, false⟩ :: ⟨h + 24 + fmt n, s - fmt n - 24, true⟩ :: l2 := by simp
    have hold : (⟨h, fmt n, false⟩ : Blk) ∈
        l1 ++ ⟨h, fmt n, false⟩ :: ⟨h + 24 + fmt n, s - fmt n - 24, true⟩ :: l2 := by simp
    refine ⟨h, s, f1, f2, rfl, by simp, rfl, hfp.2.2.1, hfp.2.1, hs, hs1, (hR2.ok _ hold).1,
      hs0, (hR2.ok _ hnew).1, hd.1, hd, ?_⟩
    intro x hx
    by_contra hcon
    apply hx
    obtain ⟨mid, hd1, hd2⟩ := dll_append.mp hR.list
    obtain ⟨-, -, hp0, hn0⟩ := hd2
    have hn0b := dll_head0 hn0
    apply create_chunk_hdr_frame st h (fmt n) false x hfp.1
    · by_contra hc2; exact hcon (Or.inl (by omega))
    · by_contra hc2; exact hcon (Or.inr (Or.inl (by omega)))
    · rw [hp0]
      by_contra hc2
      exact hcon (Or.inr (Or.inr ⟨lastOr f1 0, Or.inl rfl, by omega, by omega, by omega⟩))
    · rw [hn0b]
      by_contra hc2
      exact hcon (Or.inr (Or.inr ⟨headOr f2, Or.inr (Or.inl rfl), by omega, by omega, by omega⟩))
    · by_contra hc2
      exact hcon (Or.inr (Or.inr ⟨st.f_start, Or.inr (Or.inr rfl), by omega, by omega, by omega⟩))

/-- C4 witness: `mymalloc(8)` on the fresh 200-byte heap at 1000 returns 1024. -/
theorem C4_split_postcondition_witness :
    (Rep True heap200 [⟨1000, 176, true⟩] [1008] ∧ [1008].length < 5 ∧
      mymalloc 5 heap200 8 = some (1024, heap200a) ∧ 1024 ≠ NULL) ∧
    ∃ h s f1 f2, 1024 = h + 24 ∧ (⟨h, s, true⟩ : Blk) ∈ [(⟨1000, 176, true⟩ : Blk)] ∧
      [1008] = f1 ++ (h + 8) :: f2 ∧
      8 ≤ roundedRequest 8 ∧ roundedRequest 8 % 8 = 0 ∧ roundedRequest 8 + 24 < s ∧
      hstatus heap200a.mem h = 1 ∧ hsize heap200a.mem h = roundedRequest 8 ∧
      hstatus heap200a.mem (h + 24 + roundedRequest 8) = 0 ∧
      hsize heap200a.mem (h + 24 + roundedRequest 8) = s - roundedRequest 8 - 24 ∧
      heap200a.f_start = h + 24 + roundedRequest 8 + 8 ∧
      dll heap200a.mem 0 heap200a.f_start ((h + 24 + roundedRequest 8 + 8) :: (f1 ++ f2)) 0 ∧
      (∀ x, heap200a.mem x ≠ heap200.mem x →
        (h ≤ x ∧ x < h + 24) ∨
        (h + 24 + roundedRequest 8 ≤ x ∧ x < h + 24 + roundedRequest 8 + 24) ∨
        ∃ nb, (nb = lastOr f1 0 ∨ nb = headOr f2 ∨ nb = heap200.f_start) ∧ nb ≠ 0 ∧
          nb ≤ x ∧ x < nb + 16) :=
  ⟨⟨heap200_rep, by decide, by rfl, by decide⟩,
    C4_split_postcondition heap200 [⟨1000, 176, true⟩] [1008] 8 5 1024 heap200a heap200_rep
      (by decide) (by rfl) (by decide)⟩

/-- C5: release postcondition.  For a used block with header `h` and size `s` of a state
represented with the strict duality, `myfree(h + 24)` sets the status of `h` to 0 and makes
`h + 8` the head of the free list, the former list linked behind it; if the block that
follows `h` is free (size `t`), the size of `h` becomes `s + t + 24` and the node of that block
is no longer in the list; if the block that follows is used, or `h` is the last block, the
size of `h` is unchanged, the list is the former list behind `h + 8`, and the size and status
of every other block are unchanged. -/
theorem C5_release_postcondition (st : State) (bs : List Blk) (fl : List Nat) (h s : Nat)
    (hR : Rep True st bs fl) (hB : (⟨h, s, false⟩ : Blk) ∈ bs) :
    hstatus (myfree st (h + 24)).mem h = 0 ∧ (myfree st (h + 24)).f_start = h + 8 ∧
    (∀ t, (⟨h + 24 + s, t, true⟩ : Blk) ∈ bs →
      ∃ f1 f2, fl = f1 ++ (h + 24 + s + 8) :: f2 ∧
        hsize (myfree st (h + 24)).mem h = s + t + 24 ∧
        dll (myfree st (h + 24)).mem 0 (h + 8) ((h + 8) :: (f1 ++ f2)) 0) ∧
    ((h + 24 + s = st.segment_end ∨ ∃ t, (⟨h + 24 + s, t, false⟩ : Blk) ∈ bs) →
      hsize (myfree st (h + 24)).mem h = s ∧
      dll (myfree st (h + 24)).mem 0 (h + 8) ((h + 8) :: fl) 0 ∧
      ∀ b ∈ bs, b.hdr ≠ h →
        hsize (myfree st (h + 24)).mem b.hdr = hsize st.mem b.hdr ∧
        hstatus (myfree st (h + 24)).mem b.hdr = hstatus st.mem b.hdr) := by
  obtain ⟨l1, l2, el⟩ := List.append_of_mem hB
  subst el
  have hBb := hR.blk hB
  simp only at hBb
  -- what the three outcomes share
  have hcommon : ∀ (bs2 : List Blk) (fl2 : List Nat) (s2 : Nat),
      Rep True (myfree st (h + 24)) bs2 ((h + 8) :: fl2) → (⟨h, s2, true⟩ : Blk) ∈ bs2 →
      hstatus (myfree st (h + 24)).mem h = 0 ∧ (myfree st (h + 24)).f_start = h + 8 ∧
      hsize (myfree st (h + 24)).mem h = s2 ∧
      dll (myfree st (h + 24)).mem 0 (h + 8) ((h + 8) :: fl2) 0 := by
    intro bs2 fl2 s2 hR2 hm
    have hd := hR2.list
    have hf := hd.1
    rw [hf] at hd
    exact ⟨(hR2.ok _ hm).2.2 rfl trivial, hf, (hR2.ok _ hm).1, hd⟩
  -- the outcome without coalescing
  have hplain : myfree st (h + 24) = add_node { st with mem := set_status st.mem h 0 } (h + 8) →
      ∀ b ∈ l1 ++ ⟨h, s, false⟩ :: l2, b.hdr ≠ h →
        hsize (myfree st (h + 24)).mem b.hdr = hsize st.mem b.hdr ∧
        hstatus (myfree st (h + 24)).mem b.hdr = hstatus st.mem b.hdr := by
    intro e b hb hne
    rw [e]
    have hfr := (rep_link hR).2
    have hdis : b.hdr + 24 + b.size ≤ h ∨ h + 24 + s ≤ b.hdr := by
      rcases contig_disj hR.contig hb hB with e1 | e1 | e1
      · rw [e1] at hne; exact absurd rfl hne
      · exact Or.inl e1
      · exact Or.inr e1
    have hx : ∀ x, b.hdr ≤ x → x < b.hdr + 8 →
        (add_node { st with mem := set_status st.mem h 0 } (h + 8)).mem x = st.mem x := by
      intro x hx1 hx2
      apply hfr x (by omega)
      intro n hn
      have := hR.node_blk hn hb
      omega
    exact ⟨rd_congr (fun x hx1 hx2 => hx x (by omega) (by omega)),
      rd_congr (fun x hx1 hx2 => hx x (by omega) (by omega))⟩
  cases l2 with
  | nil =>
    obtain ⟨e, hR2⟩ := myfree_last hR
    obtain ⟨c1, c2, c3, c4⟩ := hcommon _ fl s hR2 (by simp)
    have hc : h + 24 + s = st.segment_end := (contig_split hR.contig).2
    refine ⟨c1, c2, ?_, fun _ => ⟨c3, c4, hplain e⟩⟩
    intro t ht
    have := (hR.blk ht).2.1
    simp only at this
    omega
  | cons N l2b =>
    obtain ⟨nh, t0, g⟩ := N
    have hNm : (⟨nh, t0, g⟩ : Blk) ∈ l1 ++ ⟨h, s, false⟩ :: ⟨nh, t0, g⟩ :: l2b := by simp
    have hnh : nh = h + 24 + s := (contig_split hR.contig).2.1
    have hNb := hR.blk hNm
    simp only at hNb
    cases g with
    | true =>
      have hs0 : hstatus st.mem nh = 0 := (hR.ok _ hNm).2.2 rfl trivial
      have hmem : nh + 8 ∈ fl := (hR.mem _).mpr ⟨_, hNm, rfl, rfl⟩
      obtain ⟨f1, f2, hfl⟩ := List.append_of_mem hmem
      subst hfl
      obtain ⟨hR2, -⟩ := myfree_join hR hs0
      obtain ⟨c1, c2, c3, c4⟩ := hcommon _ (f1 ++ f2) (s + t0 + 24) hR2 (by simp)
      refine ⟨c1, c2, ?_, ?_⟩
      · intro t ht
        have := hR.uniq ht hNm (by simp only; omega)
        simp only [Blk.mk.injEq] at this
        rw [this.2.1]
        exact ⟨f1, f2, by rw [hnh], c3, c4⟩
      · rintro (hc | ⟨t, ht⟩)
        · omega
        · have := hR.uniq ht hNm (by simp only; omega)
          simp at this
    | false =>
      have hs0 : hstatus st.mem nh ≠ 0 := (hR.ok _ hNm).2.1 rfl
      obtain ⟨e, hR2⟩ := myfree_skip hR hs0
      obtain ⟨c1, c2, c3, c4⟩ := hcommon _ fl s hR2 (by simp)
      refine ⟨c1, c2, ?_, fun _ => ⟨c3, c4, hplain e⟩⟩
      intro t ht
      have := hR.uniq ht hNm (by simp only; omega)
      simp at this

/-- C5 witness: release of the block allocated by `mymalloc(8)` on the fresh 200-byte heap. -/
theorem C5_release_postcondition_witness :
    (Rep True heap200a [⟨1000, 24, false⟩, ⟨1048, 128, true⟩] [1056] ∧
      (⟨1000, 24, false⟩ : Blk) ∈ [(⟨1000, 24, false⟩ : Blk), ⟨1048, 128, true⟩]) ∧
    (hstatus (myfree heap200a (1000 + 24)).mem 1000 = 0 ∧
      (myfree heap200a (1000 + 24)).f_start = 1000 + 8 ∧
    (∀ t, (⟨1000 + 24 + 24, t, true⟩ : Blk) ∈ [(⟨1000, 24, false⟩ : Blk), ⟨1048, 128, true⟩] →
      ∃ f1 f2, [1056] = f1 ++ (1000 + 24 + 24 + 8) :: f2 ∧
        hsize (myfree heap200a (1000 + 24)).mem 1000 = 24 + t + 24 ∧
        dll (myfree heap200a (1000 + 24)).mem 0 (1000 + 8) ((1000 + 8) :: (f1 ++ f2)) 0) ∧
    ((1000 + 24 + 24 = heap200a.segment_end ∨
        ∃ t, (⟨1000 + 24 + 24, t, false⟩ : Blk) ∈ [(⟨1000, 24, false⟩ : Blk), ⟨1048, 128, true⟩]) →
      hsize (myfree heap200a (1000 + 24)).mem 1000 = 24 ∧
      dll (myfree heap200a (1000 + 24)).mem 0 (1000 + 8) ((1000 + 8) :: [1056]) 0 ∧
      ∀ b ∈ [(⟨1000, 24, false⟩ : Blk), ⟨1048, 128, true⟩], b.hdr ≠ 1000 →
        hsize (myfree heap200a (1000 + 24)).mem b.hdr = hsize heap200a.mem b.hdr ∧
        hstatus (myfree heap200a (1000 + 24)).mem b.hdr = hstatus heap200a.mem b.hdr)) :=
  ⟨⟨heap200a_rep, by decide⟩,
    C5_release_postcondition heap200a _ _ 1000 24 heap200a_rep (by decide)⟩

/-- C6 counterexample: for the segment length `2^32 + 224` the 32-bit size field of the
header written by `myinit` holds 200; `mymalloc(100)` returns 1024, and after `myfree(1024)`
the block at the segment start has size 200, not the length minus 24. -/
theorem C6_counterexample :
    (myinit blank 1000 4294967520).1 = true ∧
    mymalloc 5 (myinit blank 1000 4294967520).2 100 =
      some (1024, create_chunk_hdr (myinit blank 1000 4294967520).2 1000 104 false) ∧
    hsize (myfree (create_chunk_hdr (myinit blank 1000 4294967520).2 1000 104 false) 1024).mem
      1000 = 200 ∧
    hsize (myfree (create_chunk_hdr (myinit blank 1000 4294967520).2 1000 104 false) 1024).mem
      1000 ≠ 4294967520 - 24 := by
  refine ⟨by decide, by rfl, by rfl, ?_⟩
  have e : hsize (myfree (create_chunk_hdr (myinit blank 1000 4294967520).2 1000 104
      false) 1024).mem 1000 = 200 := by rfl
  rw [e]
  decide

/-- C6: allocate/release round trip.  In a state represented with the strict duality by the
tiling `bs` and the free list `fl`, when `mymalloc(n)` returns an address `p`, it is the
payload of a free block `⟨h, s⟩` of `bs`, and after `myfree(p)` the state is represented by
the same tiling `bs` with the node of `h` moved to the head of the free list: `h` has its
former size `s`, status 0, and a following `mymalloc(n)` returns `p` again.  In particular,
after `myinit(seg, L)` with `153 ≤ L < 2^32 + 24`, `mymalloc(100)` returns an address and
after its release the free list is exactly the node of the block at `seg`, whose size is
`L - 24`. -/
theorem C6_round_trip (st : State) (bs : List Blk) (fl : List Nat) (n fuel p : Nat)
    (st1 : State) (hR : Rep True st bs fl) (hfuel : fl.length < fuel)
    (hm : mymalloc fuel st n = some (p, st1)) (hp : p ≠ NULL) :
    (∃ h s f1 f2, p = h + 24 ∧ (⟨h, s, true⟩ : Blk) ∈ bs ∧ fl = f1 ++ (h + 8) :: f2 ∧
      hsize st.mem h = s ∧
      Rep True (myfree st1 p) bs ((h + 8) :: (f1 ++ f2)) ∧
      hsize (myfree st1 p).mem h = s ∧ hstatus (myfree st1 p).mem h = 0 ∧
      (myfree st1 p).f_start = h + 8 ∧
      ∃ st3, mymalloc fuel (myfree st1 p) n = some (p, st3)) ∧
    (∀ (st0 : State) (seg L k : Nat), seg ≠ NULL → 153 ≤ L → L < 4294967296 + 24 →
      seg + L < 18446744073709551616 → 0 < k →
      (myinit st0 seg L).1 = true ∧
      ∃ q st2, mymalloc k (myinit st0 seg L).2 100 = some (q, st2) ∧ q ≠ NULL ∧
        (myfree st2 q).f_start = seg + 8 ∧
        dll (myfree st2 q).mem 0 (seg + 8) [seg + 8] 0 ∧
        hsize (myfree st2 q).mem seg = L - 24) := by
  constructor
  · rcases mymalloc_cases hR n fuel hfuel with e | ⟨h, s, l1, l2, f1, f2, e1, e2, n1, n2, hs, -, e⟩
    · rw [e] at hm
      simp only [Option.some.injEq, Prod.mk.injEq] at hm
      exact absurd hm.1.symm hp
    · rw [e] at hm
      simp only [Option.some.injEq, Prod.mk.injEq] at hm
      obtain ⟨hm1, hm2⟩ := hm
      subst hm1 hm2 e1 e2
      have hfp := fmt_props n2
      have hB : (⟨h, s, true⟩ : Blk) ∈ l1 ++ ⟨h, s, true⟩ :: l2 := by simp
      obtain ⟨hR2, -, hs0, -⟩ := create_chunk_hdr_spec false hR hfp.1 hs
      have hj := (@myfree_join True (create_chunk_hdr st h (fmt n) false) l1 l2 [] (f1 ++ f2)
        h (fmt n) (h + 24 + fmt n) (s - fmt n - 24) true hR2 hs0).1
      have esz : fmt n + (s - fmt n - 24) + 24 = s := by omega
      rw [esz] at hj
      simp only [List.nil_append] at hj
      have hd := hj.list
      have hfuel2 : 0 < fuel := by
        simp only [List.length_append, List.length_cons] at hfuel
        omega
      have hm2 := @mymalloc_succ True (myfree (create_chunk_hdr st h (fmt n) false) (h + 24))
        l1 l2 [] (f1 ++ f2) h s n fuel hj n1 n2 (by simp) hs (by simpa using hfuel2)
      exact ⟨h, s, f1, f2, rfl, hB, rfl, (hR.ok _ hB).1, hj, (hj.ok _ hB).1,
        (hj.ok _ hB).2.2 rfl trivial, hd.1, _, hm2⟩
  · intro st0 seg L k h0 hL1 hL2 hL3 hk
    have hf : fmt 100 = 104 := by
      rw [fmt_eq (by norm_num)]
      rfl
    have hi : (myinit st0 seg L).1 = true := by
      cases hc : (myinit st0 seg L).1 with
      | true => rfl
      | false =>
        rcases (myinit_false_iff_lt st0 seg L hL3).mp hc with c | c
        · omega
        · exact absurd c h0
    have hR0 : Rep False (myinit st0 seg L).2 [⟨seg, L - 24, true⟩] [seg + 8] :=
      myinit_rep st0 seg L h0 (by omega) hL2 hL3 (fun hx => hx.elim)
    have hm0 := @mymalloc_succ False (myinit st0 seg L).2 [] [] [] [] seg (L - 24) 100 k hR0
      (by norm_num) (by norm_num) (by simp) (by rw [hf]; omega) (by simpa using hk)
    obtain ⟨hR2, -, hs0, -⟩ := @create_chunk_hdr_spec False (myinit st0 seg L).2 [] [] [] []
      seg (L - 24) (fmt 100) false hR0 (by rw [hf]; omega) (by rw [hf]; omega)
    have hj := (@myfree_join False (create_chunk_hdr (myinit st0 seg L).2 seg (fmt 100) false)
      [] [] [] [] seg (fmt 100) (seg + 24 + fmt 100) (L - 24 - fmt 100 - 24) true hR2 hs0).1
    have esz : fmt 100 + (L - 24 - fmt 100 - 24) + 24 = L - 24 := by rw [hf]; omega
    rw [esz] at hj
    simp only [List.nil_append] at hj
    have hd := hj.list
    have hfs := hd.1
    rw [hfs] at hd
    have hne : seg + 24 ≠ NULL := by
      simp only [NULL]
      omega
    have hsz : hsize (myfree (create_chunk_hdr (myinit st0 seg L).2 seg (fmt 100) false)
        (seg + 24)).mem seg = L - 24 :=
      (hj.ok ⟨seg, L - 24, true⟩ (List.mem_singleton.mpr rfl)).1
    exact ⟨hi, seg + 24, create_chunk_hdr (myinit st0 seg L).2 seg (fmt 100) false, hm0, hne,
      hfs, hd, hsz⟩

/-- C6 witness: `mymalloc(8)` on the fresh 200-byte heap at 1000 returns 1024. -/
theorem C6_round_trip_witness :
    (Rep True heap200 [⟨1000, 176, true⟩] [1008] ∧ [1008].length < 5 ∧
      mymalloc 5 heap200 8 = some (1024, heap200a) ∧ 1024 ≠ NULL) ∧
    ((∃ h s f1 f2, 1024 = h + 24 ∧ (⟨h, s, true⟩ : Blk) ∈ [(⟨1000, 176, true⟩ : Blk)] ∧
      [1008] = f1 ++ (h + 8) :: f2 ∧
      hsize heap200.mem h = s ∧
      Rep True (myfree heap200a 1024) [⟨1000, 176, true⟩] ((h + 8) :: (f1 ++ f2)) ∧
      hsize (myfree heap200a 1024).mem h = s ∧ hstatus (myfree heap200a 1024).mem h = 0 ∧
      (myfree heap200a 1024).f_start = h + 8 ∧
      ∃ st3, mymalloc 5 (myfree heap200a 1024) 8 = some (1024, st3)) ∧
    (∀ (st0 : State) (seg L k : Nat), seg ≠ NULL → 153 ≤ L → L < 4294967296 + 24 →
      seg + L < 18446744073709551616 → 0 < k →
      (myinit st0 seg L).1 = true ∧
      ∃ q st2, mymalloc k (myinit st0 seg L).2 100 = some (q, st2) ∧ q ≠ NULL ∧
        (myfree st2 q).f_start = seg + 8 ∧
        dll (myfree st2 q).mem 0 (seg + 8) [seg + 8] 0 ∧
        hsize (myfree st2 q).mem seg = L - 24)) :=
  ⟨⟨heap200_rep, by decide, by rfl, by decide⟩,
    C6_round_trip heap200 [⟨1000, 176, true⟩] [1008] 8 5 1024 heap200a heap200_rep
      (by decide) (by rfl) (by decide)⟩

/-- C7: resize preserves data.  In a state reached from a successful `myinit` by calls of the
three operations, for a currently allocated address `p` and every `n2`, `myrealloc(p, n2)`
returns (for every large enough fuel of the free-list scan), and when it returns an address
`q ≠ NULL`, then with `n1` the size stored in the header of `p` before the call, every byte
`i < min(n1, n2)` at `q` after the call equals byte `i` at `p` before the call. -/
theorem C7_resize_preserves_data (st0 : State) (start length : Nat) (st : State)
    (A : List Nat) (p n2 fuel q : Nat) (st2 : State)
    (hinit : (myinit st0 start length).1 = true) (h1 : 24 ≤ length)
    (h2 : length < 4294967296 + 24) (h3 : start + length < 18446744073709551616)
    (hr : Reach st0 start length st A) (hp : p ∈ A)
    (hm : myrealloc fuel st p n2 = some (q, st2)) (hq : q ≠ NULL) :
    (∃ k, ∀ fuel2, k ≤ fuel2 → (myrealloc fuel2 st p n2).isSome = true) ∧
    ∀ i, i < hsize st.mem (payload_to_hdr p) → i < n2 → st2.mem (q + i) = st.mem (p + i) := by
  have h0 : start ≠ 0 := myinit_true_start hinit
  obtain ⟨bs, fl, hR, hU, -, hP⟩ :=
    reach_inv (S := False) h0 h1 h2 h3 (fun hf => hf.elim) hr
  obtain ⟨b, hb1, hb2, hb3⟩ := hP p hp
  obtain ⟨h, s, f⟩ := b
  simp only at hb2 hb3
  subst hb2 hb3
  constructor
  · refine ⟨fl.length + 1, fun fuel2 hk => ?_⟩
    obtain ⟨q2, st3, e, -⟩ := myrealloc_rep hR hU hb1 n2 fuel2 (by omega)
    rw [e]
    rfl
  · obtain ⟨q2, st3, e, hcases⟩ := myrealloc_rep hR hU hb1 n2 (fl.length + 1 + fuel) (by omega)
    have e2 := myrealloc_mono hm (fl.length + 1 + fuel) (by omega)
    rw [e] at e2
    simp only [Option.some.injEq, Prod.mk.injEq] at e2
    obtain ⟨e3, e4⟩ := e2
    subst e3 e4
    have hs : hsize st.mem (payload_to_hdr (h + 24)) = s := by
      have : payload_to_hdr (h + 24) = h := by
        unfold payload_to_hdr
        simp
      rw [this]
      exact (hR.ok _ hb1).1
    rw [hs]
    intro i hi1 hi2
    rcases hcases with ⟨c, -⟩ | ⟨c, bs2, fl2, w, hM, hB2, hnw, -⟩ | ⟨bs2, fl2, hq2, w, -, -, -, -, -, -, -, -, -, -, -, -, hdata⟩
    · exact absurd c hq
    · rw [c]
      exact hM.meta.payload hR.contig hM.rep.contig hb1 hB2 rfl hi1 (by simp only; omega)
    · exact hdata i hi1 hi2

/-- C7 witness: growing in place the block allocated by `mymalloc(8)` on the fresh 200-byte
heap at 1000. -/
theorem C7_resize_preserves_data_witness :
    ((myinit blank 1000 200).1 = true ∧ 24 ≤ 200 ∧ 200 < 4294967296 + 24 ∧
      1000 + 200 < 18446744073709551616 ∧ Reach blank 1000 200 heap200a [1024] ∧
      1024 ∈ [1024] ∧ myrealloc 5 heap200a 1024 100 = some (1024, heap200b) ∧
      1024 ≠ NULL) ∧
    ((∃ k, ∀ fuel2, k ≤ fuel2 → (myrealloc fuel2 heap200a 1024 100).isSome = true) ∧
    ∀ i, i < hsize heap200a.mem (payload_to_hdr 1024) → i < 100 →
      heap200b.mem (1024 + i) = heap200a.mem (1024 + i)) :=
  ⟨⟨by decide, by decide, by decide, by decide, heap200a_reach, by decide, by rfl,
      by decide⟩,
    C7_resize_preserves_data blank 1000 200 heap200a [1024] 1024 100 5 1024 heap200b
      (by decide) (by decide) (by decide) (by decide) heap200a_reach (by decide)
      (by rfl) (by decide)⟩

/-- C8: failure atomicity.  Whenever `mymalloc` returns `NULL`, and whenever `myrealloc` with
a non-zero size returns `NULL`, the whole state (memory, free-list head, segment bounds) is
the state before the call. -/
theorem C8_failure_atomicity (fuel : Nat) (st st2 : State) (p n : Nat) :
    (mymalloc fuel st n = some (NULL, st2) → st2 = st) ∧
    (n ≠ 0 → myrealloc fuel st p n = some (NULL, st2) → st2 = st) :=
  ⟨fun h => mymalloc_null h, fun _ h => myrealloc_null h⟩

/-- C8 witness: on a fresh 64-byte segment a request of 100 bytes is exhausted, both through
`mymalloc` and through `myrealloc` of a null pointer. -/
theorem C8_failure_atomicity_witness :
    mymalloc 5 (myinit blank 1000 64).2 100 = some (NULL, (myinit blank 1000 64).2) ∧
    (100 ≠ 0 ∧ myrealloc 5 (myinit blank 1000 64).2 0 100 = some (NULL, (myinit blank 1000 64).2)) ∧
    ((mymalloc 5 (myinit blank 1000 64).2 100 = some (NULL, (myinit blank 1000 64).2) →
        (myinit blank 1000 64).2 = (myinit blank 1000 64).2) ∧
     (100 ≠ 0 → myrealloc 5 (myinit blank 1000 64).2 0 100 = some (NULL, (myinit blank 1000 64).2) →
        (myinit blank 1000 64).2 = (myinit blank 1000 64).2)) :=
  ⟨rfl, ⟨by decide, rfl⟩, C8_failure_atomicity 5 (myinit blank 1000 64).2 (myinit blank 1000 64).2 0 100⟩

/-- C9 counterexample: `myinit` on a non-null start with length 8 returns true, but the size
stored in the header is 4294967280 and the block it describes ends at 4294968304, far beyond
the segment end 1008: the block does not span the segment.  And on the non-null start
`2^64 - 64` with length 64 the end of the segment wraps around to `NULL` and `myinit` returns
false. -/
theorem C9_counterexample :
    (myinit blank 1000 8).1 = true ∧
    hsize (myinit blank 1000 8).2.mem 1000 = 4294967280 ∧
    (myinit blank 1000 8).2.segment_end = 1008 ∧
    get_next_hdr (myinit blank 1000 8).2.mem 1000 = 4294968304 ∧
    18446744073709551552 ≠ NULL ∧ 0 < 64 ∧
    (myinit blank 18446744073709551552 64).1 = false ∧
    (myinit blank 18446744073709551552 64).2.segment_end = NULL := by
  refine ⟨by decide, by decide, by decide, by decide, by decide, by decide, by decide,
    by decide⟩

/-- C9 (amended): `myinit` returns false exactly when the length is 0, the start is null or
the end of the segment `start + length`, taken modulo `2^64`, is null; so for a segment that
ends below `2^64` it returns false exactly when the length is 0 or the start is null.  For a
non-null start, `24 ≤ length < 2 ^ 32 + 24` and `start + length < 2^64` it returns true, sets
the segment bounds to `start` and `start + length`, stores `length - 24` in the header at
`start` so that this block ends exactly at the segment end, and leaves the free list holding
exactly that block's node with `next = prev = NULL`. -/
theorem C9_init_contract (st : State) (start length : Nat) :
    ((myinit st start length).1 = false ↔
      (length = 0 ∨ start = NULL ∨ (start + length) % 18446744073709551616 = NULL)) ∧
    (start + length < 18446744073709551616 →
      ((myinit st start length).1 = false ↔ (length = 0 ∨ start = NULL))) ∧
    (start ≠ NULL → 24 ≤ length → length < 4294967296 + 24 →
      start + length < 18446744073709551616 →
      (myinit st start length).1 = true ∧
      (myinit st start length).2.segment_begin = start ∧
      (myinit st start length).2.segment_end = start + length ∧
      hsize (myinit st start length).2.mem start = length - sizeof_header - sizeof_prev_next ∧
      get_next_hdr (myinit st start length).2.mem start = (myinit st start length).2.segment_end ∧
      (myinit st start length).2.f_start = hdr_to_prev_next start ∧
      nnext (myinit st start length).2.mem (hdr_to_prev_next start) = NULL ∧
      nprev (myinit st start length).2.mem (hdr_to_prev_next start) = NULL) := by
  refine ⟨myinit_false_iff st start length, myinit_false_iff_lt st start length, ?_⟩
  intro h1 h2 h3 h4
  simp only [NULL] at h1
  have e : myinit st start length =
      (true,
        { mem := set_prev (set_next (set_size st.mem start (length - 24)) (start + 8) 0)
            (start + 8) 0,
          segment_begin := start, segment_end := start + length, f_start := start + 8 }) := by
    have a1 : sub64 length 8 = length - 8 := sub64_eq (by omega) (by omega)
    have a2 : sub64 (length - 8) 16 = length - 24 := by
      rw [sub64_eq (by omega) (by omega)]; omega
    unfold myinit
    simp only [NULL, sizeof_header, sizeof_prev_next, hdr_to_prev_next]
    rw [Nat.mod_eq_of_lt h4, if_neg (by omega), if_neg (by omega), a1, a2]
  rw [e]
  have hsz : hsize (set_prev (set_next (set_size st.mem start (length - 24)) (start + 8) 0)
      (start + 8) 0) start = length - 24 := by
    simp only [hsize, set_prev, set_next, set_size]
    rw [rd_wr_disj (by omega), rd_wr_disj (by omega)]
    exact rd_wr_same4 (by omega)
  refine ⟨rfl, rfl, rfl, ?_, ?_, rfl, ?_, ?_⟩
  · simp only [sizeof_header, sizeof_prev_next]
    rw [hsz]
    omega
  · simp only [get_next_hdr, sizeof_header, sizeof_prev_next]
    rw [hsz]
    omega
  · simp only [NULL, nnext, set_prev, set_next, hdr_to_prev_next, sizeof_header]
    rw [rd_wr_disj (by omega)]
    exact rd_wr_same8 (by norm_num)
  · simp only [NULL, nprev, set_prev, hdr_to_prev_next, sizeof_header]
    exact rd_wr_same8 (by norm_num)

/-- C9 witness: the amended contract at `start = 1000`, `length = 64`. -/
theorem C9_init_contract_witness :
    (1000 ≠ NULL ∧ 24 ≤ 64 ∧ 64 < 4294967296 + 24 ∧ 1000 + 64 < 18446744073709551616) ∧
    (myinit blank 1000 64).1 = true ∧
    (myinit blank 1000 64).2.segment_begin = 1000 ∧
    (myinit blank 1000 64).2.segment_end = 1000 + 64 ∧
    hsize (myinit blank 1000 64).2.mem 1000 = 64 - sizeof_header - sizeof_prev_next ∧
    get_next_hdr (myinit blank 1000 64).2.mem 1000 = (myinit blank 1000 64).2.segment_end ∧
    (myinit blank 1000 64).2.f_start = hdr_to_prev_next 1000 ∧
    nnext (myinit blank 1000 64).2.mem (hdr_to_prev_next 1000) = NULL ∧
    nprev (myinit blank 1000 64).2.mem (hdr_to_prev_next 1000) = NULL :=
  ⟨by decide, (C9_init_contract blank 1000 64).2.2 (by decide) (by decide) (by decide)
    (by decide)⟩

/-- C10 (the code at the failing input): `myinit` never writes the status field, so the status
of the block it installs is whatever the memory held before; on a segment whose byte at
offset 4 is 1, `myinit` succeeds and the block at `segment_begin` has status 1 (used) while
its node is the head of the free list. -/
theorem C10_status_not_written :
    (∀ st start length, hstatus (myinit st start length).2.mem start = hstatus st.mem start) ∧
    (myinit dirty 1000 64).1 = true ∧
    (myinit dirty 1000 64).2.f_start = 1008 ∧
    hstatus (myinit dirty 1000 64).2.mem 1000 = 1 := by
  refine ⟨?_, by decide, by decide, by decide⟩
  intro st start length
  unfold myinit
  simp only [NULL]
  split_ifs
  · rfl
  · rfl
  · simp only [hstatus, set_prev, set_next, set_size, hdr_to_prev_next, sizeof_header]
    rw [rd_wr_disj (by omega), rd_wr_disj (by omega), rd_wr_disj (by omega)]

/-- C11 counterexample: on the heap with the block at 1000 allocated (payload 1024),
`myrealloc(1024, 0)` returns `NULL` and changes nothing: the block keeps status 1 and the
free-list head stays 1056, whereas `myfree(1024)` sets the status to 0 and makes 1008 the
head. -/
theorem C11_counterexample :
    myrealloc 5 heap200a 1024 0 = some (NULL, heap200a) ∧
    hstatus heap200a.mem 1000 = 1 ∧ heap200a.f_start = 1056 ∧
    hstatus (myfree heap200a 1024).mem 1000 = 0 ∧ (myfree heap200a 1024).f_start = 1008 := by
  refine ⟨by rfl, by rfl, by rfl, by rfl, by rfl⟩

/-- C11: a zero-size `myrealloc` returns `NULL` and leaves the whole state as it is, for every
state and every pointer: the old block is not released. -/
theorem C11_zero_resize_keeps_block (fuel : Nat) (st : State) (p : Nat) :
    myrealloc fuel st p 0 = some (NULL, st) := by
  unfold myrealloc
  by_cases c : p < st.segment_begin ∨ p > st.segment_end ∨ p = NULL
  · rw [if_pos c]
    unfold mymalloc
    rw [if_pos (Or.inr (le_refl 0))]
  · rw [if_neg c]
    simp [MAX_HEAP_SIZE]

/-- C12 counterexample: on the 200-byte heap at 1000, two `mymalloc(8)` return 1024 and 1072;
after `myfree(1024)` and then `myfree(1072)` the block at 1000 has status 0, the header that
follows it is 1048, inside the segment, and it has status 0 too: two consecutive free
blocks. -/
theorem C12_counterexample :
    mymalloc 5 heap200 8 = some (1024, heap200a) ∧
    mymalloc 5 heap200a 8 = some (1072, heap200ab) ∧
    hstatus (myfree (myfree heap200ab 1024) 1072).mem 1000 = 0 ∧
    get_next_hdr (myfree (myfree heap200ab 1024) 1072).mem 1000 = 1048 ∧
    hstatus (myfree (myfree heap200ab 1024) 1072).mem 1048 = 0 ∧
    get_next_hdr (myfree (myfree heap200ab 1024) 1072).mem 1048 = 1200 ∧
    (myfree (myfree heap200ab 1024) 1072).segment_end = 1200 := by
  refine ⟨by rfl, by rfl, by rfl, by rfl, by rfl, by rfl, by rfl⟩

/-- C12: coalescing is forward only.  In a state represented with the strict duality whose
tiling `l1 ++ ⟨h, s, used⟩ :: l2` has no two consecutive free blocks: after `myfree(h + 24)`
the tiling has two consecutive free blocks exactly when the block before `h` (the last of
`l1`) is free; after a `myrealloc` that shrinks the block in place there are none.  And
after `myinit` of a segment of length `121 ≤ L < 2^32 + 24` and two `mymalloc(8)`, releasing
the second block and then the first leaves the single free block `⟨seg, L - 24⟩`, while
releasing the first and then the second leaves the two consecutive free blocks
`⟨seg, 24⟩` and `⟨seg + 48, L - 72⟩`. -/
theorem C12_forward_coalescing (st : State) (l1 l2 : List Blk) (fl : List Nat) (h s : Nat)
    (hR : Rep True st (l1 ++ ⟨h, s, false⟩ :: l2) fl)
    (hN : NoAdjFree (l1 ++ ⟨h, s, false⟩ :: l2)) :
    (∃ bs2 fl2, Rep True (myfree st (h + 24)) bs2 fl2 ∧
      (NoAdjFree bs2 ↔ ∀ x ∈ l1.getLast?, x.free = false)) ∧
    (∀ n fuel st2, roundup n ALIGNMENT < s →
      myrealloc fuel st (h + 24) n = some (h + 24, st2) →
      ∃ bs2 fl2, Rep True st2 bs2 fl2 ∧ NoAdjFree bs2) ∧
    (∀ (st0 : State) (seg L k : Nat), seg ≠ NULL → 121 ≤ L → L < 4294967296 + 24 →
      seg + L < 18446744073709551616 → 0 < k →
      ∃ sa sab, mymalloc k (myinit st0 seg L).2 8 = some (seg + 24, sa) ∧
        mymalloc k sa 8 = some (seg + 72, sab) ∧
        Rep True (myfree (myfree sab (seg + 72)) (seg + 24)) [⟨seg, L - 24, true⟩] [seg + 8] ∧
        Rep True (myfree (myfree sab (seg + 24)) (seg + 72))
          [⟨seg, 24, true⟩, ⟨seg + 48, L - 72, true⟩] [seg + 56, seg + 8]) :=
  ⟨myfree_noAdj hR hN, fun n fuel st2 hlt hm => shrink_noAdj hR hN n fuel st2 hlt hm,
    fun st0 seg L k a1 a2 a3 a4 a5 => two_allocs_release st0 seg L k a1 a2 a3 a4 a5⟩

/-- C12 witness: the heap with the block at 1000 allocated and the free block at 1048. -/
theorem C12_forward_coalescing_witness :
    (Rep True heap200a ([] ++ ⟨1000, 24, false⟩ :: [⟨1048, 128, true⟩]) [1056] ∧
      NoAdjFree ([] ++ ⟨1000, 24, false⟩ :: [⟨1048, 128, true⟩])) ∧
    ((∃ bs2 fl2, Rep True (myfree heap200a (1000 + 24)) bs2 fl2 ∧
      (NoAdjFree bs2 ↔ ∀ x ∈ ([] : List Blk).getLast?, x.free = false)) ∧
    (∀ n fuel st2, roundup n ALIGNMENT < 24 →
      myrealloc fuel heap200a (1000 + 24) n = some (1000 + 24, st2) →
      ∃ bs2 fl2, Rep True st2 bs2 fl2 ∧ NoAdjFree bs2) ∧
    (∀ (st0 : State) (seg L k : Nat), seg ≠ NULL → 121 ≤ L → L < 4294967296 + 24 →
      seg + L < 18446744073709551616 → 0 < k →
      ∃ sa sab, mymalloc k (myinit st0 seg L).2 8 = some (seg + 24, sa) ∧
        mymalloc k sa 8 = some (seg + 72, sab) ∧
        Rep True (myfree (myfree sab (seg + 72)) (seg + 24)) [⟨seg, L - 24, true⟩] [seg + 8] ∧
        Rep True (myfree (myfree sab (seg + 24)) (seg + 72))
          [⟨seg, 24, true⟩, ⟨seg + 48, L - 72, true⟩] [seg + 56, seg + 8])) :=
  ⟨⟨heap200a_rep, by decide⟩,
    C12_forward_coalescing heap200a [] [⟨1048, 128, true⟩] [1056] 1000 24 heap200a_rep
      (by decide)⟩

/-- C13 counterexample: the 64-byte heap has one free block of size 40; the request 8 is
rounded to 24, the block is at least as large but does not exceed it by more than 24, and
`mymalloc(8)` returns `NULL` with the state unchanged instead of handing the block out. -/
theorem C13_counterexample :
    (myinit blank 1000 64).1 = true ∧ heap64.f_start = 1008 ∧ hsize heap64.mem 1000 = 40 ∧
    nnext heap64.mem 1008 = NULL ∧ roundedRequest 8 = 24 ∧
    mymalloc 5 heap64 8 = some (NULL, heap64) := by
  refine ⟨by rfl, by rfl, by rfl, by rfl, by rfl, by rfl⟩

/-- C13: `mymalloc` never hands out a block unsplit.  On a represented state, when no free
block exceeds the rounded request `r` by more than 24 the call returns `NULL` and changes
nothing (also when some free block has size at least `r`); when it returns an address, the
chosen block had size `s > r + 24` and has been split: its size is now `r`, and the header at
`h + 24 + r` starts a free block of size `s - r - 24` whose node is the free-list head. -/
theorem C13_never_unsplit {S : Prop} (st : State) (bs : List Blk) (fl : List Nat)
    (n fuel : Nat) (hR : Rep S st bs fl) (hfuel : fl.length < fuel) :
    ((∀ b ∈ bs, b.free = true → b.size ≤ roundedRequest n + 24) →
      mymalloc fuel st n = some (NULL, st)) ∧
    (∀ p st2, mymalloc fuel st n = some (p, st2) → p ≠ NULL →
      ∃ h s, p = h + 24 ∧ (⟨h, s, true⟩ : Blk) ∈ bs ∧ roundedRequest n + 24 < s ∧
        hsize st2.mem h = roundedRequest n ∧
        hsize st2.mem (h + 24 + roundedRequest n) = s - roundedRequest n - 24 ∧
        hstatus st2.mem (h + 24 + roundedRequest n) = 0 ∧
        st2.f_start = h + 24 + roundedRequest n + 8) := by
  rcases mymalloc_cases hR n fuel hfuel with e | ⟨h, s, l1, l2, f1, f2, e1, e2, n1, n2, hs, -, e⟩
  · refine ⟨fun _ => e, fun p st2 hm hp => ?_⟩
    rw [e] at hm
    simp only [Option.some.injEq, Prod.mk.injEq] at hm
    exact absurd hm.1.symm hp
  · have hr : roundedRequest n = fmt n := by
      rw [fmt_eq n2]; rfl
    rw [hr]
    subst e1 e2
    have hB : (⟨h, s, true⟩ : Blk) ∈ l1 ++ ⟨h, s, true⟩ :: l2 := by simp
    constructor
    · intro hall
      have := hall _ hB rfl
      simp only at this
      omega
    · intro p st2 hm hp
      rw [e] at hm
      simp only [Option.some.injEq, Prod.mk.injEq] at hm
      obtain ⟨hm1, hm2⟩ := hm
      subst hm1 hm2
      have hfp := fmt_props n2
      obtain ⟨hR2, -, hs0, -⟩ := create_chunk_hdr_spec false hR hfp.1 hs
      have hd := hR2.list
      exact ⟨h, s, rfl, hB, hs, (hR2.ok ⟨h, fmt n, false⟩ (by simp)).1,
        (hR2.ok ⟨h + 24 + fmt n, s - fmt n - 24, true⟩ (by simp)).1, hs0, hd.1⟩

/-- The fresh 64-byte heap at 1000 is represented by one free block of size 40. -/
theorem heap64_rep : Rep True heap64 [⟨1000, 40, true⟩] [1008] :=
  myinit_rep blank 1000 64 (by decide) (by decide) (by decide) (by decide) (fun _ => by decide)

/-- C13 witness: the fresh 64-byte heap at 1000 and the request 8. -/
theorem C13_never_unsplit_witness :
    (Rep True heap64 [⟨1000, 40, true⟩] [1008] ∧ [1008].length < 5) ∧
    (((∀ b ∈ [(⟨1000, 40, true⟩ : Blk)], b.free = true → b.size ≤ roundedRequest 8 + 24) →
      mymalloc 5 heap64 8 = some (NULL, heap64)) ∧
    (∀ p st2, mymalloc 5 heap64 8 = some (p, st2) → p ≠ NULL →
      ∃ h s, p = h + 24 ∧ (⟨h, s, true⟩ : Blk) ∈ [(⟨1000, 40, true⟩ : Blk)] ∧
        roundedRequest 8 + 24 < s ∧
        hsize st2.mem h = roundedRequest 8 ∧
        hsize st2.mem (h + 24 + roundedRequest 8) = s - roundedRequest 8 - 24 ∧
        hstatus st2.mem (h + 24 + roundedRequest 8) = 0 ∧
        st2.f_start = h + 24 + roundedRequest 8 + 8)) :=
  ⟨⟨heap64_rep, by decide⟩, C13_never_unsplit heap64 _ _ 8 5 heap64_rep (by decide)⟩

/-- C14 counterexample: after `myinit(1000, 64)` the call `mymalloc(8)` returns `NULL`. -/
theorem C14_counterexample :
    (myinit blank 1000 64).1 = true ∧
    mymalloc 5 (myinit blank 1000 64).2 8 = some (NULL, (myinit blank 1000 64).2) := by
  refine ⟨by rfl, by rfl⟩

/-- C14: first allocation after `myinit`.  For a non-null segment of length `L` with
`24 ≤ L < 2^32 + 24`, `myinit` succeeds, and `mymalloc(8)` succeeds exactly when `73 ≤ L`:
then it returns `seg + 24`, which lies in `[seg, seg + L)`; for `L < 73` (in particular for
`L = 64`) it returns `NULL` and changes nothing. -/
theorem C14_first_allocation (st0 : State) (seg L fuel : Nat) (h0 : seg ≠ NULL)
    (h1 : 24 ≤ L) (h2 : L < 4294967296 + 24) (h3 : seg + L < 18446744073709551616)
    (hf : 1 < fuel) :
    (myinit st0 seg L).1 = true ∧
    (73 ≤ L → ∃ st2, mymalloc fuel (myinit st0 seg L).2 8 = some (seg + 24, st2) ∧
      seg + 24 ≠ NULL ∧ seg ≤ seg + 24 ∧ seg + 24 < seg + L) ∧
    (L < 73 → mymalloc fuel (myinit st0 seg L).2 8 = some (NULL, (myinit st0 seg L).2)) := by
  have hi : (myinit st0 seg L).1 = true := by
    cases hc : (myinit st0 seg L).1 with
    | true => rfl
    | false =>
      rcases (myinit_false_iff_lt st0 seg L h3).mp hc with c | c
      · omega
      · exact absurd c h0
  have hR0 : Rep False (myinit st0 seg L).2 [⟨seg, L - 24, true⟩] [seg + 8] :=
    myinit_rep st0 seg L h0 h1 h2 h3 (fun hx => hx.elim)
  have hfm : fmt 8 = 24 := by
    rw [fmt_eq (by norm_num)]
    rfl
  refine ⟨hi, fun hL => ?_, fun hL => ?_⟩
  · have hm0 := @mymalloc_succ False (myinit st0 seg L).2 [] [] [] [] seg (L - 24) 8 fuel hR0
      (by norm_num) (by norm_num) (by simp) (by rw [hfm]; omega) (by simp; omega)
    exact ⟨_, hm0, by simp only [NULL]; omega, by omega, by omega⟩
  · apply mymalloc_fail hR0
    · intro b hb _
      simp only [List.mem_singleton] at hb
      rw [hb, hfm]
      simp only
      omega
    · simpa using hf

/-- C14 witness: a 200-byte segment at 1000 over a zeroed memory. -/
theorem C14_first_allocation_witness :
    (1000 ≠ NULL ∧ 24 ≤ 200 ∧ 200 < 4294967296 + 24 ∧ 1000 + 200 < 18446744073709551616 ∧
      1 < 5) ∧
    ((myinit blank 1000 200).1 = true ∧
    (73 ≤ 200 → ∃ st2, mymalloc 5 (myinit blank 1000 200).2 8 = some (1000 + 24, st2) ∧
      1000 + 24 ≠ NULL ∧ 1000 ≤ 1000 + 24 ∧ 1000 + 24 < 1000 + 200) ∧
    (200 < 73 →
      mymalloc 5 (myinit blank 1000 200).2 8 = some (NULL, (myinit blank 1000 200).2))) :=
  ⟨⟨by decide, by decide, by decide, by decide, by decide⟩,
    C14_first_allocation blank 1000 200 5 (by decide) (by decide) (by decide) (by decide)
      (by decide)⟩

/-- C15 counterexample: on the heap with segment `[1000, 1200)` and the block at 1000
allocated, the first `myfree(1024)` leaves the block free (status 0) with its node 1008 the
head and only member of the free list; the second `myfree(1024)`, a double release, changes
the `next` field of that node from `NULL` to 1008, the node itself. -/
theorem C15_counterexample :
    hstatus heap200a.mem 1000 = 1 ∧
    hstatus heap200f.mem 1000 = 0 ∧ heap200f.f_start = 1008 ∧
    nnext heap200f.mem 1008 = 0 ∧
    (myfree heap200f 1024).f_start = 1008 ∧
    nnext (myfree heap200f 1024).mem 1008 = 1008 := by
  refine ⟨by rfl, by rfl, by rfl, by rfl, by rfl, by rfl⟩

/-- C15: `myfree` checks its argument only against `NULL`: `myfree(NULL)` leaves the state as
it is, and a release of a block that is already free is carried out like any other.  In a
state represented with the strict duality, for a free block `h` whose node is the head of
the free list and which is the last block or is followed by a used block, `myfree(h + 24)`
keeps `h + 8` as head and stores `h + 8` in its `next` field, which held another value
before: the head is linked to itself and no list of nodes from the head ends in `NULL`. -/
theorem C15_release_unchecked (st : State) (l1 l2 : List Blk) (fl : List Nat) (h s : Nat)
    (hR : Rep True st (l1 ++ ⟨h, s, true⟩ :: l2) fl) (hhead : st.f_start = h + 8)
    (hl : l2 = [] ∨ ∃ nh t l2b, l2 = ⟨nh, t, false⟩ :: l2b) :
    myfree st NULL = st ∧
    (myfree st (h + 24)).f_start = h + 8 ∧
    nnext (myfree st (h + 24)).mem (h + 8) = h + 8 ∧
    nnext st.mem (h + 8) ≠ h + 8 ∧
    ¬ ∃ fl2, dll (myfree st (h + 24)).mem 0 (myfree st (h + 24)).f_start fl2 0 := by
  have e0 : myfree st NULL = st := by
    unfold myfree
    rw [if_pos rfl]
  obtain ⟨a1, a2, a3⟩ := double_release hR hhead hl
  refine ⟨e0, a1, a2, a3, ?_⟩
  rintro ⟨fl2, hd⟩
  rw [a1] at hd
  exact dll_self_loop a2 (by omega) hd

/-- The heap after the release of its only allocated block: one free block again. -/
theorem heap200f_rep : Rep True heap200f [⟨1000, 176, true⟩] [1008] :=
  (@myfree_join True heap200a [] [] [] [] 1000 24 1048 128 true heap200a_rep (by rfl)).1

/-- C15 witness: the second `myfree(1024)` on the heap whose only block is already free. -/
theorem C15_release_unchecked_witness :
    (Rep True heap200f ([] ++ ⟨1000, 176, true⟩ :: []) [1008] ∧ heap200f.f_start = 1000 + 8 ∧
      (([] : List Blk) = [] ∨ ∃ nh t l2b, ([] : List Blk) = ⟨nh, t, false⟩ :: l2b)) ∧
    (myfree heap200f NULL = heap200f ∧
    (myfree heap200f (1000 + 24)).f_start = 1000 + 8 ∧
    nnext (myfree heap200f (1000 + 24)).mem (1000 + 8) = 1000 + 8 ∧
    nnext heap200f.mem (1000 + 8) ≠ 1000 + 8 ∧
    ¬ ∃ fl2, dll (myfree heap200f (1000 + 24)).mem 0 (myfree heap200f (1000 + 24)).f_start
      fl2 0) :=
  ⟨⟨heap200f_rep, by rfl, Or.inl rfl⟩,
    C15_release_unchecked heap200f [] [] [1008] 1000 176 heap200f_rep (by rfl) (Or.inl rfl)⟩

/-- C16: the old pointer equal to `segment_end` is not treated as foreign.  On the fresh
heap with segment `[1000, 1200)`, `mymalloc(32)` returns 1024 and leaves 1064 as free-list
head, while `myrealloc(1200, 32)` returns 1024 and leaves 1184 as free-list head: the guard
`oldptr > segment_end` lets 1200 through and the fallback releases it as if it were the
payload of a block.  One byte further the two calls agree. -/
theorem C16_segment_end_not_foreign :
    heap200.segment_begin = 1000 ∧ heap200.segment_end = 1200 ∧
    (mymalloc 5 heap200 32).map (fun x => (x.1, x.2.f_start)) = some (1024, 1064) ∧
    (myrealloc 5 heap200 1200 32).map (fun x => (x.1, x.2.f_start)) = some (1024, 1184) ∧
    myrealloc 5 heap200 1200 32 ≠ mymalloc 5 heap200 32 ∧
    myrealloc 5 heap200 1201 32 = mymalloc 5 heap200 32 := by
  have e1 : (mymalloc 5 heap200 32).map (fun x => (x.1, x.2.f_start)) = some (1024, 1064) := by
    rfl
  have e2 : (myrealloc 5 heap200 1200 32).map (fun x => (x.1, x.2.f_start))
      = some (1024, 1184) := by
    rfl
  refine ⟨by rfl, by rfl, e1, e2, ?_, myrealloc_foreign heap200 1201 32 5 (by decide)⟩
  intro hc
  rw [hc, e1] at e2
  simp at e2

/-- C17 counterexample: in the 80-byte heap at 1000, `mymalloc(8)` leaves behind the block at
1048 a free block of size 8, smaller than 16; and `myinit` of a 201-byte segment installs a
block of size 177, not a multiple of 8. -/
theorem C17_counterexample :
    (myinit blank 1000 80).1 = true ∧ mymalloc 5 heap80 8 = some (1024, heap80a) ∧
    get_next_hdr heap80a.mem 1000 = 1048 ∧ hsize heap80a.mem 1048 = 8 ∧
    hstatus heap80a.mem 1048 = 0 ∧ heap80a.f_start = 1056 ∧
    (myinit blank 1000 201).1 = true ∧ hsize (myinit blank 1000 201).2.mem 1000 = 177 := by
  refine ⟨by rfl, by rfl, by rfl, by rfl, by rfl, by rfl, by rfl, by rfl⟩

/-- C17: block sizes.  In every state reached from a successful `myinit` of a segment whose
length is a multiple of 8 (`24 ≤ length < 2^32 + 24`), the state is represented by a tiling
in which the size field of every block is a multiple of 8 and every used block has size at
least 16. -/
theorem C17_block_sizes (st0 : State) (start length : Nat) (st : State) (A : List Nat)
    (hinit : (myinit st0 start length).1 = true) (h1 : 24 ≤ length)
    (h2 : length < 4294967296 + 24) (h3 : start + length < 18446744073709551616)
    (h8 : length % 8 = 0) (hr : Reach st0 start length st A) :
    ∃ bs fl, Rep False st bs fl ∧
      (∀ b ∈ bs, hsize st.mem b.hdr = b.size ∧ b.size % 8 = 0) ∧
      (∀ b ∈ bs, b.free = false → 16 ≤ b.size) := by
  have h0 : start ≠ 0 := myinit_true_start hinit
  obtain ⟨bs, fl, hR, hA⟩ := reach_aligned h0 h1 h2 h3 h8 hr
  obtain ⟨bs1, fl1, hR1, -, hUA, -⟩ :=
    reach_inv (S := False) h0 h1 h2 h3 (fun hf => hf.elim) hr
  obtain ⟨e1, -⟩ := hR.unique hR1
  subst e1
  exact ⟨bs, fl, hR, fun b hb => ⟨(hR.ok b hb).1, hA b hb⟩, fun b hb hf => (hUA b hb hf).1⟩

/-- C17 witness: the state after `myinit` of a 200-byte segment at 1000 and `mymalloc(8)`. -/
theorem C17_block_sizes_witness :
    ((myinit blank 1000 200).1 = true ∧ 24 ≤ 200 ∧ 200 < 4294967296 + 24 ∧
      1000 + 200 < 18446744073709551616 ∧ 200 % 8 = 0 ∧
      Reach blank 1000 200 heap200a [1024]) ∧
    ∃ bs fl, Rep False heap200a bs fl ∧
      (∀ b ∈ bs, hsize heap200a.mem b.hdr = b.size ∧ b.size % 8 = 0) ∧
      (∀ b ∈ bs, b.free = false → 16 ≤ b.size) :=
  ⟨⟨by decide, by decide, by decide, by decide, by decide, heap200a_reach⟩,
    C17_block_sizes blank 1000 200 heap200a [1024] (by decide) (by decide) (by decide)
      (by decide) (by decide) heap200a_reach⟩

/-- C18: `validate_heap` returns `true` in every state, also in one whose only block has
status 1 while its node is the head of the free list (the state after `myinit` of a segment
whose status word holds 1). -/
theorem C18_checker_always_true :
    (∀ st : State, validate_heap st = true) ∧
    hstatus (myinit dirty 1000 64).2.mem 1000 = 1 ∧
    (myinit dirty 1000 64).2.f_start = hdr_to_prev_next 1000 ∧
    validate_heap (myinit dirty 1000 64).2 = true := by
  refine ⟨fun _ => rfl, by rfl, by rfl, by rfl⟩

/-- C19 counterexample: on the 200-byte heap at 1000, `mymalloc(40)` returns 1024; the block
has size 40 and is followed by the free block at 1064 of size 112.  `myrealloc(1024, 8)`
returns 1088: the shrink is rejected because `40 - 16 < 48`, although the block coalesced
with its free successor would leave a remainder of `176 - 16`. -/
theorem C19_counterexample :
    mymalloc 5 heap200 40 = some (1024, heap200c) ∧
    hsize heap200c.mem 1000 = 40 ∧ hstatus heap200c.mem 1000 = 1 ∧
    get_next_hdr heap200c.mem 1000 = 1064 ∧ hstatus heap200c.mem 1064 = 0 ∧
    hsize heap200c.mem 1064 = 112 ∧ roundup 8 ALIGNMENT = 8 ∧
    shrinkWidth (roundup 8 ALIGNMENT) = 16 ∧
    (myrealloc 5 heap200c 1024 8).map Prod.fst = some 1088 := by
  refine ⟨by rfl, by rfl, by rfl, by rfl, by rfl, by rfl, by rfl, by rfl, by rfl⟩

/-- C19: the in-place shrink decision.  For a used block `⟨h, s⟩` of a state represented
with the strict duality and a request `0 < n ≤ 2^30` whose rounded size is below `s`, let
`w` be the rounded size promoted to 16.  When `s = w` the call returns `h + 24` and only
rewrites the status.  When `s ≠ w` and `s < w + 48` the shrink is rejected before any
coalescing, whatever follows the block: the call is the fallback (allocate, copy, release)
and does not return `h + 24`.  When `w + 48 ≤ s` the call returns `h + 24`, the block is
used with size `w`, and the new free block at `h + 24 + w` is the head of the free list; its
size is `s - w - 24` when the block is the last one or is followed by a used block, and
`s + t + 24 - w - 24` when it is followed by a free block of size `t`, whose node leaves the
list. -/
theorem C19_shrink_decision (st : State) (l1 l2 : List Blk) (fl : List Nat)
    (h s n fuel w : Nat) (hR : Rep True st (l1 ++ ⟨h, s, false⟩ :: l2) fl)
    (hn1 : 0 < n) (hn2 : n ≤ 1073741824) (hlt : roundup n ALIGNMENT < s)
    (hw : w = shrinkWidth (roundup n ALIGNMENT)) (hfuel : fl.length < fuel) :
    w = max ((n + 7) / 8 * 8) 16 ∧
    (s = w →
      myrealloc fuel st (h + 24) n = some (h + 24, { st with mem := set_status st.mem h 1 })) ∧
    (s ≠ w → s < w + 48 →
      myrealloc fuel st (h + 24) n =
        realloc_fallback fuel st (h + 24) (roundup n ALIGNMENT) (roundup n ALIGNMENT) ∧
      ∃ q st2, myrealloc fuel st (h + 24) n = some (q, st2) ∧ q ≠ h + 24) ∧
    (w + 48 ≤ s →
      ∃ st2, myrealloc fuel st (h + 24) n = some (h + 24, st2) ∧
        ((Rep True st2 (l1 ++ ⟨h, w, false⟩ :: ⟨h + 24 + w, s - w - 24, true⟩ :: l2)
            ((h + 24 + w + 8) :: fl) ∧
          (l2 = [] ∨ ∃ nh t l2b, l2 = ⟨nh, t, false⟩ :: l2b)) ∨
        (∃ nh t l2b f1 f2, l2 = ⟨nh, t, true⟩ :: l2b ∧ fl = f1 ++ (nh + 8) :: f2 ∧
          Rep True st2
            (l1 ++ ⟨h, w, false⟩ :: ⟨h + 24 + w, s + t + 24 - w - 24, true⟩ :: l2b)
            ((h + 24 + w + 8) :: (f1 ++ f2))))) := by
  have hB : (⟨h, s, false⟩ : Blk) ∈ l1 ++ ⟨h, s, false⟩ :: l2 := by simp
  have hre := roundup_eq n (by omega)
  have hr8 : roundup n ALIGNMENT % 8 = 0 := by rw [hre]; omega
  have hsw : shrinkWidth (roundup n ALIGNMENT) =
      if roundup n ALIGNMENT < 16 then 16 else roundup n ALIGNMENT := by
    unfold shrinkWidth
    rw [roundup_idem hr8 (by omega)]
    rfl
  have hun := myrealloc_unfold hR hB n fuel hn1 hn2
  rw [if_neg (by omega), if_pos hlt] at hun
  subst hw
  refine ⟨?_, ?_, ?_, ?_⟩
  · rw [hsw, hre]
    split_ifs <;> omega
  · intro c4
    have e : shrink_chunk st h (roundup n ALIGNMENT) =
        (true, { st with mem := set_status st.mem h 1 }) := by
      rw [shrink_chunk_eq, (hR.ok _ hB).1, if_pos c4]
    rw [hun, e]
    rfl
  · intro c4 c5
    have e := shrink_chunk_reject (roundup n ALIGNMENT) (hR.ok _ hB).1 c4 c5
    have e2 : myrealloc fuel st (h + 24) n =
        realloc_fallback fuel st (h + 24) (roundup n ALIGNMENT) (roundup n ALIGNMENT) := by
      rw [hun, e]
      rfl
    refine ⟨e2, ?_⟩
    rw [e2]
    rcases realloc_fallback_cases hR hB (roundup n ALIGNMENT) (roundup n ALIGNMENT) fuel hfuel
      (le_refl _) with e3 | ⟨hq, sq, k1, k2, f1, f2, stm, -, -, -, -, -, hne, -, -, -, e3⟩
    · exact ⟨0, st, e3, by omega⟩
    · exact ⟨hq + 24, _, e3, by omega⟩
  · intro c5
    obtain ⟨ht, -, -, hsp⟩ := shrink_chunk_spec hR (roundup n ALIGNMENT) c5
    refine ⟨(shrink_chunk st h (roundup n ALIGNMENT)).2, ?_, ?_⟩
    · rw [hun, if_pos ht]
    · rcases hsp with ⟨hR1, hl⟩ | ⟨nh, t, l2b, f1, f2, e1, e2, -, hR1⟩
      · left
        refine ⟨hR1, ?_⟩
        rcases hl with hl | ⟨nh, t, g, l2b, hl, hs⟩
        · exact Or.inl hl
        · right
          refine ⟨nh, t, l2b, ?_⟩
          cases g with
          | false => exact hl
          | true =>
            exact absurd ((hR.ok ⟨nh, t, true⟩ (by rw [hl]; simp)).2.2 rfl trivial) hs
      · exact Or.inr ⟨nh, t, l2b, f1, f2, e1, e2, hR1⟩

/-- The heap after `mymalloc(40)`: a used block of size 40 followed by a free block. -/
theorem heap200c_rep : Rep True heap200c [⟨1000, 40, false⟩, ⟨1064, 112, true⟩] [1072] :=
  (@create_chunk_hdr_spec True heap200 [] [] [] [] 1000 176 40 false heap200_rep
    (by decide) (by decide)).1

/-- C19 witness: `myrealloc(1024, 8)` on the heap whose block at 1000 has size 40. -/
theorem C19_shrink_decision_witness :
    (Rep True heap200c ([] ++ ⟨1000, 40, false⟩ :: [⟨1064, 112, true⟩]) [1072] ∧
      0 < 8 ∧ 8 ≤ 1073741824 ∧ roundup 8 ALIGNMENT < 40 ∧
      16 = shrinkWidth (roundup 8 ALIGNMENT) ∧ [1072].length < 5) ∧
    (16 = max ((8 + 7) / 8 * 8) 16 ∧
    (40 = 16 →
      myrealloc 5 heap200c (1000 + 24) 8 =
        some (1000 + 24, { heap200c with mem := set_status heap200c.mem 1000 1 })) ∧
    (40 ≠ 16 → 40 < 16 + 48 →
      myrealloc 5 heap200c (1000 + 24) 8 =
        realloc_fallback 5 heap200c (1000 + 24) (roundup 8 ALIGNMENT) (roundup 8 ALIGNMENT) ∧
      ∃ q st2, myrealloc 5 heap200c (1000 + 24) 8 = some (q, st2) ∧ q ≠ 1000 + 24) ∧
    (16 + 48 ≤ 40 →
      ∃ st2, myrealloc 5 heap200c (1000 + 24) 8 = some (1000 + 24, st2) ∧
        ((Rep True st2 ([] ++ ⟨1000, 16, false⟩ :: ⟨1000 + 24 + 16, 40 - 16 - 24, true⟩ ::
              [⟨1064, 112, true⟩])
            ((1000 + 24 + 16 + 8) :: [1072]) ∧
          ([(⟨1064, 112, true⟩ : Blk)] = [] ∨
            ∃ nh t l2b, [(⟨1064, 112, true⟩ : Blk)] = ⟨nh, t, false⟩ :: l2b)) ∨
        (∃ nh t l2b f1 f2, [(⟨1064, 112, true⟩ : Blk)] = ⟨nh, t, true⟩ :: l2b ∧
          [1072] = f1 ++ (nh + 8) :: f2 ∧
          Rep True st2
            ([] ++ ⟨1000, 16, false⟩ :: ⟨1000 + 24 + 16, 40 + t + 24 - 16 - 24, true⟩ :: l2b)
            ((1000 + 24 + 16 + 8) :: (f1 ++ f2)))))) :=
  ⟨⟨heap200c_rep, by decide, by decide, by decide, by rfl, by decide⟩,
    C19_shrink_decision heap200c [] [⟨1064, 112, true⟩] [1072] 1000 40 8 5 16 heap200c_rep
      (by decide) (by decide) (by decide) (by rfl) (by decide)⟩

/-- C20 counterexample: on the heap of `2 ^ 31` bytes at 1000, `mymalloc(8)` returns 1024; the
block has size 24 and is followed by a free block of size 2147483576.  For the request
`2 ^ 30 + 1` the rounded size 1073741832 exceeds 24 and is below the two sizes together, but
`myrealloc` returns `NULL` and changes nothing: the request is above `MAX_HEAP_SIZE`. -/
theorem C20_counterexample :
    mymalloc 5 heapBig 8 = some (1024, heapBiga) ∧
    hsize heapBiga.mem 1000 = 24 ∧ get_next_hdr heapBiga.mem 1000 = 1048 ∧
    hstatus heapBiga.mem 1048 = 0 ∧ hsize heapBiga.mem 1048 = 2147483576 ∧
    roundup 1073741825 ALIGNMENT = 1073741832 ∧ 24 < 1073741832 ∧
    1073741832 ≤ 24 + 2147483576 ∧
    myrealloc 5 heapBiga 1024 1073741825 = some (NULL, heapBiga) := by
  refine ⟨by rfl, by rfl, by rfl, by rfl, by rfl, by rfl, by decide, by decide, by rfl⟩

/-- C20: growing in place.  In a state reached from a successful `myinit`, let `p` be a
currently allocated address, `h` its header, `s` the size of the block, `nh` the header that
follows and `t` its size, `n ≤ 2^30` a request whose rounded size `r` exceeds `s`.  The
header `nh` lies inside the segment, `myrealloc(p, n)` returns for every large enough fuel,
and it returns `p` exactly when `nh` has status 0 and `r ≤ s + t`.  In that case the bytes of
the payload are unchanged, the block has size `r` and a non-zero status, the header at
`p + r` has size `s + t - r` and status 0, its node is the head of a well-formed free list,
and the node of the absorbed block is not in that list.  Otherwise the call is the fallback
that allocates `r`, copies `s` bytes and releases `p`. -/
theorem C20_grow_in_place (st0 : State) (start length : Nat) (st : State) (A : List Nat)
    (p n fuel q : Nat) (st2 : State) (h s nh t r : Nat)
    (hinit : (myinit st0 start length).1 = true) (h1 : 24 ≤ length)
    (h2 : length < 4294967296 + 24) (h3 : start + length < 18446744073709551616)
    (hr : Reach st0 start length st A) (hp : p ∈ A) (hn : n ≤ 1073741824)
    (eh : h = payload_to_hdr p) (es : s = hsize st.mem h)
    (enh : nh = get_next_hdr st.mem h) (et : t = hsize st.mem nh)
    (er : r = roundup n ALIGNMENT) (hgt : s < r)
    (hm : myrealloc fuel st p n = some (q, st2)) :
    nh < st.segment_end ∧
    (∃ k, ∀ fuel2, k ≤ fuel2 → (myrealloc fuel2 st p n).isSome = true) ∧
    (q = p ↔ (hstatus st.mem nh = 0 ∧ r ≤ s + t)) ∧
    (hstatus st.mem nh = 0 → r ≤ s + t →
      (∀ i, i < s → st2.mem (p + i) = st.mem (p + i)) ∧
      hsize st2.mem h = r ∧ hstatus st2.mem h ≠ 0 ∧
      hsize st2.mem (p + r) = s + t - r ∧ hstatus st2.mem (p + r) = 0 ∧
      st2.f_start = p + r + 8 ∧
      ∃ bs2 fl2, Rep True st2 bs2 ((p + r + 8) :: fl2) ∧ nh + 8 ∉ (p + r + 8) :: fl2) ∧
    (¬ (hstatus st.mem nh = 0 ∧ r ≤ s + t) →
      myrealloc fuel st p n = realloc_fallback fuel st p r s) := by
  have h0 : start ≠ 0 := myinit_true_start hinit
  rcases reach_strict h0 h1 h2 h3 hr with ⟨-, e⟩ | hI
  · rw [e] at hp; simp at hp
  obtain ⟨bs, fl, hR, hU, -, hP⟩ := hI
  obtain ⟨b, hb1, hb2, hb3⟩ := hP p hp
  obtain ⟨hh, s1, f⟩ := b
  simp only at hb2 hb3
  subst hb2 hb3
  have ehh : h = hh := by
    rw [eh]
    unfold payload_to_hdr
    simp
  subst ehh
  have es1 : s1 = s := by rw [es]; exact ((hR.ok _ hb1).1).symm
  subst es1
  have hUB := hU _ hb1 rfl
  simp only at hUB
  obtain ⟨l1, l2, el⟩ := List.append_of_mem hb1
  subst el
  cases l2 with
  | nil =>
    have hc : h + 24 + s1 = st.segment_end := (contig_split hR.contig).2
    omega
  | cons N l2b =>
    obtain ⟨nh1, t1, g⟩ := N
    have hNm : (⟨nh1, t1, g⟩ : Blk) ∈ l1 ++ ⟨h, s1, false⟩ :: ⟨nh1, t1, g⟩ :: l2b := by simp
    have hnh : nh1 = h + 24 + s1 := (contig_split hR.contig).2.1
    have enh1 : nh = nh1 := by
      rw [enh]
      unfold get_next_hdr
      rw [← es]
      simp only [sizeof_header, sizeof_prev_next]
      omega
    subst enh1
    have et1 : t1 = t := by rw [et]; exact ((hR.ok _ hNm).1).symm
    subst et1
    have hNb := hR.blk hNm
    simp only at hNb
    have hn0 : 0 < n := by
      rcases Nat.eq_zero_or_pos n with e | e
      · rw [e] at er
        have : roundup 0 ALIGNMENT = 0 := by rfl
        omega
      · exact e
    have hre := roundup_eq n (by omega)
    have hun : ∀ k, myrealloc k st (h + 24) n =
        if (in_place_realloc st h r).1 then some (h + 24, (in_place_realloc st h r).2)
        else realloc_fallback k (in_place_realloc st h r).2 (h + 24) r s1 := by
      intro k
      rw [myrealloc_unfold hR hb1 n k hn0 hn, ← er, if_neg (by omega), if_neg (by omega)]
    obtain ⟨hiff, hsp⟩ := in_place_realloc_spec hR r
    have hfb : ∀ k q2 st3, fl.length < k →
        realloc_fallback k st (h + 24) r s1 = some (q2, st3) → q2 ≠ h + 24 := by
      intro k q2 st3 hk hfe
      rcases realloc_fallback_cases hR hb1 r s1 k hk (by omega) with e3 |
        ⟨hq, sq, k1, k2, f1, f2, stm, -, -, -, -, -, hne, -, -, -, e3⟩
      · rw [e3] at hfe
        simp only [Option.some.injEq, Prod.mk.injEq] at hfe
        omega
      · rw [e3] at hfe
        simp only [Option.some.injEq, Prod.mk.injEq] at hfe
        omega
    refine ⟨by omega, ⟨fl.length + 1, fun fuel2 hk => ?_⟩, ?_, ?_, ?_⟩
    · obtain ⟨q2, st3, e, -⟩ := myrealloc_rep hR hU hb1 n fuel2 (by omega)
      rw [e]
      rfl
    · constructor
      · intro hq
        by_contra hc
        have hf : (in_place_realloc st h r).1 = false := by
          cases hx : (in_place_realloc st h r).1 with
          | false => rfl
          | true => exact absurd (hiff.mp hx) hc
        have hm2 := myrealloc_mono hm (fl.length + 1 + fuel) (by omega)
        rw [hun, hf, in_place_realloc_false hf] at hm2
        simp only [Bool.false_eq_true, if_false] at hm2
        exact hfb _ _ _ (by omega) hm2 hq
      · intro hc
        rw [hun, hiff.mpr hc] at hm
        simp only [if_true, Option.some.injEq, Prod.mk.injEq] at hm
        exact hm.1.symm
    · intro c1 c2
      have ht := hiff.mpr ⟨c1, c2⟩
      rw [hun, ht] at hm
      simp only [if_true, Option.some.injEq, Prod.mk.injEq] at hm
      obtain ⟨-, hm2⟩ := hm
      subst hm2
      obtain ⟨f1, f2, hfl, hg, hR1, -, -⟩ := hsp c1 c2
      have hBn : (⟨h, r, false⟩ : Blk) ∈
          l1 ++ ⟨h, r, false⟩ :: ⟨h + 24 + r, s1 + t1 - r, true⟩ :: l2b := by simp
      have hFn : (⟨h + 24 + r, s1 + t1 - r, true⟩ : Blk) ∈
          l1 ++ ⟨h, r, false⟩ :: ⟨h + 24 + r, s1 + t1 - r, true⟩ :: l2b := by simp
      obtain ⟨bs3, fl3, hM, hw1, -, -⟩ := in_place_realloc_moved hR hUB r ht
      have hd := hR1.list
      refine ⟨?_, (hR1.ok _ hBn).1, (hR1.ok _ hBn).2.1 rfl, (hR1.ok _ hFn).1,
        (hR1.ok _ hFn).2.2 rfl trivial, hd.1, _, f1 ++ f2, hR1, ?_⟩
      · intro i hi
        have := hM.meta.payload hR.contig hM.rep.contig hb1 hw1 rfl (i := i)
          (by simp only; omega) (by simp only; omega)
        simpa using this
      · have hnd := hR.nodup
        rw [hfl] at hnd
        intro hmem
        simp only [List.mem_cons] at hmem
        rcases hmem with hmem | hmem
        · omega
        · have := ((mem_mid_iff hnd).mp hmem).2
          exact this rfl
    · intro hc
      have hf : (in_place_realloc st h r).1 = false := by
        cases hx : (in_place_realloc st h r).1 with
        | false => rfl
        | true => exact absurd (hiff.mp hx) hc
      rw [hun, hf, in_place_realloc_false hf]
      rfl

/-- C20 witness: `myrealloc(1024, 100)` on the heap with the block at 1000 (size 24)
allocated and followed by the free block at 1048 (size 128). -/
theorem C20_grow_in_place_witness :
    ((myinit blank 1000 200).1 = true ∧ 24 ≤ 200 ∧ 200 < 4294967296 + 24 ∧
      1000 + 200 < 18446744073709551616 ∧ Reach blank 1000 200 heap200a [1024] ∧
      1024 ∈ [1024] ∧ 100 ≤ 1073741824 ∧ 1000 = payload_to_hdr 1024 ∧
      24 = hsize heap200a.mem 1000 ∧ 1048 = get_next_hdr heap200a.mem 1000 ∧
      128 = hsize heap200a.mem 1048 ∧ 104 = roundup 100 ALIGNMENT ∧ 24 < 104 ∧
      myrealloc 5 heap200a 1024 100 = some (1024, heap200b)) ∧
    (1048 < heap200a.segment_end ∧
    (∃ k, ∀ fuel2, k ≤ fuel2 → (myrealloc fuel2 heap200a 1024 100).isSome = true) ∧
    (1024 = 1024 ↔ (hstatus heap200a.mem 1048 = 0 ∧ 104 ≤ 24 + 128)) ∧
    (hstatus heap200a.mem 1048 = 0 → 104 ≤ 24 + 128 →
      (∀ i, i < 24 → heap200b.mem (1024 + i) = heap200a.mem (1024 + i)) ∧
      hsize heap200b.mem 1000 = 104 ∧ hstatus heap200b.mem 1000 ≠ 0 ∧
      hsize heap200b.mem (1024 + 104) = 24 + 128 - 104 ∧
      hstatus heap200b.mem (1024 + 104) = 0 ∧
      heap200b.f_start = 1024 + 104 + 8 ∧
      ∃ bs2 fl2, Rep True heap200b bs2 ((1024 + 104 + 8) :: fl2) ∧
        1048 + 8 ∉ (1024 + 104 + 8) :: fl2) ∧
    (¬ (hstatus heap200a.mem 1048 = 0 ∧ 104 ≤ 24 + 128) →
      myrealloc 5 heap200a 1024 100 = realloc_fallback 5 heap200a 1024 104 24)) :=
  ⟨⟨by decide, by decide, by decide, by decide, heap200a_reach, by decide, by decide, by rfl,
      by rfl, by rfl, by rfl, by rfl, by decide, by rfl⟩,
    C20_grow_in_place blank 1000 200 heap200a [1024] 1024 100 5 1024 heap200b 1000 24 1048
      128 104 (by decide) (by decide) (by decide) (by decide) heap200a_reach (by decide)
      (by decide) (by rfl) (by rfl) (by rfl) (by rfl) (by rfl) (by decide) (by rfl)⟩


/-- C21: the last block is never handed out.  In every state reached from a successful
`myinit(start, length)` with `24 ≤ length < 2^32` by `mymalloc`, `myfree` and `myrealloc`
calls on currently allocated addresses, the state is represented by a tiling whose last
block ends at `segment_end` and has its node in the free list; the head of the free list is
not `NULL`; for every block outside the free list, and for the block of every currently
allocated address, the header that follows (the one `merge_free` and `in_place_realloc`
read) lies strictly below `segment_end`; and the last block has status 0 as soon as an
address is allocated or when the status word of the segment start was 0 before `myinit`. -/
theorem C21_last_block_free (st0 : State) (start length : Nat) (st : State) (A : List Nat)
    (hinit : (myinit st0 start length).1 = true) (h1 : 24 ≤ length) (h2 : length < 4294967296)
    (h3 : start + length < 18446744073709551616) (hr : Reach st0 start length st A) :
    ∃ bs fl, Rep False st bs fl ∧
      (∃ l b, bs = l ++ [b] ∧ b.hdr + 24 + b.size = st.segment_end ∧ b.free = true ∧
        b.hdr + 8 ∈ fl ∧ ((hstatus st0.mem start = 0 ∨ A ≠ []) → hstatus st.mem b.hdr = 0)) ∧
      st.f_start ≠ NULL ∧
      (∀ b ∈ bs, b.free = false → get_next_hdr st.mem b.hdr < st.segment_end) ∧
      (∀ p ∈ A, ∃ b ∈ bs, b.free = false ∧ payload_to_hdr p = b.hdr ∧
        get_next_hdr st.mem (payload_to_hdr p) < st.segment_end) := by
  have h0 : start ≠ 0 := myinit_true_start hinit
  obtain ⟨bs, fl, hR, hU, -, hP⟩ :=
    reach_inv (S := False) h0 h1 (by omega) h3 (fun hf => hf.elim) hr
  obtain ⟨hb, he⟩ := reach_bounds h0 h1 (by omega) h3 hr
  obtain ⟨⟨l, b, e, hend, hf, hm⟩, hfs⟩ := last_block_free hR hU (by omega)
  have hnext : ∀ c ∈ bs, c.free = false → get_next_hdr st.mem c.hdr < st.segment_end := by
    intro c hc hcf
    have := hU c hc hcf
    unfold get_next_hdr
    rw [(hR.ok c hc).1]
    simp only [sizeof_header, sizeof_prev_next]
    omega
  refine ⟨bs, fl, hR, ⟨l, b, e, hend, hf, hm, ?_⟩, hfs, hnext, ?_⟩
  · intro hcase
    have hbm : b ∈ bs := by rw [e]; simp
    have hstrict : ∃ bs2 fl2, Rep True st bs2 fl2 := by
      rcases hcase with hz | hA
      · obtain ⟨bs2, fl2, hR2, -⟩ :=
          reach_inv (S := True) h0 h1 (by omega) h3 (fun _ => hz) hr
        exact ⟨bs2, fl2, hR2⟩
      · rcases reach_strict h0 h1 (by omega) h3 hr with ⟨-, e2⟩ | ⟨bs2, fl2, hR2, -⟩
        · exact absurd e2 hA
        · exact ⟨bs2, fl2, hR2⟩
    obtain ⟨bs2, fl2, hR2⟩ := hstrict
    obtain ⟨e1, -⟩ := hR.unique hR2
    subst e1
    exact (hR2.ok b hbm).2.2 hf trivial
  · intro p hp
    obtain ⟨c, hc1, hc2, hc3⟩ := hP p hp
    have hph : payload_to_hdr p = c.hdr := by
      rw [hc3]
      unfold payload_to_hdr
      simp
    refine ⟨c, hc1, hc2, hph, ?_⟩
    rw [hph]
    exact hnext c hc1 hc2

/-- C21 witness: the state after `myinit` of a 200-byte segment at 1000 and `mymalloc(8)`. -/
theorem C21_last_block_free_witness :
    ((myinit blank 1000 200).1 = true ∧ 24 ≤ 200 ∧ 200 < 4294967296 ∧
      1000 + 200 < 18446744073709551616 ∧ Reach blank 1000 200 heap200a [1024]) ∧
    ∃ bs fl, Rep False heap200a bs fl ∧
      (∃ l b, bs = l ++ [b] ∧ b.hdr + 24 + b.size = heap200a.segment_end ∧ b.free = true ∧
        b.hdr + 8 ∈ fl ∧
        ((hstatus blank.mem 1000 = 0 ∨ [1024] ≠ []) → hstatus heap200a.mem b.hdr = 0)) ∧
      heap200a.f_start ≠ NULL ∧
      (∀ b ∈ bs, b.free = false → get_next_hdr heap200a.mem b.hdr < heap200a.segment_end) ∧
      (∀ p ∈ [1024], ∃ b ∈ bs, b.free = false ∧ payload_to_hdr p = b.hdr ∧
        get_next_hdr heap200a.mem (payload_to_hdr p) < heap200a.segment_end) :=
  ⟨⟨by decide, by decide, by decide, by decide, heap200a_reach⟩,
    C21_last_block_free blank 1000 200 heap200a [1024] (by decide) (by decide) (by decide)
      (by decide) heap200a_reach⟩


end Explicit
